import Mathlib

/-!
# SLING frame store: typed views and the frame Builder

A shallow embedding of `frame/object.h` and `frame/object.cc`: the pending slot
buffer of a `Builder`, its edit operations (`Add`, `Set`, `Delete`, `AddFrom`,
`Clear`), the two commit operations (`Create`, `Update`) and the `Frame`
accessors (`size`, `name`, `value`, `Has`, `Get`, `GetString`, `GetInt`, ...).

`frame/store.h` and `frame/store.cc` are not among the embedded sources. What
the embedded code needs from them (`Handle`, `Slot`, `Datum`, `Store`) is
modelled from the specification and every such definition says so in its doc
comment.
-/

namespace Sling

/-! ## Handles, slots and heap objects -/

/-- Modelled from the spec: the `Handle` of `frame/store.h`, a tagged value that
is either an inline scalar (integer, float, nil) or a reference made of a
local/global selector and a heap index. The float payload is kept as its bit
pattern; no floating point arithmetic is performed on it. -/
inductive Handle where
  | nil
  | int (value : Int)
  | float (bits : Nat)
  | localRef (index : Nat)
  | globalRef (index : Nat)
  deriving DecidableEq

namespace Handle

/-- Modelled from the spec: `Handle::IsNil`, the test for the nil handle. -/
def IsNil : Handle → Bool
  | nil => true
  | _ => false

/-- Modelled from the spec: `Handle::IsInt`, the handle carries the integer tag. -/
def IsInt : Handle → Bool
  | int _ => true
  | _ => false

/-- Modelled from the spec: `Handle::IsFloat`, the handle carries the float tag. -/
def IsFloat : Handle → Bool
  | float _ => true
  | _ => false

/-- Modelled from the spec: `Handle::IsRef`, the handle is not a number. The
nil handle is a reference that denotes no object, which is why the accessors
of `object.cc` test `value.IsRef() && !value.IsNil()` before dereferencing. -/
def IsRef : Handle → Bool
  | nil => true
  | localRef _ => true
  | globalRef _ => true
  | _ => false

/-- Modelled from the spec: `Handle::AsInt`, the integer payload (only meaningful
when `IsInt`). -/
def AsInt : Handle → Int
  | int v => v
  | _ => 0

/-- Modelled from the spec: `Handle::AsFloat`, the float payload as a bit
pattern (only meaningful when `IsFloat`). -/
def AsFloat : Handle → Nat
  | float b => b
  | _ => 0

/-- Modelled from the spec: the fast constant for the integer zero, which is
also the boolean false. -/
def zero : Handle := int 0

/-- Modelled from the spec: the fast constant for the integer one, which is
also the boolean true. -/
def one : Handle := int 1

/-- Modelled from the spec: `Handle::IsTrue`, the test for the constant true.
Only its value on the two boolean constants is used below. -/
def IsTrue (h : Handle) : Bool := decide (h = one)

/-- Modelled from the spec: the reserved name `id`. -/
def id : Handle := globalRef 1

/-- Modelled from the spec: the reserved name `isa`. -/
def isa : Handle := globalRef 2

/-- Modelled from the spec: the reserved name `is`. -/
def is : Handle := globalRef 3

end Handle

/-- Modelled from the spec: `Handle::Bool` (named `ofBool` here, `Bool` being
the type of the argument). Booleans are the integer constants one and zero;
this is why `Frame::GetBool` tests `IsInt()` before `IsTrue()`. -/
def Handle.ofBool (b : Bool) : Handle := if b then Handle.one else Handle.zero

/-- Modelled from the spec: a `Slot` of `frame/store.h`, a (name, value) pair of
handles. -/
structure Slot where
  name : Handle
  value : Handle
  deriving DecidableEq

/-- Modelled from the spec: `sizeof(Slot)` in bytes. Only its being positive
is used. -/
def sizeofSlot : Nat := 8

/-! ## Heap objects and the store -/

/-- Modelled from the spec: the `FrameDatum` of `frame/store.h`, an ordered
sequence of slots together with the mark that tells a proxy (a frame that only
reserves the identity of an undefined symbol) from a defined frame. -/
structure FrameDatum where
  proxy : Bool
  slots : List Slot
  deriving DecidableEq

namespace FrameDatum

/-- Modelled from the spec: `FrameDatum::size`, the size of the slots in bytes. -/
def size (f : FrameDatum) : Nat := f.slots.length * sizeofSlot

/-- Modelled from the spec: the scan of `FrameDatum::get`, the value of the
first slot with the name, nil when no slot has it. -/
def getIn (name : Handle) : List Slot → Handle
  | [] => Handle.nil
  | s :: rest => if s.name = name then s.value else getIn name rest

/-- Modelled from the spec: the scan of `FrameDatum::has`, whether some slot
has the name. -/
def hasIn (name : Handle) : List Slot → Bool
  | [] => false
  | s :: rest => if s.name = name then true else hasIn name rest

/-- Modelled from the spec: `FrameDatum::get`; lookup returns the first match
and nil on a miss. -/
def get (f : FrameDatum) (name : Handle) : Handle := getIn name f.slots

/-- Modelled from the spec: `FrameDatum::has`. -/
def has (f : FrameDatum) (name : Handle) : Bool := hasIn name f.slots

/-- Modelled from the spec: `FrameDatum::IsProxy`. -/
def IsProxy (f : FrameDatum) : Bool := f.proxy

end FrameDatum

/-- Modelled from the spec: the `Datum` of `frame/store.h`, a heap payload with
a discriminant (String, Frame, Symbol, Array). A symbol carries its name (a
numeric id or a reference to a string), its value and its bound flag. -/
inductive Datum where
  | string (str : String)
  | frame (f : FrameDatum)
  | symbol (name : Handle) (value : Handle) (bound : Bool)
  | array (elems : List Handle)
  deriving DecidableEq

/-- Modelled from the spec: `Datum::IsString`. -/
def Datum.IsString : Datum → Bool
  | Datum.string _ => true
  | _ => false

/-- Modelled from the spec: the `Store` of `frame/store.h`, seen from one
(local) store: the object table of the parent global store (empty when there
is none), the object table of the store itself, and the symbol table mapping a
name to the handle of its symbol. Garbage collection is not modelled. -/
structure Store where
  globals : List Datum
  heap : List Datum
  symbols : List (String × Handle)
  deriving DecidableEq

namespace Store

/-- Modelled from the spec: `Store::Deref` resolves a handle to its datum.
`none` stands for a handle that denotes no object (an inline scalar, nil, or an
index outside the object table), on which the C++ call is undefined. -/
def Deref (s : Store) : Handle → Option Datum
  | Handle.localRef i => s.heap[i]?
  | Handle.globalRef i => s.globals[i]?
  | _ => none

/-- Modelled from the spec: `Store::GetFrame`, the frame datum a handle
denotes; `none` when the handle does not denote a frame. -/
def GetFrame (s : Store) (h : Handle) : Option FrameDatum :=
  match s.Deref h with
  | some (Datum.frame f) => some f
  | _ => none

/-- Modelled from the spec: `Store::IsProxy`, whether the handle denotes a
proxy frame. -/
def IsProxy (s : Store) (h : Handle) : Bool :=
  match s.Deref h with
  | some (Datum.frame f) => f.IsProxy
  | _ => false

/-- Modelled from the spec: allocation of a new payload; the new object gets
the next free index of the store's own object table. -/
def Allocate (s : Store) (d : Datum) : Store × Handle :=
  ({ s with heap := s.heap ++ [d] }, Handle.localRef s.heap.length)

/-- Modelled from the spec: in-place logical replacement, after which the old
handle denotes the new content. -/
def Replace (s : Store) (h : Handle) (d : Datum) : Store :=
  match h with
  | Handle.localRef i => { s with heap := s.heap.set i d }
  | Handle.globalRef i => { s with globals := s.globals.set i d }
  | _ => s

/-- Modelled from the spec: `Store::AllocateFrame(begin, end, original)`.
Without an existing handle (nil) a new frame is allocated; with an existing
handle the frame is replaced in place and the same handle is returned. The
result is a defined frame, not a proxy. -/
def AllocateFrame (s : Store) (slots : List Slot) (original : Handle) : Store × Handle :=
  if original.IsNil then s.Allocate (Datum.frame { proxy := false, slots := slots })
  else (s.Replace original (Datum.frame { proxy := false, slots := slots }), original)

/-- Modelled from the spec: `Store::AllocateString`. -/
def AllocateString (s : Store) (str : String) : Store × Handle :=
  s.Allocate (Datum.string str)

/-- Modelled from the spec: `Store::LookupExisting`, a pure probe of the symbol
table that returns the value of the symbol, nil on a miss. -/
def LookupExisting (s : Store) (name : String) : Handle :=
  match s.symbols.lookup name with
  | none => Handle.nil
  | some sym =>
    match s.Deref sym with
    | some (Datum.symbol _ value _) => value
    | _ => Handle.nil

/-- Modelled from the spec: `Store::Lookup` interns the name. A name already in
the symbol table yields the value of its symbol. For an absent name the store
allocates the name string, an unbound symbol and a proxy frame whose first slot
is the id slot, enters the symbol in the symbol table and returns the proxy. -/
def Lookup (s : Store) (name : String) : Store × Handle :=
  match s.symbols.lookup name with
  | some _ => (s, s.LookupExisting name)
  | none =>
    let n := s.heap.length
    let str := Handle.localRef n
    let sym := Handle.localRef (n + 1)
    let proxy := Handle.localRef (n + 2)
    ({ s with
        heap := s.heap ++ [Datum.string name, Datum.symbol str proxy false,
          Datum.frame { proxy := true, slots := [{ name := Handle.id, value := sym }] }],
        symbols := (name, sym) :: s.symbols },
      proxy)

/-- Modelled from the spec: `Store::Symbol()`, a new anonymous symbol: its name
is a generated numeric id (here the index of the new object), it is unbound
and has no value. -/
def Symbol (s : Store) : Store × Handle :=
  s.Allocate (Datum.symbol (Handle.int s.heap.length) Handle.nil false)

/-- Modelled from the spec: `Store::Symbol(Text name)`, the symbol of the name,
which is interned first when it is absent. -/
def SymbolOf (s : Store) (name : String) : Store × Handle :=
  let r := s.Lookup name
  (r.1, (r.1.symbols.lookup name).getD Handle.nil)

end Store

/-! ## The Frame view -/

/-- The `Frame` view of object.h: a handle paired with its store. The store
component is the state of the store at the time the view is read. -/
structure Frame where
  store : Store
  handle : Handle
  deriving DecidableEq

namespace Frame

/-- Embeds `Frame::frame()`: `datum()->AsFrame()`. `none` when the handle does not
denote a frame, where the C++ accessor is undefined. -/
def frame (self : Frame) : Option FrameDatum := self.store.GetFrame self.handle

/-- Embeds `Frame::IsProxy`. -/
def IsProxy (self : Frame) : Option Bool := self.frame.map FrameDatum.IsProxy

/-- Embeds `Frame::size`: `frame()->size() / sizeof(Slot)`. -/
def size (self : Frame) : Option Nat := self.frame.map (fun f => f.size / sizeofSlot)

/-- Embeds `Frame::name(index)`: `frame()->begin()[index].name`; `none` when the index
is outside the frame (the `DCHECK_LT(index, size())`). -/
def name (self : Frame) (index : Nat) : Option Handle :=
  match self.frame with
  | none => none
  | some f => (f.slots[index]?).map Slot.name

/-- Embeds `Frame::value(index)`: `frame()->begin()[index].value`; `none` when the
index is outside the frame. -/
def value (self : Frame) (index : Nat) : Option Handle :=
  match self.frame with
  | none => none
  | some f => (f.slots[index]?).map Slot.value

/-- Embeds `Frame::Has(Handle name)`. -/
def Has (self : Frame) (name : Handle) : Option Bool :=
  self.frame.map (fun f => f.has name)

/-- Embeds `Frame::Get(Handle name)`: the handle of the returned `Object`, whose store
is the store of the frame. -/
def Get (self : Frame) (name : Handle) : Option Handle :=
  self.frame.map (fun f => f.get name)

/-- Embeds `Frame::GetHandle(Handle name)`. -/
def GetHandle (self : Frame) (name : Handle) : Option Handle :=
  self.frame.map (fun f => f.get name)

/-- Embeds `Frame::GetString(Handle name)`: the characters of the string the slot
value denotes, the empty string otherwise. `none` when the frame or a non-nil
reference value denotes no object, where the C++ accessor is undefined. -/
def GetString (self : Frame) (name : Handle) : Option String :=
  match self.frame with
  | none => none
  | some f =>
    let value := f.get name
    if value.IsRef && !value.IsNil then
      match self.store.Deref value with
      | none => none
      | some datum =>
        match datum with
        | Datum.string str => some str
        | _ => some ""
    else some ""

/-- Embeds `Frame::GetText(Handle name)`: as `GetString`, the result being a `Text`
(a view of the same characters) rather than a copy. -/
def GetText (self : Frame) (name : Handle) : Option String :=
  match self.frame with
  | none => none
  | some f =>
    let value := f.get name
    if value.IsRef && !value.IsNil then
      match self.store.Deref value with
      | none => none
      | some datum =>
        match datum with
        | Datum.string str => some str
        | _ => some ""
    else some ""

/-- Embeds `Frame::GetInt(Handle name, int defval)`. -/
def GetInt (self : Frame) (name : Handle) (defval : Int) : Option Int :=
  self.frame.map (fun f =>
    let value := f.get name
    if value.IsInt then value.AsInt else defval)

/-- Embeds `Frame::GetInt(Handle name)` (object.h): `GetInt(name, 0)`. -/
def GetInt0 (self : Frame) (name : Handle) : Option Int := self.GetInt name 0

/-- Embeds `Frame::GetBool(Handle name)`. -/
def GetBool (self : Frame) (name : Handle) : Option Bool :=
  self.frame.map (fun f =>
    let value := f.get name
    if value.IsInt then value.IsTrue else false)

/-- Embeds `Frame::GetFloat(Handle name)`; the result is the bit pattern of the float,
`0` being the pattern of `0.0`. -/
def GetFloat (self : Frame) (name : Handle) : Option Nat :=
  self.frame.map (fun f =>
    let value := f.get name
    if value.IsFloat then value.AsFloat else 0)

end Frame

/-! ## The pending slot buffer of a Builder

`Builder::slots_` is a `Space<Slot>`: a growable buffer with a `base()`, an
`end()` and a `push()`. It is modelled as the list of the slots between `base()`
and `end()`; a `Slot *` into the buffer is the index of the slot. -/

/-- Modelled from the spec: `Space<Slot>::push`, which extends the buffer by one
slot at its end and returns the position of that slot. The new slot is not
initialised by `push`; both callers write its two fields before anything reads
them. -/
def Space.push (slots : List Slot) : List Slot × Nat :=
  (slots ++ [{ name := Handle.nil, value := Handle.nil }], slots.length)

/-- The assignment `slot->name = h` for the slot at index `slot`. -/
def Space.setName (slots : List Slot) (slot : Nat) (h : Handle) : List Slot :=
  match slots[slot]? with
  | some s => slots.set slot { s with name := h }
  | none => slots

/-- The assignment `slot->value = h` for the slot at index `slot`. -/
def Space.setValue (slots : List Slot) (slot : Nat) (h : Handle) : List Slot :=
  match slots[slot]? with
  | some s => slots.set slot { s with value := h }
  | none => slots

/-- The `Builder` of object.h: the store where frames are created, the handle
of the frame to be replaced (nil when a new frame is to be constructed) and the
pending slots. The store component is the state of the store as the builder
last left it. -/
structure Builder where
  store_ : Store
  handle_ : Handle
  slots_ : List Slot
  deriving DecidableEq

namespace Builder

/-- Embeds `Builder::NewSlot` (object.h): push a slot, set its name and value to nil,
return the buffer and the position of the new slot. -/
def NewSlot (slots : List Slot) : List Slot × Nat :=
  let (buf, slot) := Space.push slots
  let buf := Space.setName buf slot Handle.nil
  let buf := Space.setValue buf slot Handle.nil
  (buf, slot)

/-- The loop of `Builder::NamedSlot`: scan from position `slot` for the first
slot whose name is `name`; `none` when the scan reaches `end()`. -/
def NamedSlot.scan (name : Handle) : List Slot → Nat → Option Nat
  | [], _ => none
  | s :: rest, slot => if s.name = name then some slot else NamedSlot.scan name rest (slot + 1)

/-- Embeds `Builder::NamedSlot` (object.h): the first slot with the name, or a new slot
with that name and a nil value pushed at the end. -/
def NamedSlot (name : Handle) (slots : List Slot) : List Slot × Nat :=
  match NamedSlot.scan name slots 0 with
  | some slot => (slots, slot)
  | none =>
    let (buf, slot) := Space.push slots
    let buf := Space.setName buf slot name
    let buf := Space.setValue buf slot Handle.nil
    (buf, slot)

/-- The first loop of `Builder::Delete`:
`while (slot < end && slot->name != name) slot++`. The first argument bounds the
number of iterations; the caller passes the buffer length. -/
def Delete.find (name : Handle) (buf : List Slot) : Nat → Nat → Nat
  | 0, slot => slot
  | n + 1, slot =>
    match buf[slot]? with
    | none => slot
    | some s => if s.name ≠ name then Delete.find name buf n (slot + 1) else slot

/-- The second loop of `Builder::Delete`: `slot` reads, `current` writes;
a slot with the name is skipped, any other slot is copied down to `current`.
Returns the buffer and the final `current`. The first argument bounds the
number of iterations; the caller passes the buffer length. -/
def Delete.compact (name : Handle) : Nat → List Slot → Nat → Nat → List Slot × Nat
  | 0, buf, _, current => (buf, current)
  | n + 1, buf, slot, current =>
    match buf[slot]? with
    | none => (buf, current)
    | some s =>
      if s.name = name then Delete.compact name n buf (slot + 1) current
      else Delete.compact name n (buf.set current s) (slot + 1) (current + 1)

/-- The body of `Builder::Delete(Handle name)` on the slot buffer.
`set_end(current)` truncates the buffer at `current`. -/
def Delete.run (name : Handle) (slots : List Slot) : List Slot :=
  let slot := Delete.find name slots slots.length 0
  if slot = slots.length then slots
  else
    let (buf, current) := Delete.compact name slots.length slots slot slot
    buf.take current

/-- Embeds `Builder::Builder(Store *store)`: a nil handle and no slots. -/
def new (store : Store) : Builder :=
  { store_ := store, handle_ := Handle.nil, slots_ := [] }

/-- Embeds `Builder::Add(Handle name, Handle value)`. -/
def Add (b : Builder) (name value : Handle) : Builder :=
  let (buf, slot) := NewSlot b.slots_
  let buf := Space.setName buf slot name
  let buf := Space.setValue buf slot value
  { b with slots_ := buf }

/-- Embeds `Builder::Add(Text name, Handle value)`: the name is `store_->Lookup(name)`. -/
def AddText (b : Builder) (name : String) (value : Handle) : Builder :=
  let (buf, slot) := NewSlot b.slots_
  let (store, h) := b.store_.Lookup name
  let buf := Space.setName buf slot h
  let buf := Space.setValue buf slot value
  { b with store_ := store, slots_ := buf }

/-- Embeds `Builder::Add(Handle name, Text value)`: the value is
`store_->AllocateString(value)`. -/
def AddString (b : Builder) (name : Handle) (value : String) : Builder :=
  let (buf, slot) := NewSlot b.slots_
  let buf := Space.setName buf slot name
  let (store, h) := b.store_.AllocateString value
  let buf := Space.setValue buf slot h
  { b with store_ := store, slots_ := buf }

/-- Embeds `Builder::AddLink(Handle name, Text symbol)`: the value is
`store_->Lookup(symbol)`. -/
def AddLink (b : Builder) (name : Handle) (symbol : String) : Builder :=
  let (buf, slot) := NewSlot b.slots_
  let buf := Space.setName buf slot name
  let (store, h) := b.store_.Lookup symbol
  let buf := Space.setValue buf slot h
  { b with store_ := store, slots_ := buf }

/-- Embeds `Builder::AddId(Handle id)`. -/
def AddId (b : Builder) (id : Handle) : Builder :=
  let (buf, slot) := NewSlot b.slots_
  let buf := Space.setName buf slot Handle.id
  let buf := Space.setValue buf slot id
  { b with slots_ := buf }

/-- Embeds `Builder::AddId()`: the id is a new symbol, `store_->Symbol()`. The
returned handle is the second component. -/
def AddIdNew (b : Builder) : Builder × Handle :=
  let (buf, slot) := NewSlot b.slots_
  let buf := Space.setName buf slot Handle.id
  let r := b.store_.Symbol
  let buf := Space.setValue buf slot r.2
  ({ b with store_ := r.1, slots_ := buf }, r.2)

/-- Embeds `Builder::AddId(Text id)`: the id is `store_->Symbol(id)`. -/
def AddIdText (b : Builder) (id : String) : Builder :=
  let (buf, slot) := NewSlot b.slots_
  let buf := Space.setName buf slot Handle.id
  let r := b.store_.SymbolOf id
  let buf := Space.setValue buf slot r.2
  { b with store_ := r.1, slots_ := buf }

/-- Embeds `Builder::AddIsA(Handle type)`. -/
def AddIsA (b : Builder) (type : Handle) : Builder :=
  let (buf, slot) := NewSlot b.slots_
  let buf := Space.setName buf slot Handle.isa
  let buf := Space.setValue buf slot type
  { b with slots_ := buf }

/-- Embeds `Builder::AddIs(Handle type)`. -/
def AddIs (b : Builder) (type : Handle) : Builder :=
  let (buf, slot) := NewSlot b.slots_
  let buf := Space.setName buf slot Handle.is
  let buf := Space.setValue buf slot type
  { b with slots_ := buf }

/-- Embeds `Builder::AddFrom(Handle other)`:
`memcpy(slots_.alloc(frame->size()), frame->begin(), frame->size())`. The buffer
grows by `frame->size()` bytes, which are filled with the first
`frame->size() / sizeof(Slot)` slots of the frame. `none` when `other` does not
denote a frame, where `store_->GetFrame(other)` is undefined. -/
def AddFrom (b : Builder) (other : Handle) : Option Builder :=
  match b.store_.GetFrame other with
  | none => none
  | some frame =>
    let bytes := frame.size
    some { b with slots_ := b.slots_ ++ frame.slots.take (bytes / sizeofSlot) }

/-- Embeds `Builder::Builder(Store *store, Handle handle)`. -/
def ofHandle (store : Store) (handle : Handle) : Option Builder :=
  AddFrom { store_ := store, handle_ := handle, slots_ := [] } handle

/-- Embeds `Builder::Builder(const Frame &frame)`. -/
def ofFrame (frame : Frame) : Option Builder :=
  AddFrom { store_ := frame.store, handle_ := frame.handle, slots_ := [] } frame.handle

/-- Embeds `Builder::Builder(Store *store, Text id)`: the handle is
`store->Lookup(id)`. -/
def ofId (store : Store) (id : String) : Option Builder :=
  let (store, h) := store.Lookup id
  AddFrom { store_ := store, handle_ := h, slots_ := [] } h

/-- Embeds `Builder::Delete(Handle name)`. -/
def Delete (b : Builder) (name : Handle) : Builder :=
  { b with slots_ := Delete.run name b.slots_ }

/-- Embeds `Builder::Delete(Text name)`: `Delete(store_->Lookup(name))`. -/
def DeleteText (b : Builder) (name : String) : Builder :=
  let (store, h) := b.store_.Lookup name
  Delete { b with store_ := store } h

/-- Embeds `Builder::Set(Handle name, Handle value)`:
`NamedSlot(name)->value = value`. -/
def Set (b : Builder) (name value : Handle) : Builder :=
  let (buf, slot) := NamedSlot name b.slots_
  { b with slots_ := Space.setValue buf slot value }

/-- Embeds `Builder::Set(Text name, Handle value)`:
`NamedSlot(store_->Lookup(name))->value = value`. -/
def SetText (b : Builder) (name : String) (value : Handle) : Builder :=
  let (store, h) := b.store_.Lookup name
  let (buf, slot) := NamedSlot h b.slots_
  { b with store_ := store, slots_ := Space.setValue buf slot value }

/-- Embeds `Builder::SetLink(Handle name, Text symbol)`:
`NamedSlot(name)->value = store_->Lookup(symbol)`. -/
def SetLink (b : Builder) (name : Handle) (symbol : String) : Builder :=
  let (buf, slot) := NamedSlot name b.slots_
  let (store, h) := b.store_.Lookup symbol
  { b with store_ := store, slots_ := Space.setValue buf slot h }

/-- Embeds `Builder::Clear` (object.h): `slots_.reset()` empties the buffer. -/
def Clear (b : Builder) : Builder := { b with slots_ := [] }

/-- Embeds `Builder::Create`: `AllocateFrame(slots_.base(), slots_.end(), handle_)`,
returned as the view `Frame(store_, h)`. -/
def Create (b : Builder) : Frame :=
  let h := b.store_.AllocateFrame b.slots_ b.handle_
  { store := h.1, handle := h.2 }

/-- Embeds `Builder::Update`: `AllocateFrame(slots_.base(), slots_.end(), handle_)`;
the result is the store after the call. -/
def Update (b : Builder) : Store :=
  (b.store_.AllocateFrame b.slots_ b.handle_).1

/-- Embeds `Builder::IsNew` (object.h):
`handle_.IsNil() || store_->IsProxy(handle_)`. -/
def IsNew (b : Builder) : Bool := b.handle_.IsNil || b.store_.IsProxy b.handle_

end Builder

/-- Modelled from the spec: `Store::Lookup(Handle name)`, the lookup of the name that a
string object holds; `none` when the handle does not denote a string, where the call is
undefined. -/
def Store.LookupString (s : Store) (name : Handle) : Option (Store × Handle) :=
  match s.Deref name with
  | some (Datum.string str) => some (s.Lookup str)
  | _ => none

/-- Modelled from the spec: `Store::Symbol(Handle name)`, the symbol of the name that a
string object holds; `none` when the handle does not denote a string. -/
def Store.SymbolOfString (s : Store) (name : Handle) : Option (Store × Handle) :=
  match s.Deref name with
  | some (Datum.string str) => some (s.SymbolOf str)
  | _ => none

namespace Builder

/-- Embeds `Builder::AddId(const String &id)`: the id is
`store_->Symbol(id.handle())`. -/
def AddIdString (b : Builder) (id : Handle) : Option Builder :=
  let (buf, slot) := NewSlot b.slots_
  let buf := Space.setName buf slot Handle.id
  match b.store_.SymbolOfString id with
  | none => none
  | some r => some { b with store_ := r.1, slots_ := Space.setValue buf slot r.2 }

/-- Embeds `Builder::AddIsA(Text type)`: the value is `store_->Lookup(type)`; also
`AddIsA(const Name &type)` for an unresolved name. -/
def AddIsAText (b : Builder) (type : String) : Builder :=
  let (buf, slot) := NewSlot b.slots_
  let buf := Space.setName buf slot Handle.isa
  let r := b.store_.Lookup type
  { b with store_ := r.1, slots_ := Space.setValue buf slot r.2 }

/-- Embeds `Builder::AddIsA(const String &type)`: the value is
`store_->Lookup(type.handle())`. -/
def AddIsAString (b : Builder) (type : Handle) : Option Builder :=
  let (buf, slot) := NewSlot b.slots_
  let buf := Space.setName buf slot Handle.isa
  match b.store_.LookupString type with
  | none => none
  | some r => some { b with store_ := r.1, slots_ := Space.setValue buf slot r.2 }

/-- Embeds `Builder::AddIs(Text type)`: the value is `store_->Lookup(type)`; also
`AddIs(const Name &type)` for an unresolved name. -/
def AddIsText (b : Builder) (type : String) : Builder :=
  let (buf, slot) := NewSlot b.slots_
  let buf := Space.setName buf slot Handle.is
  let r := b.store_.Lookup type
  { b with store_ := r.1, slots_ := Space.setValue buf slot r.2 }

/-- Embeds `Builder::AddIs(const String &type)`: the value is
`store_->Lookup(type.handle())`. -/
def AddIsString (b : Builder) (type : Handle) : Option Builder :=
  let (buf, slot) := NewSlot b.slots_
  let buf := Space.setName buf slot Handle.is
  match b.store_.LookupString type with
  | none => none
  | some r => some { b with store_ := r.1, slots_ := Space.setValue buf slot r.2 }

/-- Embeds `Builder::AddLink(Text name, Text symbol)`: the name is
`store_->Lookup(name)` and then the value is `store_->Lookup(symbol)`; also
`Add(Text name, const Name &value)` and the overloads with a `Name` as name, for
unresolved names. -/
def AddTextLink (b : Builder) (name symbol : String) : Builder :=
  let (buf, slot) := NewSlot b.slots_
  let r1 := b.store_.Lookup name
  let buf := Space.setName buf slot r1.2
  let r2 := r1.1.Lookup symbol
  { b with store_ := r2.1, slots_ := Space.setValue buf slot r2.2 }

/-- Embeds `Builder::Add(Text name, Text value)`: the name is `store_->Lookup(name)`
and then the value is `store_->AllocateString(value)`; also the overloads with a
`const char *` value or an unresolved `Name` as name. -/
def AddTextString (b : Builder) (name value : String) : Builder :=
  let (buf, slot) := NewSlot b.slots_
  let r1 := b.store_.Lookup name
  let buf := Space.setName buf slot r1.2
  let r2 := r1.1.AllocateString value
  { b with store_ := r2.1, slots_ := Space.setValue buf slot r2.2 }

/-- Embeds `Builder::Set(Handle name, Text value)`:
`NamedSlot(name)->value = store_->AllocateString(value)`; also the overloads with a
`const char *` value. -/
def SetString (b : Builder) (name : Handle) (value : String) : Builder :=
  let (buf, slot) := NamedSlot name b.slots_
  let r := b.store_.AllocateString value
  { b with store_ := r.1, slots_ := Space.setValue buf slot r.2 }

/-- Embeds `Builder::SetLink(Text name, Text symbol)`:
`NamedSlot(store_->Lookup(name))->value = store_->Lookup(symbol)`; also
`Set(Text name, const Name &value)` and the overloads with a `Name` as name, for
unresolved names. The language leaves the order of the two store calls open; they are
taken in the order written. -/
def SetTextLink (b : Builder) (name symbol : String) : Builder :=
  let r1 := b.store_.Lookup name
  let (buf, slot) := NamedSlot r1.2 b.slots_
  let r2 := r1.1.Lookup symbol
  { b with store_ := r2.1, slots_ := Space.setValue buf slot r2.2 }

/-- Embeds `Builder::Set(Text name, Text value)`:
`NamedSlot(store_->Lookup(name))->value = store_->AllocateString(value)`; also the
overloads with a `const char *` value or an unresolved `Name` as name. The language
leaves the order of the two store calls open; they are taken in the order written. -/
def SetTextString (b : Builder) (name value : String) : Builder :=
  let r1 := b.store_.Lookup name
  let (buf, slot) := NamedSlot r1.2 b.slots_
  let r2 := r1.1.AllocateString value
  { b with store_ := r2.1, slots_ := Space.setValue buf slot r2.2 }

end Builder

/-- One edit operation of a Builder, one constructor for each way the overloads of
`Add`, `AddLink`, `AddId`, `AddIsA`, `AddIs`, `AddFrom`, `Delete`, `Set`, `SetLink` and
`Clear` use the store. An argument passed as a `Handle`, as an `Object` (the overload
takes its `handle()`), as a resolved `Name` or as a scalar (which becomes an inline
handle) is a handle; an argument passed as a `Text`, a `const char *` or an unresolved
`Name` (which is looked up by its text) is a `String`. A name or type given as text is
looked up with `Store::Lookup`; a value given as text is allocated with
`Store::AllocateString` (the `...String` forms) or looked up (the `...Link` forms).
`addIdNew` is `AddId()`; `addIdString`, `addIsAString` and `addIsString` are the
overloads for a `const String &`, which pass the handle of the string to
`Store::Symbol` and `Store::Lookup`. -/
inductive Edit where
  | add (name value : Handle)
  | addText (name : String) (value : Handle)
  | addString (name : Handle) (value : String)
  | addLink (name : Handle) (symbol : String)
  | addId (id : Handle)
  | addIdNew
  | addIdText (id : String)
  | addIsA (type : Handle)
  | addIs (type : Handle)
  | addFrom (other : Handle)
  | delete (name : Handle)
  | deleteText (name : String)
  | set (name value : Handle)
  | setText (name : String) (value : Handle)
  | setLink (name : Handle) (symbol : String)
  | clear
  | addIdString (id : Handle)
  | addIsAText (type : String)
  | addIsAString (type : Handle)
  | addIsText (type : String)
  | addIsString (type : Handle)
  | addTextLink (name symbol : String)
  | addTextString (name value : String)
  | setString (name : Handle) (value : String)
  | setTextLink (name symbol : String)
  | setTextString (name value : String)
  deriving DecidableEq

/-- Whether the edit takes handles only and makes no call of `Store::Lookup`,
`Store::AllocateString` or `Store::Symbol`. -/
def Edit.onHandles : Edit → Bool
  | Edit.add _ _ => true
  | Edit.addId _ => true
  | Edit.addIsA _ => true
  | Edit.addIs _ => true
  | Edit.addFrom _ => true
  | Edit.delete _ => true
  | Edit.set _ _ => true
  | Edit.clear => true
  | _ => false

/-- The builder after one edit; `none` when the edit is undefined (`AddFrom` of
a handle that denotes no frame, or a `String` view whose handle denotes no string). -/
def Builder.apply (b : Builder) : Edit → Option Builder
  | Edit.add name value => some (b.Add name value)
  | Edit.addText name value => some (b.AddText name value)
  | Edit.addString name value => some (b.AddString name value)
  | Edit.addLink name symbol => some (b.AddLink name symbol)
  | Edit.addId id => some (b.AddId id)
  | Edit.addIdNew => some b.AddIdNew.1
  | Edit.addIdText id => some (b.AddIdText id)
  | Edit.addIsA type => some (b.AddIsA type)
  | Edit.addIs type => some (b.AddIs type)
  | Edit.addFrom other => b.AddFrom other
  | Edit.delete name => some (b.Delete name)
  | Edit.deleteText name => some (b.DeleteText name)
  | Edit.set name value => some (b.Set name value)
  | Edit.setText name value => some (b.SetText name value)
  | Edit.setLink name symbol => some (b.SetLink name symbol)
  | Edit.clear => some b.Clear
  | Edit.addIdString id => b.AddIdString id
  | Edit.addIsAText type => some (b.AddIsAText type)
  | Edit.addIsAString type => b.AddIsAString type
  | Edit.addIsText type => some (b.AddIsText type)
  | Edit.addIsString type => b.AddIsString type
  | Edit.addTextLink name symbol => some (b.AddTextLink name symbol)
  | Edit.addTextString name value => some (b.AddTextString name value)
  | Edit.setString name value => some (b.SetString name value)
  | Edit.setTextLink name symbol => some (b.SetTextLink name symbol)
  | Edit.setTextString name value => some (b.SetTextString name value)

/-- The builder after a sequence of edits, applied from left to right. -/
def Builder.edits (b : Builder) : List Edit → Option Builder
  | [] => some b
  | e :: rest =>
    match b.apply e with
    | none => none
    | some b1 => Builder.edits b1 rest

/-- The builder's handle is nil or denotes an object of its store. The
constructors establish this: they read the frame the handle denotes. -/
def Builder.Attached (b : Builder) : Bool :=
  b.handle_.IsNil || (b.store_.Deref b.handle_).isSome

/-- The builder after `Add(name, value)` of each slot of the list, in order. -/
def Builder.addAll (b : Builder) (added : List Slot) : Builder :=
  added.foldl (fun acc sl => acc.Add sl.name sl.value) b

/-! ## Example stores -/

/-- The empty store. -/
def Example.emptyStore : Store := { globals := [], heap := [], symbols := [] }

/-- A store whose only object is the defined frame `{g7: 1}`, denoted by the
local handle 0. -/
def Example.oneFrameStore : Store :=
  { globals := [],
    heap := [Datum.frame ⟨false, [{ name := Handle.globalRef 7, value := Handle.int 1 }]⟩],
    symbols := [] }

/-! ## Typed views, names and comparison -/

/-- Modelled from the spec: the `Type` discriminant of a heap object
(`STRING`, `FRAME`, `SYMBOL`, `ARRAY`), named `DatumType` here. -/
inductive DatumType where
  | STRING
  | FRAME
  | SYMBOL
  | ARRAY
  deriving DecidableEq

/-- Modelled from the spec: `Datum::type`, the discriminant of a heap object. -/
def Datum.type : Datum → DatumType
  | Datum.string _ => DatumType.STRING
  | Datum.frame _ => DatumType.FRAME
  | Datum.symbol _ _ _ => DatumType.SYMBOL
  | Datum.array _ => DatumType.ARRAY

/-- Modelled from the spec: `Store::Cast(handle, type)`, the handle itself when
it denotes an object with the discriminant, nil otherwise. -/
def Store.Cast (s : Store) (h : Handle) (type : DatumType) : Handle :=
  match s.Deref h with
  | some d => if d.type = type then h else Handle.nil
  | none => Handle.nil

/-- Modelled from the spec: a `Store *`, given by the address of the store and
the address of the store its `globals()` returns (`none` for the null
pointer). The state of the store is passed separately. -/
structure StorePtr where
  addr : Nat
  globals : Option Nat
  deriving DecidableEq

/-- The `Object` view of object.h as a value: the `store_` pointer and the
handle. `String`, `Frame`, `Symbol` and `Array` derive from `Object` without
adding a member, so their values are `Object` values too. Operations that read
the heap take the state of the store `store_` points to. -/
structure Object where
  store_ : StorePtr
  handle_ : Handle
  deriving DecidableEq

namespace Object

/-- Embeds `Object::handle()`. -/
def handle (self : Object) : Handle := self.handle_

/-- Embeds `Object::store()`. -/
def store (self : Object) : StorePtr := self.store_

/-- Embeds `Object::IsNil()`. -/
def IsNil (self : Object) : Bool := self.handle_.IsNil

/-- The test `IsRef() && datum()->type() == type` behind `Object::IsString`,
`IsFrame`, `IsSymbol` and `IsArray`, on the state `s` of the store. `none` when
the handle is a reference that denotes no object, where `datum()` is
undefined. -/
def IsOfType (self : Object) (s : Store) (type : DatumType) : Option Bool :=
  if self.handle_.IsRef then (s.Deref self.handle_).map (fun d => decide (d.type = type))
  else some false

/-- The constructors `String(Store *, Handle)`, `Frame(Store *, Handle)`,
`Symbol(Store *, Handle)` and `Array(Store *, Handle)`: `Object(store, handle)`
followed by `DCHECK(IsNil() || IsString())` (resp. `IsFrame`, `IsSymbol`,
`IsArray`). `none` when the check fails or is undefined. -/
def typed (store : StorePtr) (handle : Handle) (s : Store) (type : DatumType) : Option Object :=
  let self : Object := { store_ := store, handle_ := handle }
  if self.IsNil then some self
  else
    match self.IsOfType s type with
    | some true => some self
    | _ => none

/-- Embeds `Object::AsString`: `String(store(), store()->Cast(handle(), STRING))`. -/
def AsString (self : Object) (s : Store) : Option Object :=
  typed self.store (s.Cast self.handle DatumType.STRING) s DatumType.STRING

/-- Embeds `Object::AsFrame`: `Frame(store(), store()->Cast(handle(), FRAME))`. -/
def AsFrame (self : Object) (s : Store) : Option Object :=
  typed self.store (s.Cast self.handle DatumType.FRAME) s DatumType.FRAME

/-- Embeds `Object::AsSymbol`: `Symbol(store(), store()->Cast(handle(), SYMBOL))`. -/
def AsSymbol (self : Object) (s : Store) : Option Object :=
  typed self.store (s.Cast self.handle DatumType.SYMBOL) s DatumType.SYMBOL

/-- Embeds `Object::AsArray`: `Array(store(), store()->Cast(handle(), ARRAY))`. -/
def AsArray (self : Object) (s : Store) : Option Object :=
  typed self.store (s.Cast self.handle DatumType.ARRAY) s DatumType.ARRAY

/-- Embeds `operator ==(const Object &a, const Object &b)`. -/
def eq (a b : Object) : Bool := decide (a.handle = b.handle)

/-- Embeds `operator !=(const Object &a, const Object &b)`. -/
def ne (a b : Object) : Bool := decide (a.handle ≠ b.handle)

/-- Embeds `operator ==(const Object &a, Handle b)`. -/
def eqHandle (a : Object) (b : Handle) : Bool := decide (a.handle = b)

/-- Embeds `operator !=(const Object &a, Handle b)`. -/
def neHandle (a : Object) (b : Handle) : Bool := decide (a.handle ≠ b)

end Object

/-- Embeds `operator ==(Handle a, const Object &b)`. -/
def Handle.eqObject (a : Handle) (b : Object) : Bool := decide (a = b.handle)

/-- Embeds `operator !=(Handle a, const Object &b)`. -/
def Handle.neObject (a : Handle) (b : Object) : Bool := decide (a ≠ b.handle)

/-- The constructor `Frame(Store *store, Handle handle)` for the view that
carries the state of its store: `DCHECK(IsNil() || IsFrame())`, and likewise
`Symbol(Store *store, Handle handle)` with `IsSymbol()`. `none` when the check
fails or is undefined. -/
def Frame.typed (store : Store) (handle : Handle) (type : DatumType) : Option Frame :=
  if handle.IsNil then some { store := store, handle := handle }
  else if handle.IsRef then
    match store.Deref handle with
    | some d => if d.type = type then some { store := store, handle := handle } else none
    | none => none
  else none

/-- Embeds `Frame::GetFrame(Handle name)`:
`Frame(store(), store()->Cast(frame()->get(name), FRAME))`. `none` also when
the frame itself denotes no frame. -/
def Frame.GetFrame (self : Frame) (name : Handle) : Option Frame :=
  match self.frame with
  | none => none
  | some f =>
    let value := f.get name
    Frame.typed self.store (self.store.Cast value DatumType.FRAME) DatumType.FRAME

/-- Embeds `Frame::GetSymbol(Handle name)`:
`Symbol(store(), store()->Cast(frame()->get(name), SYMBOL))`. -/
def Frame.GetSymbol (self : Frame) (name : Handle) : Option Frame :=
  match self.frame with
  | none => none
  | some f =>
    let value := f.get name
    Frame.typed self.store (self.store.Cast value DatumType.SYMBOL) DatumType.SYMBOL
/-- The result of code that can hit a fatal assertion: `abort` when a `CHECK`
fails (or a `DCHECK`, taken as in a debug build), `ok` with the value
otherwise. -/
inductive Outcome (α : Type) where
  | abort
  | ok (value : α)
  deriving DecidableEq

/-- The `Name` of object.h: the handle (nil while the name is unresolved), the
symbol name, the store the name is bound to (`none` for the null pointer, given
by its address) and the next name in the name list (`none` for the null
pointer, given by the address of the `Name`). -/
structure Name where
  handle_ : Handle
  name_ : String
  store_ : Option Nat
  next_ : Option Nat
  deriving DecidableEq

namespace Name

/-- Embeds `Name::handle()`. -/
def handle (self : Name) : Handle := self.handle_

/-- Embeds `Name::Lookup(Store *store)`, a const member. A resolved name
returns its handle after `DCHECK(store == store_ || store->globals() == store_)`;
an unresolved name returns `store->Lookup(name_)`. The result carries the state
of the store after the call. -/
def Lookup (self : Name) (store : StorePtr) (s : Store) : Outcome (Handle × Store) :=
  if !self.handle_.IsNil then
    if decide (some store.addr = self.store_) || decide (store.globals = self.store_) then
      Outcome.ok (self.handle_, s)
    else Outcome.abort
  else Outcome.ok ((s.Lookup self.name_).2, (s.Lookup self.name_).1)

/-- Embeds `operator ==(const Name &a, Handle b)`. -/
def eqHandle (a : Name) (b : Handle) : Outcome Bool :=
  if a.handle.IsNil then Outcome.abort else Outcome.ok (decide (a.handle = b))

/-- Embeds `operator !=(const Name &a, Handle b)`. -/
def neHandle (a : Name) (b : Handle) : Outcome Bool :=
  if a.handle.IsNil then Outcome.abort else Outcome.ok (decide (a.handle ≠ b))

/-- Embeds `operator ==(const Name &a, const Name &b)`. -/
def eqName (a b : Name) : Outcome Bool :=
  if a.handle.IsNil then Outcome.abort
  else if b.handle.IsNil then Outcome.abort
  else Outcome.ok (decide (a.handle = b.handle))

/-- Embeds `operator !=(const Name &a, const Name &b)`. -/
def neName (a b : Name) : Outcome Bool :=
  if a.handle.IsNil then Outcome.abort
  else if b.handle.IsNil then Outcome.abort
  else Outcome.ok (decide (a.handle ≠ b.handle))

/-- Embeds `operator ==(const Name &a, const Object &b)`:
`a.Lookup(b.store()) == b.handle()`, on the state `s` of the store of `b`. -/
def eqObject (a : Name) (b : Object) (s : Store) : Outcome (Bool × Store) :=
  match a.Lookup b.store s with
  | Outcome.abort => Outcome.abort
  | Outcome.ok r => Outcome.ok (decide (r.1 = b.handle), r.2)

/-- Embeds `operator !=(const Name &a, const Object &b)`. -/
def neObject (a : Name) (b : Object) (s : Store) : Outcome (Bool × Store) :=
  match a.Lookup b.store s with
  | Outcome.abort => Outcome.abort
  | Outcome.ok r => Outcome.ok (decide (r.1 ≠ b.handle), r.2)

end Name

/-- Embeds `operator ==(Handle a, const Name &b)`. -/
def Handle.eqName (a : Handle) (b : Name) : Outcome Bool :=
  if b.handle.IsNil then Outcome.abort else Outcome.ok (decide (a = b.handle))

/-- Embeds `operator !=(Handle a, const Name &b)`. -/
def Handle.neName (a : Handle) (b : Name) : Outcome Bool :=
  if b.handle.IsNil then Outcome.abort else Outcome.ok (decide (a ≠ b.handle))

/-- Embeds `operator ==(const Object &a, const Name &b)`:
`a.handle() == b.Lookup(a.store())`, on the state `s` of the store of `a`. -/
def Object.eqName (a : Object) (s : Store) (b : Name) : Outcome (Bool × Store) :=
  match b.Lookup a.store s with
  | Outcome.abort => Outcome.abort
  | Outcome.ok r => Outcome.ok (decide (a.handle = r.1), r.2)

/-- Embeds `operator !=(const Object &a, const Name &b)`. -/
def Object.neName (a : Object) (s : Store) (b : Name) : Outcome (Bool × Store) :=
  match b.Lookup a.store s with
  | Outcome.abort => Outcome.abort
  | Outcome.ok r => Outcome.ok (decide (a.handle ≠ r.1), r.2)

/-! ## The name list -/

/-- The `Names` of object.h: the head of the linked list of names, `none` for
the null pointer. The `Name` objects live in a memory, a list indexed by the
address of the `Name`. -/
structure Names where
  list_ : Option Nat
  deriving DecidableEq

namespace Names

/-- The loop of `Names::Bind`: `for (Name *n = list_; n != nullptr; n = n->next_)`
with the body of the two overloads, which differ in the lookup only
(`store->Lookup` or `store->LookupExisting`), passed as `look`. The first
argument bounds the number of iterations. `none` when the bound is reached
before the null pointer, or when a pointer is not the address of a `Name`. -/
def Bind.loop (look : Store → String → Store × Handle) (store : StorePtr) :
    Nat → List Name → Option Nat → Store → Bool → Option (Bool × List Name × Store)
  | _, mem, none, s, resolved => some (resolved, mem, s)
  | 0, _, some _, _, _ => none
  | fuel + 1, mem, some n, s, resolved =>
    match mem[n]? with
    | none => none
    | some nm =>
      let r := look s nm.name_
      if r.2.IsNil then Bind.loop look store fuel mem nm.next_ r.1 false
      else
        Bind.loop look store fuel
          (mem.set n { nm with handle_ := r.2, store_ := some store.addr }) nm.next_ r.1 resolved

/-- Embeds `Names::Bind(Store *store)`: the result, the memory of the names and
the state of the store after the call. -/
def Bind (self : Names) (mem : List Name) (store : StorePtr) (s : Store) (fuel : Nat) :
    Option (Bool × List Name × Store) :=
  Bind.loop Store.Lookup store fuel mem self.list_ s true

/-- Embeds `Names::Bind(const Store *store)`, which probes with
`LookupExisting` and leaves the store as it is. -/
def BindConst (self : Names) (mem : List Name) (store : StorePtr) (s : Store) (fuel : Nat) :
    Option (Bool × List Name × Store) :=
  Bind.loop (fun st name => (st, st.LookupExisting name)) store fuel mem self.list_ s true

/-- The addresses met from the pointer `n` along `next_` up to the null pointer
are exactly the list `addrs`. -/
def IsChain (mem : List Name) : Option Nat → List Nat → Bool
  | none, [] => true
  | some n, a :: rest =>
    decide (n = a) &&
      (match mem[a]? with
       | some nm => IsChain mem nm.next_ rest
       | none => false)
  | _, _ => false

/-- The symbol name of the `Name` at an address. -/
def text (mem : List Name) (a : Nat) : String :=
  match mem[a]? with
  | some nm => nm.name_
  | none => ""

/-- The handles a lookup returns for a sequence of symbol names, each one on
the store as the previous lookup left it, and the store after the last. -/
def lookups (look : Store → String → Store × Handle) : Store → List String → List Handle × Store
  | s, [] => ([], s)
  | s, name :: rest =>
    ((look s name).2 :: (lookups look (look s name).1 rest).1,
     (lookups look (look s name).1 rest).2)

end Names

/-! ## Type tags and iteration over the slots of a frame -/

/-- Modelled from the spec: `Handle::IsIsA`, the handle is the reserved name
`isa`. -/
def Handle.IsIsA (h : Handle) : Bool := decide (h = Handle.isa)

/-- Modelled from the spec: `Handle::IsIs`, the handle is the reserved name
`is`. -/
def Handle.IsIs (h : Handle) : Bool := decide (h = Handle.is)

/-- The loop of `Frame::IsA(Handle type)` over the slots from `begin()` to
`end()`. -/
def Frame.IsA.scan (type : Handle) : List Slot → Bool
  | [] => false
  | slot :: rest =>
    if slot.name.IsIsA && decide (slot.value = type) then true else Frame.IsA.scan type rest

/-- The loop of `Frame::Is(Handle type)` over the slots from `begin()` to
`end()`. -/
def Frame.Is.scan (type : Handle) : List Slot → Bool
  | [] => false
  | slot :: rest =>
    if slot.name.IsIs && decide (slot.value = type) then true else Frame.Is.scan type rest

/-- Embeds `Frame::IsA(Handle type)`. -/
def Frame.IsA (self : Frame) (type : Handle) : Option Bool :=
  self.frame.map (fun f => Frame.IsA.scan type f.slots)

/-- Embeds `Frame::Is(Handle type)`. -/
def Frame.Is (self : Frame) (type : Handle) : Option Bool :=
  self.frame.map (fun f => Frame.Is.scan type f.slots)

/-- The `Frame::iterator` of object.h over the slots of a frame: `slot_` is the
index of the current slot. The store pointer of the iterator only serves to
pin the collector. -/
structure Frame.iterator where
  slot_ : Nat
  deriving DecidableEq

/-- Embeds `iterator::operator !=`: `slot_ != other.slot_`. -/
def Frame.iterator.ne (self other : Frame.iterator) : Bool := decide (self.slot_ ≠ other.slot_)

/-- Embeds `iterator::operator ++`. -/
def Frame.iterator.next (self : Frame.iterator) : Frame.iterator := { slot_ := self.slot_ + 1 }

/-- Embeds `iterator::operator *`; `none` outside the slots. -/
def Frame.iterator.deref (slots : List Slot) (self : Frame.iterator) : Option Slot :=
  slots[self.slot_]?

/-- The loop `for (it = first; it != last; ++it)` with `*it` collected; the
first argument bounds the number of iterations. -/
def Frame.iterator.collect (slots : List Slot) (last : Frame.iterator) :
    Nat → Frame.iterator → List Slot
  | 0, _ => []
  | n + 1, it =>
    if it.ne last then
      match it.deref slots with
      | some s => s :: Frame.iterator.collect slots last n it.next
      | none => []
    else []

/-- The slots met by `for (const Slot &s : frame)`, from `Frame::begin()`
(`frame()->begin()`) to `Frame::end()` (`frame()->end()`). -/
def Frame.iterate (self : Frame) : Option (List Slot) :=
  self.frame.map (fun f =>
    Frame.iterator.collect f.slots { slot_ := f.slots.length } f.slots.length { slot_ := 0 })

/-- The `Frame::filterator` of object.h: the index of the current slot and the
index of the end; the predicate is passed to the operations. -/
structure Frame.filterator where
  slot_ : Nat
  end_ : Nat
  deriving DecidableEq

namespace Frame.filterator

/-- The loop `while (slot_ != end_ && !predicate_(slot_)) ++slot_` of the
constructor and of `operator ++`; the first argument bounds the number of
iterations. A position outside the slots, which the loop does not reach when
it starts between `begin()` and `end()`, stops it. -/
def skip (predicate : Slot → Bool) (slots : List Slot) : Nat → Nat → Nat → Nat
  | 0, slot, _ => slot
  | n + 1, slot, end_ =>
    if slot ≠ end_ then
      match slots[slot]? with
      | some s => if !predicate s then skip predicate slots n (slot + 1) end_ else slot
      | none => slot
    else slot

/-- Embeds the constructor `filterator(slot, end, predicate)`. -/
def new (predicate : Slot → Bool) (slots : List Slot) (slot end_ : Nat) : Frame.filterator :=
  { slot_ := skip predicate slots slots.length slot end_, end_ := end_ }

/-- Embeds `filterator::operator !=`: `slot_ != other.slot_`. -/
def ne (self other : Frame.filterator) : Bool := decide (self.slot_ ≠ other.slot_)

/-- Embeds `filterator::operator ++`: `++slot_` followed by the skipping loop. -/
def next (predicate : Slot → Bool) (slots : List Slot) (self : Frame.filterator) :
    Frame.filterator :=
  { self with slot_ := skip predicate slots slots.length (self.slot_ + 1) self.end_ }

/-- Embeds `filterator::operator *`; `none` outside the slots. -/
def deref (slots : List Slot) (self : Frame.filterator) : Option Slot := slots[self.slot_]?

/-- The loop `for (it = first; it != last; ++it)` with `*it` collected; the
first argument bounds the number of iterations. -/
def collect (predicate : Slot → Bool) (slots : List Slot) (last : Frame.filterator) :
    Nat → Frame.filterator → List Slot
  | 0, _ => []
  | n + 1, it =>
    if it.ne last then
      match it.deref slots with
      | some s => s :: collect predicate slots last n (it.next predicate slots)
      | none => []
    else []

end Frame.filterator

/-- Embeds `Filter::begin()`:
`filterator(frame()->begin(), frame()->end(), predicate_)`. -/
def Frame.Filter.begin (predicate : Slot → Bool) (slots : List Slot) : Frame.filterator :=
  Frame.filterator.new predicate slots 0 slots.length

/-- Embeds `Filter::end()`:
`filterator(frame()->end(), frame()->end(), predicate_)`. -/
def Frame.Filter.end_ (predicate : Slot → Bool) (slots : List Slot) : Frame.filterator :=
  Frame.filterator.new predicate slots slots.length slots.length

/-- The slots met by a range-for loop over a `Filter`, from `Filter::begin()` to
`Filter::end()`, when the `Predicate` that `predicate_` refers to is alive and is the
function `predicate`. -/
def Frame.Filter.loop (predicate : Slot → Bool) (slots : List Slot) : List Slot :=
  Frame.filterator.collect predicate slots (Frame.Filter.end_ predicate slots)
    (slots.length + 1) (Frame.Filter.begin predicate slots)

/-- The slots that `for (const Slot &s : frame.Slots(name))` would meet if the
predicate `slot->name == name` were alive during the loop. -/
def Frame.SlotsLive (self : Frame) (name : Handle) : Option (List Slot) :=
  self.frame.map (fun f => Frame.Filter.loop (fun slot => decide (slot.name = name)) f.slots)

/-- The objects of type `Predicate` (a `std::function`) by address: the function an
object holds, or `none` once the object is destroyed. -/
abbrev PredicateMemory := List (Option (Slot → Bool))

/-- The `Frame::Filter` of object.h. Its member `predicate_` is a `const Predicate &`,
kept here as the address of the `Predicate` it refers to; `frame_` refers to the frame
the filter was made from. -/
structure Frame.Filter where
  predicate_ : Nat

/-- Embeds `Frame::Slots(Handle name)`:
`return Filter(*this, [name](const Slot *slot) { return slot->name == name; });`.
The lambda is converted to a temporary `Predicate` for the call of the constructor
`Filter(const Frame &frame, const Predicate &predicate)`, which binds `predicate_` to
that temporary; the temporary is destroyed at the end of the return statement. The
result is the filter and the memory of the predicates when `Slots` has returned. -/
def Frame.Slots (name : Handle) (mem : PredicateMemory) : Frame.Filter × PredicateMemory :=
  let temporary := mem.length
  let constructed := mem ++ [some (fun slot => decide (slot.name = name))]
  let filter : Frame.Filter := ⟨temporary⟩
  (filter, constructed.set temporary none)

/-- What `predicate_` refers to: the function of the `Predicate` at the address, `none`
when that object is destroyed (or the address holds no object). -/
def Frame.Filter.predicate (self : Frame.Filter) (mem : PredicateMemory) :
    Option (Slot → Bool) :=
  (mem[self.predicate_]?).join

/-- The range-for loop over a filter and the slots of its frame. `begin()` constructs a
`filterator` with `predicate_`, and the loop of the constructor,
`while (slot_ != end_ && !predicate_(slot_)) ++slot_`, calls the predicate as soon as
the frame has a slot. `none` when the predicate that is called is destroyed, which is
undefined behaviour. -/
def Frame.Filter.run (self : Frame.Filter) (mem : PredicateMemory) (slots : List Slot) :
    Option (List Slot) :=
  match self.predicate mem with
  | some predicate => some (Frame.Filter.loop predicate slots)
  | none => if slots.length ≠ 0 then none else some []

/-- The slots met by `for (const Slot &s : frame.Slots(name))`: the filter that
`Frame::Slots(Handle name)` returns, iterated from `begin()` to `end()`. `none` when the
loop is undefined. -/
def Frame.forSlots (self : Frame) (name : Handle) : Option (List Slot) :=
  match self.frame with
  | none => none
  | some f => (Frame.Slots name []).1.run (Frame.Slots name []).2 f.slots

/-! ## External references and roots -/

/-- Modelled from the spec: the handles of a slot buffer in memory order; a
`Slot` is two consecutive handles, its name followed by its value. -/
def Space.handles : List Slot → List Handle
  | [] => []
  | s :: rest => s.name :: s.value :: Space.handles rest

/-- The cast `reinterpret_cast<Handle *>(slot)`: the slot at index `slot` of a
buffer starts at the handle with index `2 * slot`. -/
def Slot.asHandlePtr (slot : Nat) : Nat := 2 * slot

/-- Modelled from the spec: the `Range` of `External::GetReferences`, the
handles from `begin` up to `end`, as indices from the base of the buffer. -/
structure Range where
  begin : Nat
  end_ : Nat
  deriving DecidableEq

/-- The handles of a memory that lie in the range. -/
def Range.handles (r : Range) (mem : List Handle) : List Handle :=
  (mem.drop r.begin).take (r.end_ - r.begin)

/-- Embeds `Builder::GetReferences`: the range from
`reinterpret_cast<Handle *>(slots_.base())` to
`reinterpret_cast<Handle *>(slots_.end())`. -/
def Builder.GetReferences (b : Builder) : Range :=
  { begin := Slot.asHandlePtr 0, end_ := Slot.asHandlePtr b.slots_.length }

/-- Embeds `Slots::GetReferences` for the vector of slots `v`: the range from
`reinterpret_cast<Handle *>(data())` to
`reinterpret_cast<Handle *>(data() + size())`. -/
def Slots.GetReferences (v : List Slot) : Range :=
  { begin := Slot.asHandlePtr 0, end_ := Slot.asHandlePtr (0 + v.length) }

/-- Embeds `Handles::GetReferences` for the vector of handles `v`: the range
from `data()` to `data() + size()`. -/
def Handles.GetReferences (v : List Handle) : Range :=
  { begin := 0, end_ := 0 + v.length }

/-- Embeds `HandleSpace::GetReferences` for the space with the handles `v`
between `base()` and `end()`. -/
def HandleSpace.GetReferences (v : List Handle) : Range :=
  { begin := 0, end_ := v.length }

/-- The memory of the views: the `Object` at each address, and the root list
with the addresses of the linked (locked) views in list order. The root lists
of all stores are kept in the one list; a view is linked next to the view it
was locked from, hence into the list of the same store. -/
structure ViewHeap where
  objects : List Object
  roots : List Nat
  deriving DecidableEq

namespace Root

/-- Modelled from the spec: `Root::locked`, the root is linked into a root
list. -/
def locked (m : ViewHeap) (self : Nat) : Bool := decide (self ∈ m.roots)

/-- Modelled from the spec: `Root::Unlink`, which removes the root from the
root list when it is linked. -/
def Unlink (m : ViewHeap) (self : Nat) : ViewHeap :=
  { m with roots := m.roots.filter (fun r => decide (r ≠ self)) }

/-- The root list with `self` inserted right after `list`. -/
def insertAfter (list self : Nat) : List Nat → List Nat
  | [] => []
  | r :: rest => if r = list then r :: self :: rest else r :: insertAfter list self rest

/-- Modelled from the spec: `Root::Link(const Root *list)`, which inserts the
root into the root list right after `list`. -/
def Link (m : ViewHeap) (self list : Nat) : ViewHeap :=
  { m with roots := insertAfter list self m.roots }

end Root

/-- Embeds `Object::operator =(const Object &other)` for the view at address
`self` and the view at address `other`, which may be the same address:
`Unlink(); handle_ = other.handle_; store_ = other.store_;
if (other.locked()) Link(&other);`. The assignment operators of `String`,
`Frame`, `Symbol` and `Array` have the same body. `none` when an address holds
no view. -/
def Object.assign (m : ViewHeap) (self other : Nat) : Option ViewHeap :=
  let m1 := Root.Unlink m self
  match m1.objects[self]?, m1.objects[other]? with
  | some a, some b =>
    let m2 := { m1 with objects := m1.objects.set self { a with handle_ := b.handle_ } }
    match m2.objects[self]?, m2.objects[other]? with
    | some a2, some b2 =>
      let m3 := { m2 with objects := m2.objects.set self { a2 with store_ := b2.store_ } }
      if Root.locked m3 other then some (Root.Link m3 self other) else some m3
    | _, _ => none
  | _, _ => none

/-- Embeds the copy constructor `Object(const Object &other)`:
`Root(other.handle_), store_(other.store_)`, an unlocked root, followed by
`if (other.locked()) Link(&other)`. The new view gets the next free address,
which is returned with the memory. -/
def Object.copy (m : ViewHeap) (other : Nat) : Option (ViewHeap × Nat) :=
  match m.objects[other]? with
  | none => none
  | some b =>
    let self := m.objects.length
    let m1 := { m with objects := m.objects ++ [{ store_ := b.store_, handle_ := b.handle_ }] }
    if Root.locked m1 other then some (Root.Link m1 self other, self) else some (m1, self)

/-! ## The parser: word lookup (nlp/parser/parser.cc) -/

/-- The test c >= '0' && c <= '9' on a char, given by its code: the digits are the
codes 48 to 57. -/
def Parser.isDigit (c : Nat) : Bool := decide (48 ≤ c) && decide (c ≤ 57)

/-- The code of the char '9'. -/
def Parser.nine : Nat := 57

/-- The loop for (char c : word) if (c >= '0' && c <= '9') has_digits = true; of
Parser::LookupWord, started with the current value of has_digits. -/
def Parser.LookupWord.scan : List Nat → Bool → Bool
  | [], has_digits => has_digits
  | c :: rest, has_digits =>
      Parser.LookupWord.scan rest (if Parser.isDigit c then true else has_digits)

/-- The loop for (char &c : normalized) if (c >= '0' && c <= '9') c = '9'; of
Parser::LookupWord, on the copy of the word. -/
def Parser.LookupWord.normalize : List Nat → List Nat
  | [] => []
  | c :: rest =>
      (if Parser.isDigit c then Parser.nine else c) :: Parser.LookupWord.normalize rest

/-- Parser::LookupWord. A word is the list of the codes of its chars. The lexicon
belongs to a class outside parser.cc, so lexicon_.Lookup is the parameter lexicon;
oov_ and normalize_digits_ are the members set by Parser::Load. -/
def Parser.LookupWord (lexicon : List Nat → Int) (oov : Int) (normalize_digits : Bool)
    (word : List Nat) : Int :=
  let id := lexicon word
  if decide (id = oov) && normalize_digits then
    let has_digits := Parser.LookupWord.scan word false
    if has_digits then lexicon (Parser.LookupWord.normalize word) else id
  else id

/-! ## The parser: layout of the role features -/

/-- The value an int variable holds after a value x computed in a wider type (or by an
int operation that overflows) is stored in it: x reduced to 32 bits, two's
complement. -/
def Parser.toInt32 (x : Int) : Int := (x + 2147483648) % 4294967296 - 2147483648

/-- The four offsets that Parser::Load computes for the role features. -/
structure Parser.RoleOffsets where
  outlink_offset_ : Int
  inlink_offset_ : Int
  unlabeled_link_offset_ : Int
  labeled_link_offset_ : Int
  deriving DecidableEq, Repr

/-- The end of Parser::Load: the offsets, from frame_limit_ (a constant of parser.h)
and the number of roles roles_.size(). -/
def Parser.Load.offsets (frame_limit : Int) (roles_size : Nat) : Parser.RoleOffsets :=
  let combinations := Parser.toInt32 (frame_limit * roles_size)
  let outlink_offset := 0
  let inlink_offset := Parser.toInt32 (outlink_offset + combinations)
  let unlabeled_link_offset := Parser.toInt32 (inlink_offset + combinations)
  let labeled_link_offset :=
    Parser.toInt32 (unlabeled_link_offset + Parser.toInt32 (frame_limit * frame_limit))
  ⟨outlink_offset, inlink_offset, unlabeled_link_offset, labeled_link_offset⟩

/-- The id of the out-link feature in ExtractFeaturesFF: outlink_base + role with
outlink_base = outlink_offset_ + source * roles_.size(). -/
def Parser.outlinkFeature (o : Parser.RoleOffsets) (roles_size : Nat) (source role : Int) :
    Int :=
  let outlink_base := Parser.toInt32 (o.outlink_offset_ + source * roles_size)
  Parser.toInt32 (outlink_base + role)

/-- The id of the in-link feature: inlink_offset_ + target * roles_.size() + role. -/
def Parser.inlinkFeature (o : Parser.RoleOffsets) (roles_size : Nat) (target role : Int) :
    Int :=
  Parser.toInt32 (o.inlink_offset_ + target * roles_size + role)

/-- The id of the unlabeled link feature:
unlabeled_link_offset_ + source * frame_limit_ + target. -/
def Parser.unlabeledFeature (o : Parser.RoleOffsets) (frame_limit : Int)
    (source target : Int) : Int :=
  Parser.toInt32 (o.unlabeled_link_offset_ + source * frame_limit + target)

/-- The id of the labeled link feature: labeled_link_offset_ +
source * frame_limit_ * roles_.size() + target * roles_.size() + role. -/
def Parser.labeledFeature (o : Parser.RoleOffsets) (frame_limit : Int) (roles_size : Nat)
    (source target role : Int) : Int :=
  Parser.toInt32 (o.labeled_link_offset_ + source * frame_limit * roles_size +
    target * roles_size + role)

/-! ## The parser: wiring of the LSTMs in Parser::Parse -/

/-- The activations one LSTM step is attached to: AttachLR(in, out) and
AttachRL(in, out) read the control and hidden activation at index in_ and write the
ones at index out. -/
structure Parser.Wire where
  in_ : Int
  out : Int
  deriving DecidableEq, Repr

/-- The body of the left-to-right loop of Parser::Parse at step i, for a sentence of
s.length() = length tokens: int in = i > 0 ? i - 1 : s.length(); int out = i. -/
def Parser.Parse.lrWire (length i : Int) : Parser.Wire :=
  ⟨if i > 0 then i - 1 else length, i⟩

/-- The body of the right-to-left loop at step i: int in = s.length() - i;
int out = in - 1. -/
def Parser.Parse.rlWire (length i : Int) : Parser.Wire :=
  let input := length - i
  ⟨input, input - 1⟩

/-- The loop for (int i = 0; i < s.length(); ++i) of one pass, from the current i on:
the wiring of its steps in the order they run. The first argument bounds the number of
iterations. -/
def Parser.Parse.pass (wire : Int → Int → Parser.Wire) (length : Int) :
    Nat → Int → List Parser.Wire
  | 0, _ => []
  | fuel + 1, i =>
      if i < length then wire length i :: Parser.Parse.pass wire length fuel (i + 1)
      else []

/-- The left-to-right pass of Parser::Parse over a sentence of the given length. -/
def Parser.Parse.lrPass (length : Int) : List Parser.Wire :=
  Parser.Parse.pass Parser.Parse.lrWire length length.toNat 0

/-- The right-to-left pass of Parser::Parse over a sentence of the given length. -/
def Parser.Parse.rlPass (length : Int) : List Parser.Wire :=
  Parser.Parse.pass Parser.Parse.rlWire length length.toNat 0

/-- The number of activations the constructor of ParserInstance allocates for each of
lr_c, lr_h, rl_c and rl_h: resize(length + 1) with length = end - begin. -/
def ParserInstance.activations (begin_ end_ : Int) : Int :=
  let length := end_ - begin_
  length + 1

/-! ## The parser: the focus feature -/

/-- The focus feature of ParserInstance::ExtractFeaturesFF, stored in both
ff_feature_lr_focus_ and ff_feature_rl_focus_. The arguments are state.current(),
state.begin() and state.end(), token positions in the document:
int current = state.current() - state.begin();
if (current == state.end()) current = -1. -/
def ParserInstance.ExtractFeaturesFF.focus (current begin_ end_ : Int) : Int :=
  let current := current - begin_
  if current = end_ then -1 else current

/-! ## The parser: prediction of the next action -/

/-- A float score as far as the comparisons of the prediction loop of Parser::Parse see
it: not a number, minus infinity, a finite value, or plus infinity. The finite values
are only compared with each other, so they are taken from any linear order. -/
inductive Parser.Score (α : Type) where
  | nan
  | ninf
  | fin (x : α)
  | pinf
  deriving DecidableEq

/-- The comparison a > b of two floats: false when one of them is not a number, and
otherwise the order with minus infinity below and plus infinity above every finite
value. -/
def Parser.Score.gt {α : Type} [LinearOrder α] : Parser.Score α → Parser.Score α → Bool
  | Parser.Score.nan, _ => false
  | Parser.Score.ninf, _ => false
  | Parser.Score.fin _, Parser.Score.nan => false
  | Parser.Score.fin _, Parser.Score.ninf => true
  | Parser.Score.fin x, Parser.Score.fin y => decide (y < x)
  | Parser.Score.fin _, Parser.Score.pinf => false
  | Parser.Score.pinf, Parser.Score.nan => false
  | Parser.Score.pinf, Parser.Score.ninf => true
  | Parser.Score.pinf, Parser.Score.fin _ => true
  | Parser.Score.pinf, Parser.Score.pinf => false

/-- The prediction loop of Parser::Parse from action a on:
if (output[a] > max_score) and state.CanApply(actions_.Action(a)) then prediction = a
and max_score = output[a]. CanApply a is state.CanApply(actions_.Action(a)). -/
def Parser.Parse.predict.loop {α : Type} [LinearOrder α] (CanApply : Nat → Bool) :
    List (Parser.Score α) → Nat → Nat → Parser.Score α → Nat
  | [], _, prediction, _ => prediction
  | score :: rest, a, prediction, max_score =>
      if score.gt max_score then
        if CanApply a then Parser.Parse.predict.loop CanApply rest (a + 1) a score
        else Parser.Parse.predict.loop CanApply rest (a + 1) prediction max_score
      else Parser.Parse.predict.loop CanApply rest (a + 1) prediction max_score

/-- The action that Parser::Parse applies to the state: the loop started with
prediction = 0 and max_score = -INFINITY over the num_actions_ scores of output. -/
def Parser.Parse.predict {α : Type} [LinearOrder α] (CanApply : Nat → Bool)
    (output : List (Parser.Score α)) : Nat :=
  Parser.Parse.predict.loop CanApply output 0 0 Parser.Score.ninf

/-- The invariant of the prediction loop of Parser::Parse after the scores l have been
visited: no applicable visited action scores above max_score; and either max_score is
still -INFINITY and prediction is 0, or max_score is above -INFINITY and is the score of
prediction, an applicable visited action, and an applicable visited action with the
same score comes at a later index. -/
def Parser.Parse.predict.Inv {α : Type} [LinearOrder α] (CanApply : Nat → Bool)
    (l : List (Parser.Score α)) (prediction : Nat) (max_score : Parser.Score α) : Prop :=
  (∀ (b : Nat) (y : Parser.Score α), l[b]? = some y → CanApply b = true →
    y.gt max_score = false) ∧
  ((max_score = Parser.Score.ninf ∧ prediction = 0) ∨
    (max_score.gt Parser.Score.ninf = true ∧ prediction < l.length ∧
      CanApply prediction = true ∧ l[prediction]? = some max_score ∧
      ∀ (b : Nat) (y : Parser.Score α), l[b]? = some y → CanApply b = true →
        y = max_score → prediction ≤ b))

/-! ## The parser: history and role features of ExtractFeaturesFF -/

/-- The first history loop of ParserInstance::ExtractFeaturesFF,
while (h < history_size_ && s >= 0) history[h++] = s--, from the current h and s on;
the result is the array and the final h. The first argument bounds the number of
iterations. -/
def ParserInstance.ExtractFeaturesFF.historySteps (history_size : Nat) :
    Nat → List Int → Nat → Int → List Int × Nat
  | 0, history, h, _ => (history, h)
  | fuel + 1, history, h, s =>
      if h < history_size ∧ s ≥ 0 then
        ParserInstance.ExtractFeaturesFF.historySteps history_size fuel
          (history.set h s) (h + 1) (s - 1)
      else (history, h)

/-- The second history loop, while (h < history_size_) history[h++] = -2. -/
def ParserInstance.ExtractFeaturesFF.historyFill (history_size : Nat) :
    Nat → List Int → Nat → List Int
  | 0, history, _ => history
  | fuel + 1, history, h =>
      if h < history_size then
        ParserInstance.ExtractFeaturesFF.historyFill history_size fuel
          (history.set h (-2)) (h + 1)
      else history

/-- The history feature of ExtractFeaturesFF: int h = 0; int s = step - 1; followed by
the two loops, on the array history of history_size_ elements. -/
def ParserInstance.ExtractFeaturesFF.history (history_size : Nat) (step : Int)
    (history : List Int) : List Int :=
  let r := ParserInstance.ExtractFeaturesFF.historySteps history_size history_size
    history 0 (step - 1)
  ParserInstance.ExtractFeaturesFF.historyFill history_size history_size r.1 r.2

/-- The role feature array while ExtractFeaturesFF fills it: the array roles, the
index r of the next entry, and the indices written so far, in order. -/
structure ParserInstance.RoleArray where
  roles : List Int
  r : Nat
  writes : List Nat
  deriving DecidableEq, Repr

/-- The guarded write if (r < max_roles_) roles[r++] = x. -/
def ParserInstance.RoleArray.put (max_roles : Nat) (a : ParserInstance.RoleArray)
    (x : Int) : ParserInstance.RoleArray :=
  if a.r < max_roles then ⟨a.roles.set a.r x, a.r + 1, a.writes ++ [a.r]⟩ else a

/-- What ExtractFeaturesFF reads from the parser for the role features: frame_limit_,
the role table roles_ (a map from the handle of a role to its index) with its size,
max_roles_ and the four offsets. -/
structure Parser.RoleConfig where
  frame_limit_ : Int
  roles_ : Handle → Option Int
  roles_size : Nat
  max_roles_ : Nat
  offsets : Parser.RoleOffsets

/-- What ExtractFeaturesFF reads from the parser state for the role features. The class
ParserState and the index handles are declared outside parser.cc: slots k stands for
the slots of the frame state.frame(k) in state.store(), IsIndex and AsIndex for the
methods of Handle with these names. -/
structure ParserState.Frames where
  slots : Int → List Slot
  IsIndex : Handle → Bool
  AsIndex : Handle → Int

/-- The call frame_to_attention.find(key) on the entries of the map; none stands for
frame_to_attention.end(). -/
def ParserInstance.ExtractFeaturesFF.find (entries : List (Int × Int)) (key : Int) :
    Option Int :=
  (entries.find? (fun kv => decide (kv.1 = key))).map Prod.snd

/-- The body of the loop over the slots of one frame in ExtractFeaturesFF, for the
frame at attention index source. -/
def ParserInstance.ExtractFeaturesFF.roleSlot (p : Parser.RoleConfig)
    (st : ParserState.Frames) (entries : List (Int × Int)) (source : Int)
    (a : ParserInstance.RoleArray) (slot : Slot) : ParserInstance.RoleArray :=
  match p.roles_ slot.name with
  | none => a
  | some role =>
      let a1 := a.put p.max_roles_ (Parser.outlinkFeature p.offsets p.roles_size source role)
      if st.IsIndex slot.value then
        match ParserInstance.ExtractFeaturesFF.find entries (st.AsIndex slot.value) with
        | none => a1
        | some target =>
            let a2 := a1.put p.max_roles_
              (Parser.inlinkFeature p.offsets p.roles_size target role)
            let a3 := a2.put p.max_roles_
              (Parser.unlabeledFeature p.offsets p.frame_limit_ source target)
            a3.put p.max_roles_
              (Parser.labeledFeature p.offsets p.frame_limit_ p.roles_size source target role)
      else a1

/-- The loop for (const auto &kv : frame_to_attention) of ExtractFeaturesFF over the
remaining entries of the map; entries is the whole map, in the order the iteration
visits it. -/
def ParserInstance.ExtractFeaturesFF.roleFrames (p : Parser.RoleConfig)
    (st : ParserState.Frames) (entries : List (Int × Int)) :
    List (Int × Int) → ParserInstance.RoleArray → ParserInstance.RoleArray
  | [], a => a
  | kv :: rest, a =>
      ParserInstance.ExtractFeaturesFF.roleFrames p st entries rest
        ((st.slots kv.1).foldl (ParserInstance.ExtractFeaturesFF.roleSlot p st entries kv.2) a)

/-- The final loop while (r < max_roles_) roles[r++] = -2. The first argument bounds
the number of iterations. -/
def ParserInstance.ExtractFeaturesFF.roleFill (max_roles : Nat) :
    Nat → ParserInstance.RoleArray → ParserInstance.RoleArray
  | 0, a => a
  | fuel + 1, a =>
      if a.r < max_roles then
        ParserInstance.ExtractFeaturesFF.roleFill max_roles fuel
          ⟨a.roles.set a.r (-2), a.r + 1, a.writes ++ [a.r]⟩
      else a

/-- The role features of ExtractFeaturesFF: int r = 0, the loop over the frames in
attention, and the final fill, on the array roles of max_roles_ elements. -/
def ParserInstance.ExtractFeaturesFF.roles (p : Parser.RoleConfig)
    (st : ParserState.Frames) (entries : List (Int × Int)) (roles : List Int) :
    ParserInstance.RoleArray :=
  ParserInstance.ExtractFeaturesFF.roleFill p.max_roles_ p.max_roles_
    (ParserInstance.ExtractFeaturesFF.roleFrames p st entries entries ⟨roles, 0, []⟩)

/-- The features that the loops of ExtractFeaturesFF reach for one slot, in order,
without the bound max_roles_. -/
def ParserInstance.ExtractFeaturesFF.slotFeatures (p : Parser.RoleConfig)
    (st : ParserState.Frames) (entries : List (Int × Int)) (source : Int) (slot : Slot) :
    List Int :=
  match p.roles_ slot.name with
  | none => []
  | some role =>
      Parser.outlinkFeature p.offsets p.roles_size source role ::
        (if st.IsIndex slot.value then
          match ParserInstance.ExtractFeaturesFF.find entries (st.AsIndex slot.value) with
          | none => []
          | some target =>
              [Parser.inlinkFeature p.offsets p.roles_size target role,
               Parser.unlabeledFeature p.offsets p.frame_limit_ source target,
               Parser.labeledFeature p.offsets p.frame_limit_ p.roles_size source target role]
        else [])

/-- The features that the loops of ExtractFeaturesFF reach for the given entries of
frame_to_attention, in order, without the bound max_roles_. -/
def ParserInstance.ExtractFeaturesFF.features (p : Parser.RoleConfig)
    (st : ParserState.Frames) (entries : List (Int × Int)) : List (Int × Int) → List Int
  | [] => []
  | kv :: rest =>
      ((st.slots kv.1).map
          (ParserInstance.ExtractFeaturesFF.slotFeatures p st entries kv.2)).flatten ++
        ParserInstance.ExtractFeaturesFF.features p st entries rest

/-- A parser with the single role globalRef 7, frame_limit_ = 5 and max_roles_ = 3. -/
def Example.roleConfig : Parser.RoleConfig :=
  ⟨5, fun h => if h = Handle.globalRef 7 then some 0 else none, 1, 3, Parser.Load.offsets 5 1⟩

/-- A parser state in which every frame has the single slot (globalRef 7, 1) and no
handle is an index. -/
def Example.stateFrames : ParserState.Frames :=
  ⟨fun _ => [⟨Handle.globalRef 7, Handle.int 1⟩], fun _ => false, fun _ => 0⟩

/-! ## Names::Add -/

/-- Embeds `Names::Add(Name *name)`, on the memory of the names:
`CHECK(name->next_ == nullptr); name->next_ = list_; list_ = name;`. The result is the
`Names` and the memory after the call; `none` when `name` is not the address of a
`Name`. -/
def Names.Add (self : Names) (mem : List Name) (name : Nat) :
    Option (Outcome (Names × List Name)) :=
  match mem[name]? with
  | none => none
  | some nm =>
    if nm.next_ = none then
      some (Outcome.ok (⟨some name⟩, mem.set name { nm with next_ := self.list_ }))
    else some Outcome.abort

/-- A memory with a single unresolved `Name`, at address 0, on no list. -/
def Example.oneName : List Name := [⟨Handle.nil, "a", none, none⟩]

/-! ## The id of a frame and the calls of Store::Deref on slot values -/

/-- The part of `Frame::Id` and `Frame::IdStr` after the id slot is read, shared by
both: `store_->Deref(id)`, the test `IsSymbol()`, and for a symbol with a string name
`store_->GetString(symbol->name)`. A numeric symbol (its name is an integer handle)
gives `numeric (symbol->name.AsInt())`. `none` where the C++ code is undefined: `id`
or the name of the symbol denotes no object. -/
def Frame.symbolText (store : Store) (id : Handle) (numeric : Int → String) :
    Option String :=
  match store.Deref id with
  | none => none
  | some datum =>
    match datum with
    | Datum.symbol name _ _ =>
      if name.IsInt then some (numeric name.AsInt)
      else
        match store.Deref name with
        | some (Datum.string str) => some str
        | _ => none
    | _ => some ""

/-- Embeds `Frame::Id()`: the empty string for a nil view, a frame without id slot or
an id that is no symbol; `#n` for a numeric symbol and the name of the symbol
otherwise. -/
def Frame.Id (self : Frame) : Option String :=
  if self.handle.IsNil then some ""
  else
    match self.frame with
    | none => none
    | some f =>
      let id := f.get Handle.id
      if id.IsNil then some ""
      else Frame.symbolText self.store id (fun n => "#" ++ toString n)

/-- Embeds `Frame::IdStr()`: as `Id()`, with the empty `Text` for a numeric symbol. -/
def Frame.IdStr (self : Frame) : Option String :=
  if self.handle.IsNil then some ""
  else
    match self.frame with
    | none => none
    | some f =>
      let id := f.get Handle.id
      if id.IsNil then some ""
      else Frame.symbolText self.store id (fun _ => "")

/-- The slot values that `Frame::Id()` passes to `store_->Deref`: the value of the id
slot, once the tests `IsNil()` and `id.IsNil()` have failed. -/
def Frame.Id.derefs (self : Frame) : List Handle :=
  if self.handle.IsNil then []
  else
    match self.frame with
    | none => []
    | some f =>
      let id := f.get Handle.id
      if id.IsNil then [] else [id]

/-- The slot values that `Frame::IdStr()` passes to `store_->Deref`; the statements up
to the call are those of `Id()`. -/
def Frame.IdStr.derefs (self : Frame) : List Handle :=
  if self.handle.IsNil then []
  else
    match self.frame with
    | none => []
    | some f =>
      let id := f.get Handle.id
      if id.IsNil then [] else [id]

/-- The slot values that `Frame::GetString(Handle name)` passes to `store()->Deref`:
the value of the slot, inside `if (value.IsRef() && !value.IsNil())`. -/
def Frame.GetString.derefs (self : Frame) (name : Handle) : List Handle :=
  match self.frame with
  | none => []
  | some f =>
    let value := f.get name
    if value.IsRef && !value.IsNil then [value] else []

/-- The slot values that `Frame::GetText(Handle name)` passes to `store()->Deref`. -/
def Frame.GetText.derefs (self : Frame) (name : Handle) : List Handle :=
  match self.frame with
  | none => []
  | some f =>
    let value := f.get name
    if value.IsRef && !value.IsNil then [value] else []

/-- The state of the role array between two writes: r entries written, at the indices
0..r-1 in this order, in an array of max_roles entries. -/
def ParserInstance.RoleArray.Ok (max_roles : Nat) (a : ParserInstance.RoleArray) : Prop :=
  a.r ≤ max_roles ∧ a.roles.length = max_roles ∧ a.writes = List.range a.r

/-! ## Collection -/

/-- Modelled from the spec: the handles a heap object holds, which the collector
traces and patches: the names and values of the slots of a frame, the name and the
value of a symbol, the elements of an array; a string holds none. -/
def Datum.handles : Datum → List Handle
  | Datum.string _ => []
  | Datum.frame f => Space.handles f.slots
  | Datum.symbol name value _ => [name, value]
  | Datum.array elems => elems

/-- Modelled from the spec: the indices of the objects of the local heap that the
handles of a list denote (a reference handle is an index into the object table). -/
def Store.locals (s : Store) : List Handle → List Nat
  | [] => []
  | Handle.localRef i :: rest =>
    if i < s.heap.length then i :: Store.locals s rest else Store.locals s rest
  | _ :: rest => Store.locals s rest

/-- Modelled from the spec: the objects of the local heap that the object with index
`i` references through the handles it holds. -/
def Store.successors (s : Store) (i : Nat) : List Nat :=
  match s.heap[i]? with
  | some d => s.locals d.handles
  | none => []

/-- Modelled from the spec: the root set of a collection, "every currently locked
Root/External plus the symbol table": the handles of the locked views, the handles the
externals report, and the symbols of the symbol table. -/
def Store.RootSet (s : Store) (locked externals : List Handle) : List Handle :=
  locked ++ externals ++ s.symbols.map Prod.snd

/-- Modelled from the spec: one round of tracing, the marked objects and the objects
they reference. -/
def Store.Collect.step (s : Store) (marked : List Nat) : List Nat :=
  (marked ++ (marked.map s.successors).flatten).dedup

/-- Modelled from the spec: tracing from a set of marked objects, for a number of
rounds. -/
def Store.Collect.trace (s : Store) : Nat → List Nat → List Nat
  | 0, marked => marked
  | rounds + 1, marked => Store.Collect.trace s rounds (Store.Collect.step s marked)

/-- Modelled from the spec: the objects that survive a collection with the given
locked handles and external handles, by their index before the collection and in heap
order: the objects that tracing from the root set marks. As many rounds as the heap
has objects complete the tracing. -/
def Store.Collect.survivors (s : Store) (locked externals : List Handle) : List Nat :=
  (List.range s.heap.length).filter (fun i =>
    decide (i ∈ Store.Collect.trace s s.heap.length (s.locals (s.RootSet locked externals))))

/-- Modelled from the spec: the patch of a handle. Compaction moves the surviving
objects together, so the object with index `i` gets the index of its position among
the survivors; an inline handle and a handle into the global store are unchanged. The
handle of an object that does not survive gets the index after the last survivor,
which denotes no object. -/
def Handle.relocate (survivors : List Nat) : Handle → Handle
  | Handle.localRef i => Handle.localRef (survivors.indexOf i)
  | h => h

/-- Modelled from the spec: a slot with both its handles patched. -/
def Slot.relocate (survivors : List Nat) (slot : Slot) : Slot :=
  ⟨slot.name.relocate survivors, slot.value.relocate survivors⟩

/-- Modelled from the spec: a relocated object, with every handle it holds patched and
nothing else changed. -/
def Datum.relocate (survivors : List Nat) : Datum → Datum
  | Datum.string str => Datum.string str
  | Datum.frame f => Datum.frame ⟨f.proxy, f.slots.map (Slot.relocate survivors)⟩
  | Datum.symbol name value bound =>
    Datum.symbol (name.relocate survivors) (value.relocate survivors) bound
  | Datum.array elems => Datum.array (elems.map (Handle.relocate survivors))

/-- The state after a collection: the store, the handles of the locked views and the
handles in the buffers of the externals. -/
structure Store.Collected where
  store : Store
  locked : List Handle
  externals : List Handle
  deriving DecidableEq

/-- Modelled from the spec: a collection of the local heap, whose code (frame/store.cc)
is not among the sources: "tracing, relocation, and pointer-patching (including every
root-held and every inter-object handle) complete as one consistent operation". The
objects are traced from the root set; the objects reached are compacted in heap order
and the others are reclaimed; every handle in a surviving object, in the symbol table,
in a locked view and in the buffer of an external is patched. The global store is not
collected. -/
def Store.Collect (s : Store) (locked externals : List Handle) : Store.Collected :=
  let survivors := Store.Collect.survivors s locked externals
  { store :=
      { globals := s.globals
        heap := survivors.filterMap (fun i => (s.heap[i]?).map (Datum.relocate survivors))
        symbols := s.symbols.map (fun e => (e.1, e.2.relocate survivors)) }
    locked := locked.map (Handle.relocate survivors)
    externals := externals.map (Handle.relocate survivors) }

/-- The object a handle denotes, as it is after a collection: relocated with its
handles patched when it is an object of the local heap, unchanged when it is an object
of the global store. -/
def Handle.relocated (survivors : List Nat) (h : Handle) (d : Datum) : Datum :=
  match h with
  | Handle.localRef _ => d.relocate survivors
  | _ => d

/-- The object with index `i` of the local heap is in the transitive closure of the
handles `roots`: a root denotes it, or an object in the closure references it. -/
inductive Store.Reachable (s : Store) (roots : List Handle) : Nat → Prop where
  | root (i : Nat) : i ∈ s.locals roots → Store.Reachable s roots i
  | ref (j i : Nat) : Store.Reachable s roots j → i ∈ s.successors j →
      Store.Reachable s roots i

/-- A set of marked objects is closed when it holds every object it references. -/
def Store.Collect.Closed (s : Store) (marked : List Nat) : Prop :=
  ∀ j ∈ marked, ∀ i ∈ s.successors j, i ∈ marked

/-- A store with three frames: frame 0 is referenced by no one, frame 1 has a slot
whose value is frame 2, and frame 2 has an inline value. -/
def Example.threeFrameStore : Store :=
  ⟨[], [Datum.frame ⟨false, [⟨Handle.globalRef 7, Handle.int 0⟩]⟩,
        Datum.frame ⟨false, [⟨Handle.globalRef 7, Handle.localRef 2⟩]⟩,
        Datum.frame ⟨false, [⟨Handle.globalRef 7, Handle.int 2⟩]⟩], []⟩

/-! # Properties

## The slot buffer -/

theorem Space.setName_push (slots : List Slot) (s : Slot) (h : Handle) :
    Space.setName (slots ++ [s]) slots.length h = slots ++ [{ s with name := h }] := by
  simp [Space.setName]

theorem Space.setValue_push (slots : List Slot) (s : Slot) (h : Handle) :
    Space.setValue (slots ++ [s]) slots.length h = slots ++ [{ s with value := h }] := by
  simp [Space.setValue]

/-- A new slot written with a name and a value is that slot at the end of the
buffer. -/
theorem Builder.NewSlot_written (slots : List Slot) (name value : Handle) :
    Space.setValue (Space.setName (Builder.NewSlot slots).1 (Builder.NewSlot slots).2 name)
      (Builder.NewSlot slots).2 value = slots ++ [{ name := name, value := value }] := by
  simp [Builder.NewSlot, Space.push, Space.setName_push, Space.setValue_push]

/-! ## Builder::Delete -/

/-- The first loop of Delete stops at the first slot with the name: nothing
before the stop position has the name, and the stop position is the end of the
buffer or a slot with the name. -/
theorem Builder.Delete.find_spec (name : Handle) (buf : List Slot) :
    ∀ (n slot : Nat), buf.length ≤ slot + n →
      slot ≤ Builder.Delete.find name buf n slot ∧
      (∀ j, slot ≤ j → j < Builder.Delete.find name buf n slot →
        ∀ s, buf[j]? = some s → s.name ≠ name) ∧
      (Builder.Delete.find name buf n slot < buf.length →
        ∃ s, buf[Builder.Delete.find name buf n slot]? = some s ∧ s.name = name) := by
  intro n
  induction n with
  | zero =>
    intro slot hlen
    simp only [Builder.Delete.find]
    refine ⟨Nat.le_refl _, ?_, ?_⟩
    · intro j h1 h2; omega
    · intro h; omega
  | succ n ih =>
    intro slot hlen
    simp only [Builder.Delete.find]
    cases hs : buf[slot]? with
    | none =>
      simp only
      refine ⟨Nat.le_refl _, ?_, ?_⟩
      · intro j h1 h2; omega
      · intro h
        have := List.getElem?_eq_none_iff.mp hs
        omega
    | some s =>
      simp only
      by_cases hname : s.name = name
      · simp only [hname, ne_eq, not_true_eq_false, if_false]
        refine ⟨Nat.le_refl _, ?_, ?_⟩
        · intro j h1 h2; omega
        · intro _; exact ⟨s, hs, hname⟩
      · simp only [ne_eq, hname, not_false_eq_true, if_true]
        obtain ⟨h1, h2, h3⟩ := ih (slot + 1) (by omega)
        refine ⟨by omega, ?_, h3⟩
        intro j hj1 hj2 t ht
        by_cases hj : j = slot
        · subst hj
          rw [hs] at ht
          cases ht
          exact hname
        · exact h2 j (by omega) hj2 t ht

/-- The second loop of Delete: the buffer up to the final `current` is the
buffer up to the initial `current` followed by the slots from `slot` on whose
name differs from the deleted one. -/
theorem Builder.Delete.compact_spec (name : Handle) :
    ∀ (n : Nat) (buf : List Slot) (slot current : Nat),
      current ≤ slot → buf.length ≤ slot + n →
      (Builder.Delete.compact name n buf slot current).1.take
          (Builder.Delete.compact name n buf slot current).2
        = buf.take current ++ (buf.drop slot).filter (fun s => decide (s.name ≠ name)) := by
  intro n
  induction n with
  | zero =>
    intro buf slot current _ hlen
    simp only [Builder.Delete.compact]
    rw [List.drop_eq_nil_of_le (by omega)]
    simp
  | succ n ih =>
    intro buf slot current hcs hlen
    simp only [Builder.Delete.compact]
    cases hs : buf[slot]? with
    | none =>
      simp only
      rw [List.drop_eq_nil_of_le (List.getElem?_eq_none_iff.mp hs)]
      simp
    | some s =>
      simp only
      obtain ⟨hlt, hget⟩ := List.getElem?_eq_some.mp hs
      have hdrop : buf.drop slot = s :: buf.drop (slot + 1) := by
        rw [List.drop_eq_getElem_cons hlt, hget]
      by_cases hname : s.name = name
      · simp only [hname, if_true]
        rw [ih buf (slot + 1) current (by omega) (by omega), hdrop]
        simp [hname]
      · simp only [hname, if_false]
        rw [ih (buf.set current s) (slot + 1) (current + 1) (by omega)
          (by simp only [List.length_set]; omega)]
        rw [hdrop, List.drop_set_of_lt s buf (by omega : current < slot + 1)]
        have htake : (buf.set current s).take (current + 1) = buf.take current ++ [s] := by
          have hc : current < buf.length := by omega
          rw [List.set_eq_take_append_cons_drop, if_pos hc]
          have hl : (buf.take current).length = current := by
            rw [List.length_take]; omega
          rw [List.take_append_eq_append_take, hl]
          simp [List.take_of_length_le (Nat.le_of_eq hl) , List.take_take]
        rw [htake]
        simp [hname]

/-- Filtering keeps an initial segment whose slots all pass the test. -/
theorem List.filter_take_of_forall {α : Type} (p : α → Bool) (l : List α) (r : Nat)
    (h : ∀ j, j < r → ∀ a, l[j]? = some a → p a = true) :
    (l.take r).filter p = l.take r := by
  rw [List.filter_eq_self]
  intro a ha
  obtain ⟨j, hj⟩ := List.mem_iff_getElem?.mp ha
  rw [List.getElem?_take] at hj
  split at hj
  · rename_i hlt
    exact h j hlt a hj
  · cases hj

/-- The body of Delete computes the filter that keeps the slots whose name
differs from the deleted name. -/
theorem Builder.Delete.run_eq_filter (name : Handle) (slots : List Slot) :
    Builder.Delete.run name slots = slots.filter (fun s => decide (s.name ≠ name)) := by
  obtain ⟨_, hbefore, _⟩ := Builder.Delete.find_spec name slots slots.length 0 (by omega)
  have hkeep : (slots.take (Builder.Delete.find name slots slots.length 0)).filter
      (fun s => decide (s.name ≠ name))
      = slots.take (Builder.Delete.find name slots slots.length 0) := by
    apply List.filter_take_of_forall
    intro j hj a ha
    simpa using hbefore j (Nat.zero_le j) hj a ha
  have hsplit : slots.filter (fun s => decide (s.name ≠ name))
      = slots.take (Builder.Delete.find name slots slots.length 0)
        ++ (slots.drop (Builder.Delete.find name slots slots.length 0)).filter
          (fun s => decide (s.name ≠ name)) := by
    conv_lhs => rw [← List.take_append_drop (Builder.Delete.find name slots slots.length 0) slots]
    rw [List.filter_append, hkeep]
  unfold Builder.Delete.run
  simp only
  split
  · rename_i hend
    rw [hsplit, hend]
    simp
  · rw [hsplit]
    exact Builder.Delete.compact_spec name slots.length slots _ _ (Nat.le_refl _) (by omega)

/-- C1. `Builder::Delete(name)`: the pending slots afterwards are exactly the
sub-sequence of the old slots whose name differs from `name` (every matching
slot removed, the others in their original order with their values), the store
and the target handle are untouched, and when no slot has the name the slot
list is unchanged. -/
theorem Builder.Delete_removes_all_matching (b : Builder) (name : Handle) :
    (b.Delete name).slots_ = b.slots_.filter (fun s => decide (s.name ≠ name)) ∧
    (b.Delete name).slots_.Sublist b.slots_ ∧
    (∀ s, s ∈ (b.Delete name).slots_ ↔ s ∈ b.slots_ ∧ s.name ≠ name) ∧
    (b.Delete name).store_ = b.store_ ∧ (b.Delete name).handle_ = b.handle_ ∧
    ((∀ s ∈ b.slots_, s.name ≠ name) → (b.Delete name).slots_ = b.slots_) := by
  have h : (b.Delete name).slots_ = b.slots_.filter (fun s => decide (s.name ≠ name)) :=
    Builder.Delete.run_eq_filter name b.slots_
  refine ⟨h, ?_, ?_, rfl, rfl, ?_⟩
  · rw [h]; exact List.filter_sublist _
  · intro s; rw [h]; simp [List.mem_filter]
  · intro hall
    rw [h, List.filter_eq_self]
    intro s hs
    simpa using hall s hs

/-- C1, at a concrete buffer: deleting a name no slot has changes nothing. -/
theorem Builder.Delete_removes_all_matching_witness :
    ((Builder.new Example.emptyStore).Add (Handle.localRef 1) (Handle.int 1)).Delete
        (Handle.localRef 2)
      = (Builder.new Example.emptyStore).Add (Handle.localRef 1) (Handle.int 1) ∧
    (((Builder.new Example.emptyStore).Add (Handle.localRef 1) (Handle.int 1)).Delete
      (Handle.localRef 2)).slots_
      = ((Builder.new Example.emptyStore).Add (Handle.localRef 1) (Handle.int 1)).slots_ :=
  ⟨by decide,
   (Builder.Delete_removes_all_matching
      ((Builder.new Example.emptyStore).Add (Handle.localRef 1) (Handle.int 1))
      (Handle.localRef 2)).2.2.2.2.2 (by decide)⟩

/-! ## Builder::Add -/

/-- C2. `Builder::Add(name, value)`: the pending slots afterwards are the old
slots followed by the single slot (name, value); every old slot is still at its
position, also when a slot with the same name exists, and the slot count grows
by exactly one. The store and the target handle are untouched. -/
theorem Builder.Add_appends_one_slot (b : Builder) (name value : Handle) :
    (b.Add name value).slots_ = b.slots_ ++ [{ name := name, value := value }] ∧
    (b.Add name value).slots_.length = b.slots_.length + 1 ∧
    (∀ i, i < b.slots_.length → (b.Add name value).slots_[i]? = b.slots_[i]?) ∧
    (b.Add name value).slots_[b.slots_.length]? = some { name := name, value := value } ∧
    (b.Add name value).store_ = b.store_ ∧ (b.Add name value).handle_ = b.handle_ := by
  have h : (b.Add name value).slots_ = b.slots_ ++ [{ name := name, value := value }] :=
    Builder.NewSlot_written b.slots_ name value
  refine ⟨h, ?_, ?_, ?_, rfl, rfl⟩
  · rw [h]; simp
  · intro i hi; rw [h, List.getElem?_append_left hi]
  · rw [h]; simp

/-! ## Builder::Set -/

/-- The scan of NamedSlot reaches the end exactly when no slot has the name. -/
theorem Builder.NamedSlot.scan_none (name : Handle) :
    ∀ (slots : List Slot) (k : Nat), (∀ s ∈ slots, s.name ≠ name) →
      Builder.NamedSlot.scan name slots k = none := by
  intro slots
  induction slots with
  | nil => intro k _; rfl
  | cons s rest ih =>
    intro k h
    have hs : s.name ≠ name := h s (List.mem_cons_self _ _)
    simp only [Builder.NamedSlot.scan, hs, if_false]
    exact ih (k + 1) (fun t ht => h t (List.mem_cons_of_mem _ ht))

/-- The scan of NamedSlot stops at the first slot that has the name. -/
theorem Builder.NamedSlot.scan_first (name : Handle) :
    ∀ (pre : List Slot) (s : Slot) (post : List Slot) (k : Nat),
      (∀ t ∈ pre, t.name ≠ name) → s.name = name →
      Builder.NamedSlot.scan name (pre ++ s :: post) k = some (k + pre.length) := by
  intro pre
  induction pre with
  | nil =>
    intro s post k _ hs
    simp [Builder.NamedSlot.scan, hs]
  | cons t rest ih =>
    intro s post k h hs
    have ht : t.name ≠ name := h t (List.mem_cons_self _ _)
    have hstep : Builder.NamedSlot.scan name ((t :: rest) ++ s :: post) k
        = Builder.NamedSlot.scan name (rest ++ s :: post) (k + 1) := by
      show Builder.NamedSlot.scan name (t :: (rest ++ s :: post)) k = _
      simp only [Builder.NamedSlot.scan, ht, if_false]
    rw [hstep, ih s post (k + 1) (fun u hu => h u (List.mem_cons_of_mem _ hu)) hs]
    simp only [List.length_cons]
    congr 1
    omega

/-- A list with a slot of the given name splits at the first such slot. -/
theorem Slot.split_at_first (name : Handle) :
    ∀ (slots : List Slot), (∃ s ∈ slots, s.name = name) →
      ∃ pre s post, slots = pre ++ s :: post ∧ (∀ t ∈ pre, t.name ≠ name) ∧ s.name = name := by
  intro slots
  induction slots with
  | nil => intro h; obtain ⟨s, hs, _⟩ := h; cases hs
  | cons t rest ih =>
    intro h
    by_cases ht : t.name = name
    · exact ⟨[], t, rest, rfl, by simp, ht⟩
    · obtain ⟨s, hs, hname⟩ := h
      have hrest : ∃ s ∈ rest, s.name = name := by
        rcases List.mem_cons.mp hs with heq | hmem
        · exact absurd (heq ▸ hname) ht
        · exact ⟨s, hmem, hname⟩
      obtain ⟨pre, u, post, hsplit, hpre, hu⟩ := ih hrest
      refine ⟨t :: pre, u, post, by rw [hsplit]; rfl, ?_, hu⟩
      intro v hv
      rcases List.mem_cons.mp hv with heq | hmem
      · rw [heq]; exact ht
      · exact hpre v hmem

/-- Lookup by name skips the slots with another name. -/
theorem FrameDatum.getIn_append_of_forall_ne (name : Handle) :
    ∀ (pre rest : List Slot), (∀ t ∈ pre, t.name ≠ name) →
      FrameDatum.getIn name (pre ++ rest) = FrameDatum.getIn name rest := by
  intro pre
  induction pre with
  | nil => intro rest _; rfl
  | cons t pre ih =>
    intro rest h
    have ht : t.name ≠ name := h t (List.mem_cons_self _ _)
    simp only [List.cons_append, FrameDatum.getIn, ht, if_false]
    exact ih rest (fun u hu => h u (List.mem_cons_of_mem _ hu))

/-- The name test skips the slots with another name. -/
theorem FrameDatum.hasIn_append_of_forall_ne (name : Handle) :
    ∀ (pre rest : List Slot), (∀ t ∈ pre, t.name ≠ name) →
      FrameDatum.hasIn name (pre ++ rest) = FrameDatum.hasIn name rest := by
  intro pre
  induction pre with
  | nil => intro rest _; rfl
  | cons t pre ih =>
    intro rest h
    have ht : t.name ≠ name := h t (List.mem_cons_self _ _)
    simp only [List.cons_append, FrameDatum.hasIn, ht, if_false]
    exact ih rest (fun u hu => h u (List.mem_cons_of_mem _ hu))

/-- Set on a buffer without the name appends the slot. -/
theorem Builder.Set_slots_of_absent (b : Builder) (name value : Handle)
    (h : ∀ s ∈ b.slots_, s.name ≠ name) :
    (b.Set name value).slots_ = b.slots_ ++ [{ name := name, value := value }] := by
  simp [Builder.Set, Builder.NamedSlot, Builder.NamedSlot.scan_none name b.slots_ 0 h,
    Space.push, Space.setName_push, Space.setValue_push]

/-- Set on a buffer with the name writes the value of the first slot with the
name. -/
theorem Builder.Set_slots_of_first (b : Builder) (name value : Handle)
    (pre : List Slot) (s : Slot) (post : List Slot)
    (hsplit : b.slots_ = pre ++ s :: post) (hpre : ∀ t ∈ pre, t.name ≠ name)
    (hs : s.name = name) :
    (b.Set name value).slots_ = pre ++ { name := name, value := value } :: post := by
  have hget : (pre ++ s :: post)[pre.length]? = some s := by
    rw [List.getElem?_append_right (Nat.le_refl _)]
    simp
  have hset : (pre ++ s :: post).set pre.length { name := name, value := value }
      = pre ++ { name := name, value := value } :: post := by simp
  simp only [Builder.Set, Builder.NamedSlot, hsplit,
    Builder.NamedSlot.scan_first name pre s post 0 hpre hs, Nat.zero_add, Space.setValue, hget,
    hs, hset]

/-- C3. `Builder::Set(name, value)`: when some pending slot has the name, only
the value of the first such slot is replaced (count, order, names and all other
values unchanged, later slots with the name untouched); when none has the name,
the slot (name, value) is appended. In both cases the first slot with the name
afterwards holds the value. The store and the target handle are untouched. -/
theorem Builder.Set_replaces_first_or_appends (b : Builder) (name value : Handle) :
    (∀ pre s post, b.slots_ = pre ++ s :: post → (∀ t ∈ pre, t.name ≠ name) → s.name = name →
      (b.Set name value).slots_ = pre ++ { name := name, value := value } :: post ∧
      (b.Set name value).slots_.length = b.slots_.length) ∧
    ((∀ s ∈ b.slots_, s.name ≠ name) →
      (b.Set name value).slots_ = b.slots_ ++ [{ name := name, value := value }]) ∧
    FrameDatum.getIn name (b.Set name value).slots_ = value ∧
    FrameDatum.hasIn name (b.Set name value).slots_ = true ∧
    (b.Set name value).store_ = b.store_ ∧ (b.Set name value).handle_ = b.handle_ := by
  refine ⟨?_, Builder.Set_slots_of_absent b name value, ?_, ?_, rfl, rfl⟩
  · intro pre s post hsplit hpre hs
    have h := Builder.Set_slots_of_first b name value pre s post hsplit hpre hs
    refine ⟨h, ?_⟩
    rw [h, hsplit]; simp
  · by_cases hex : ∃ s ∈ b.slots_, s.name = name
    · obtain ⟨pre, s, post, hsplit, hpre, hs⟩ := Slot.split_at_first name b.slots_ hex
      rw [Builder.Set_slots_of_first b name value pre s post hsplit hpre hs,
        FrameDatum.getIn_append_of_forall_ne name pre _ hpre]
      simp [FrameDatum.getIn]
    · have hall : ∀ s ∈ b.slots_, s.name ≠ name := fun s hs hn => hex ⟨s, hs, hn⟩
      rw [Builder.Set_slots_of_absent b name value hall,
        FrameDatum.getIn_append_of_forall_ne name b.slots_ _ hall]
      simp [FrameDatum.getIn]
  · by_cases hex : ∃ s ∈ b.slots_, s.name = name
    · obtain ⟨pre, s, post, hsplit, hpre, hs⟩ := Slot.split_at_first name b.slots_ hex
      rw [Builder.Set_slots_of_first b name value pre s post hsplit hpre hs,
        FrameDatum.hasIn_append_of_forall_ne name pre _ hpre]
      simp [FrameDatum.hasIn]
    · have hall : ∀ s ∈ b.slots_, s.name ≠ name := fun s hs hn => hex ⟨s, hs, hn⟩
      rw [Builder.Set_slots_of_absent b name value hall,
        FrameDatum.hasIn_append_of_forall_ne name b.slots_ _ hall]
      simp [FrameDatum.hasIn]

/-- C3, at a concrete buffer with the name in two slots: the first is
rewritten, the second is left alone; and on a buffer without the name the slot
is appended. -/
theorem Builder.Set_replaces_first_or_appends_witness :
    ((Builder.mk Example.emptyStore Handle.nil
        [⟨Handle.localRef 2, Handle.int 1⟩, ⟨Handle.localRef 1, Handle.int 2⟩,
         ⟨Handle.localRef 1, Handle.int 3⟩]).Set (Handle.localRef 1) (Handle.int 9)).slots_
      = [⟨Handle.localRef 2, Handle.int 1⟩, ⟨Handle.localRef 1, Handle.int 9⟩,
         ⟨Handle.localRef 1, Handle.int 3⟩] ∧
    ((Builder.mk Example.emptyStore Handle.nil
        [⟨Handle.localRef 2, Handle.int 1⟩]).Set (Handle.localRef 1) (Handle.int 9)).slots_
      = [⟨Handle.localRef 2, Handle.int 1⟩, ⟨Handle.localRef 1, Handle.int 9⟩] :=
  ⟨((Builder.Set_replaces_first_or_appends
      (Builder.mk Example.emptyStore Handle.nil
        [⟨Handle.localRef 2, Handle.int 1⟩, ⟨Handle.localRef 1, Handle.int 2⟩,
         ⟨Handle.localRef 1, Handle.int 3⟩]) (Handle.localRef 1) (Handle.int 9)).1
      [⟨Handle.localRef 2, Handle.int 1⟩] ⟨Handle.localRef 1, Handle.int 2⟩
      [⟨Handle.localRef 1, Handle.int 3⟩] rfl (by decide) rfl).1,
   (Builder.Set_replaces_first_or_appends
      (Builder.mk Example.emptyStore Handle.nil [⟨Handle.localRef 2, Handle.int 1⟩])
      (Handle.localRef 1) (Handle.int 9)).2.1 (by decide)⟩

/-! ## Builder::Create on a new builder -/

theorem sizeofSlot_pos : 0 < sizeofSlot := by decide

/-- Adding slots one by one appends them in order and touches neither the
store nor the target handle. -/
theorem Builder.addAll_spec (added : List Slot) :
    ∀ (b : Builder), (b.addAll added).slots_ = b.slots_ ++ added ∧
      (b.addAll added).store_ = b.store_ ∧ (b.addAll added).handle_ = b.handle_ := by
  induction added with
  | nil => intro b; simp [Builder.addAll]
  | cons sl rest ih =>
    intro b
    obtain ⟨h1, h2, h3⟩ := ih (b.Add sl.name sl.value)
    have hadd : (b.Add sl.name sl.value).slots_ = b.slots_ ++ [sl] :=
      Builder.NewSlot_written b.slots_ sl.name sl.value
    refine ⟨?_, ?_, ?_⟩
    · show ((b.Add sl.name sl.value).addAll rest).slots_ = _
      rw [h1, hadd]; simp
    · show ((b.Add sl.name sl.value).addAll rest).store_ = _
      rw [h2]; rfl
    · show ((b.Add sl.name sl.value).addAll rest).handle_ = _
      rw [h3]; rfl

/-- An allocated object is denoted by the returned handle. -/
theorem Store.Deref_Allocate (s : Store) (d : Datum) :
    (s.Allocate d).1.Deref (s.Allocate d).2 = some d := by
  simp [Store.Allocate, Store.Deref]

/-- Create on a builder with a nil handle yields a view of a defined frame with
the pending slots. -/
theorem Builder.Create_frame_of_nil (b : Builder) (h : b.handle_ = Handle.nil) :
    b.Create.frame = some { proxy := false, slots := b.slots_ } := by
  simp [Builder.Create, Frame.frame, Store.GetFrame, Store.AllocateFrame, h, Handle.IsNil,
    Store.Deref_Allocate]

theorem FrameDatum.hasIn_of_mem (name : Handle) :
    ∀ (slots : List Slot), (∃ s ∈ slots, s.name = name) → FrameDatum.hasIn name slots = true := by
  intro slots
  induction slots with
  | nil => intro h; obtain ⟨s, hs, _⟩ := h; cases hs
  | cons t rest ih =>
    intro h
    by_cases ht : t.name = name
    · simp [FrameDatum.hasIn, ht]
    · simp only [FrameDatum.hasIn, ht, if_false]
      obtain ⟨s, hs, hname⟩ := h
      rcases List.mem_cons.mp hs with heq | hmem
      · exact absurd (heq ▸ hname) ht
      · exact ih ⟨s, hmem, hname⟩

/-- The value found under the name of a slot that no earlier slot shares is the
value of that slot. -/
theorem FrameDatum.getIn_first (pre : List Slot) (sl : Slot) (post : List Slot)
    (hpre : ∀ t ∈ pre, t.name ≠ sl.name) :
    FrameDatum.getIn sl.name (pre ++ sl :: post) = sl.value := by
  rw [FrameDatum.getIn_append_of_forall_ne sl.name pre _ hpre]
  simp [FrameDatum.getIn]

/-- C4. For every sequence of slots added to a fresh Builder, the Frame
returned by `Create()` has `size()` equal to the number of added slots,
`name(i)` and `value(i)` equal to the i-th added slot, `Has(n)` true for every
added name, and `Get(n)` equal to the value added under `n`: the value of the
first slot added under `n`, hence of every added slot when the added names are
pairwise different. -/
theorem Builder.Create_of_added_slots (s : Store) (added : List Slot) :
    ((Builder.new s).addAll added).Create.size = some added.length ∧
    (∀ i sl, added[i]? = some sl →
      ((Builder.new s).addAll added).Create.name i = some sl.name ∧
      ((Builder.new s).addAll added).Create.value i = some sl.value) ∧
    (∀ sl ∈ added, ((Builder.new s).addAll added).Create.Has sl.name = some true) ∧
    (∀ pre sl post, added = pre ++ sl :: post → (∀ t ∈ pre, t.name ≠ sl.name) →
      ((Builder.new s).addAll added).Create.Get sl.name = some sl.value) ∧
    (added.Pairwise (fun x y => x.name ≠ y.name) →
      ∀ sl ∈ added, ((Builder.new s).addAll added).Create.Get sl.name = some sl.value) := by
  obtain ⟨hslots, _, hhandle⟩ := Builder.addAll_spec added (Builder.new s)
  have hframe : ((Builder.new s).addAll added).Create.frame
      = some { proxy := false, slots := added } := by
    rw [Builder.Create_frame_of_nil _ (by rw [hhandle]; rfl), hslots]
    simp [Builder.new]
  have hget : ∀ pre sl post, added = pre ++ sl :: post → (∀ t ∈ pre, t.name ≠ sl.name) →
      ((Builder.new s).addAll added).Create.Get sl.name = some sl.value := by
    intro pre sl post hsplit hpre
    simp only [Frame.Get, hframe, Option.map_some', FrameDatum.get]
    rw [hsplit, FrameDatum.getIn_first pre sl post hpre]
  refine ⟨?_, ?_, ?_, hget, ?_⟩
  · simp only [Frame.size, hframe, Option.map_some', FrameDatum.size]
    rw [Nat.mul_div_cancel _ sizeofSlot_pos]
  · intro i sl hi
    simp [Frame.name, Frame.value, hframe, hi]
  · intro sl hsl
    simp only [Frame.Has, hframe, Option.map_some', FrameDatum.has]
    rw [FrameDatum.hasIn_of_mem sl.name added ⟨sl, hsl, rfl⟩]
  · intro hpair sl hsl
    obtain ⟨pre, post, hsplit⟩ := List.append_of_mem hsl
    refine hget pre sl post hsplit ?_
    rw [hsplit, List.pairwise_append] at hpair
    intro t ht
    exact hpair.2.2 t ht sl (List.mem_cons_self _ _)

/-- C4, at the slots (a, 1) and (b, 2) added to a fresh builder of an empty
store. -/
theorem Builder.Create_of_added_slots_witness :
    ((Builder.new Example.emptyStore).addAll
        [⟨Handle.localRef 7, Handle.int 1⟩, ⟨Handle.localRef 8, Handle.int 2⟩]).Create.Get
      (Handle.localRef 8) = some (Handle.int 2) ∧
    ((Builder.new Example.emptyStore).addAll
        [⟨Handle.localRef 7, Handle.int 1⟩, ⟨Handle.localRef 8, Handle.int 2⟩]).Create.size
      = some 2 :=
  ⟨(Builder.Create_of_added_slots Example.emptyStore
      [⟨Handle.localRef 7, Handle.int 1⟩, ⟨Handle.localRef 8, Handle.int 2⟩]).2.2.2.2
      (by decide) ⟨Handle.localRef 8, Handle.int 2⟩ (by decide),
   by decide⟩

/-! ## The store under the edits of a builder -/

/-- Allocation keeps every object the store already has. -/
theorem Store.Deref_Allocate_of_some (s : Store) (d : Datum) (h : Handle) (x : Datum)
    (hx : s.Deref h = some x) : (s.Allocate d).1.Deref h = some x := by
  cases h with
  | localRef i =>
    simp only [Store.Deref] at hx
    obtain ⟨hlt, _⟩ := List.getElem?_eq_some.mp hx
    simp only [Store.Allocate, Store.Deref]
    rw [List.getElem?_append_left hlt]
    exact hx
  | globalRef i => exact hx
  | nil => cases hx
  | int v => cases hx
  | float v => cases hx

/-- The handle returned by an allocation denoted nothing before. -/
theorem Store.Deref_Allocate_fresh (s : Store) (d : Datum) :
    s.Deref (s.Allocate d).2 = none := by
  simp [Store.Allocate, Store.Deref]

/-- Lookup keeps every object the store already has. -/
theorem Store.Deref_Lookup_of_some (s : Store) (name : String) (h : Handle) (x : Datum)
    (hx : s.Deref h = some x) : (s.Lookup name).1.Deref h = some x := by
  unfold Store.Lookup
  cases hsym : s.symbols.lookup name with
  | some sym => exact hx
  | none =>
    cases h with
    | localRef i =>
      simp only [Store.Deref] at hx
      obtain ⟨hlt, _⟩ := List.getElem?_eq_some.mp hx
      simp only [Store.Deref]
      rw [List.getElem?_append_left hlt]
      exact hx
    | globalRef i => exact hx
    | nil => cases hx
    | int v => cases hx
    | float v => cases hx

/-- After a replacement the handle denotes the new content, provided it denoted
an object. -/
theorem Store.Deref_Replace_self (s : Store) (h : Handle) (d : Datum)
    (hs : (s.Deref h).isSome = true) : (s.Replace h d).Deref h = some d := by
  cases h with
  | localRef i =>
    simp only [Store.Deref] at hs
    obtain ⟨x, hx⟩ := Option.isSome_iff_exists.mp hs
    obtain ⟨hlt, _⟩ := List.getElem?_eq_some.mp hx
    simp [Store.Replace, Store.Deref, List.getElem?_set, hlt]
  | globalRef i =>
    simp only [Store.Deref] at hs
    obtain ⟨x, hx⟩ := Option.isSome_iff_exists.mp hs
    obtain ⟨hlt, _⟩ := List.getElem?_eq_some.mp hx
    simp [Store.Replace, Store.Deref, List.getElem?_set, hlt]
  | nil => cases hs
  | int v => cases hs
  | float v => cases hs

/-- A replacement leaves what every other handle denotes as it was. -/
theorem Store.Deref_Replace_of_ne (s : Store) (h k : Handle) (d : Datum) (hk : k ≠ h) :
    (s.Replace h d).Deref k = s.Deref k := by
  cases h with
  | localRef i =>
    cases k with
    | localRef j =>
      have hij : i ≠ j := fun e => hk (by rw [e])
      simp [Store.Replace, Store.Deref, List.getElem?_set, hij]
    | globalRef j => rfl
    | nil => rfl
    | int v => rfl
    | float v => rfl
  | globalRef i =>
    cases k with
    | globalRef j =>
      have hij : i ≠ j := fun e => hk (by rw [e])
      simp [Store.Replace, Store.Deref, List.getElem?_set, hij]
    | localRef j => rfl
    | nil => rfl
    | int v => rfl
    | float v => rfl
  | nil => rfl
  | int v => rfl
  | float v => rfl

/-- The lookup of the name of a string object keeps every object the store has. -/
theorem Store.Deref_LookupString_of_some (s : Store) (name : Handle) (r : Store × Handle)
    (hr : s.LookupString name = some r) (h : Handle) (x : Datum)
    (hx : s.Deref h = some x) : r.1.Deref h = some x := by
  unfold Store.LookupString at hr
  split at hr
  · cases hr
    exact Store.Deref_Lookup_of_some s _ h x hx
  · cases hr

/-- The symbol of the name of a string object keeps every object the store has. -/
theorem Store.Deref_SymbolOfString_of_some (s : Store) (name : Handle) (r : Store × Handle)
    (hr : s.SymbolOfString name = some r) (h : Handle) (x : Datum)
    (hx : s.Deref h = some x) : r.1.Deref h = some x := by
  unfold Store.SymbolOfString at hr
  split at hr
  · cases hr
    exact Store.Deref_Lookup_of_some s _ h x hx
  · cases hr

/-- One edit leaves the target handle alone and keeps every object of the
store. -/
theorem Builder.apply_keeps (b b1 : Builder) (e : Edit) (he : b.apply e = some b1) :
    b1.handle_ = b.handle_ ∧
    ∀ h x, b.store_.Deref h = some x → b1.store_.Deref h = some x := by
  cases e with
  | add name value => cases he; exact ⟨rfl, fun _ _ hx => hx⟩
  | addText name value =>
    cases he
    exact ⟨rfl, fun h x hx => Store.Deref_Lookup_of_some b.store_ name h x hx⟩
  | addString name value =>
    cases he
    exact ⟨rfl, fun h x hx => Store.Deref_Allocate_of_some b.store_ _ h x hx⟩
  | addLink name symbol =>
    cases he
    exact ⟨rfl, fun h x hx => Store.Deref_Lookup_of_some b.store_ symbol h x hx⟩
  | addId id => cases he; exact ⟨rfl, fun _ _ hx => hx⟩
  | addIdNew =>
    cases he
    exact ⟨rfl, fun h x hx => Store.Deref_Allocate_of_some b.store_ _ h x hx⟩
  | addIdText id =>
    cases he
    exact ⟨rfl, fun h x hx => Store.Deref_Lookup_of_some b.store_ id h x hx⟩
  | addIsA type => cases he; exact ⟨rfl, fun _ _ hx => hx⟩
  | addIs type => cases he; exact ⟨rfl, fun _ _ hx => hx⟩
  | addFrom other =>
    simp only [Builder.apply, Builder.AddFrom] at he
    cases hf : b.store_.GetFrame other with
    | none => rw [hf] at he; cases he
    | some f => rw [hf] at he; cases he; exact ⟨rfl, fun _ _ hx => hx⟩
  | delete name => cases he; exact ⟨rfl, fun _ _ hx => hx⟩
  | deleteText name =>
    cases he
    exact ⟨rfl, fun h x hx => Store.Deref_Lookup_of_some b.store_ name h x hx⟩
  | set name value => cases he; exact ⟨rfl, fun _ _ hx => hx⟩
  | setText name value =>
    cases he
    exact ⟨rfl, fun h x hx => Store.Deref_Lookup_of_some b.store_ name h x hx⟩
  | setLink name symbol =>
    cases he
    exact ⟨rfl, fun h x hx => Store.Deref_Lookup_of_some b.store_ symbol h x hx⟩
  | clear => cases he; exact ⟨rfl, fun _ _ hx => hx⟩
  | addIdString id =>
    simp only [Builder.apply, Builder.AddIdString] at he
    cases hr : b.store_.SymbolOfString id with
    | none => rw [hr] at he; cases he
    | some r =>
      rw [hr] at he
      cases he
      exact ⟨rfl, fun h x hx => Store.Deref_SymbolOfString_of_some b.store_ id r hr h x hx⟩
  | addIsAText type =>
    cases he
    exact ⟨rfl, fun h x hx => Store.Deref_Lookup_of_some b.store_ type h x hx⟩
  | addIsAString type =>
    simp only [Builder.apply, Builder.AddIsAString] at he
    cases hr : b.store_.LookupString type with
    | none => rw [hr] at he; cases he
    | some r =>
      rw [hr] at he
      cases he
      exact ⟨rfl, fun h x hx => Store.Deref_LookupString_of_some b.store_ type r hr h x hx⟩
  | addIsText type =>
    cases he
    exact ⟨rfl, fun h x hx => Store.Deref_Lookup_of_some b.store_ type h x hx⟩
  | addIsString type =>
    simp only [Builder.apply, Builder.AddIsString] at he
    cases hr : b.store_.LookupString type with
    | none => rw [hr] at he; cases he
    | some r =>
      rw [hr] at he
      cases he
      exact ⟨rfl, fun h x hx => Store.Deref_LookupString_of_some b.store_ type r hr h x hx⟩
  | addTextLink name symbol =>
    cases he
    exact ⟨rfl, fun h x hx => Store.Deref_Lookup_of_some _ symbol h x
      (Store.Deref_Lookup_of_some b.store_ name h x hx)⟩
  | addTextString name value =>
    cases he
    exact ⟨rfl, fun h x hx => Store.Deref_Allocate_of_some _ _ h x
      (Store.Deref_Lookup_of_some b.store_ name h x hx)⟩
  | setString name value =>
    cases he
    exact ⟨rfl, fun h x hx => Store.Deref_Allocate_of_some b.store_ _ h x hx⟩
  | setTextLink name symbol =>
    cases he
    exact ⟨rfl, fun h x hx => Store.Deref_Lookup_of_some _ symbol h x
      (Store.Deref_Lookup_of_some b.store_ name h x hx)⟩
  | setTextString name value =>
    cases he
    exact ⟨rfl, fun h x hx => Store.Deref_Allocate_of_some _ _ h x
      (Store.Deref_Lookup_of_some b.store_ name h x hx)⟩

/-- A sequence of edits leaves the target handle alone and keeps every object
of the store. -/
theorem Builder.edits_keeps (es : List Edit) :
    ∀ (b b1 : Builder), b.edits es = some b1 →
      b1.handle_ = b.handle_ ∧
      ∀ h x, b.store_.Deref h = some x → b1.store_.Deref h = some x := by
  induction es with
  | nil =>
    intro b b1 he
    cases he
    exact ⟨rfl, fun _ _ hx => hx⟩
  | cons e rest ih =>
    intro b b1 he
    simp only [Builder.edits] at he
    cases hstep : b.apply e with
    | none => rw [hstep] at he; cases he
    | some b2 =>
      rw [hstep] at he
      obtain ⟨h1, h2⟩ := Builder.apply_keeps b b2 e hstep
      obtain ⟨h3, h4⟩ := ih b2 b1 he
      exact ⟨h3.trans h1, fun h x hx => h4 h x (h2 h x hx)⟩

/-- An edit that takes handles only leaves the store as it was. -/
theorem Builder.apply_store_of_onHandles (b b1 : Builder) (e : Edit)
    (hp : e.onHandles = true) (he : b.apply e = some b1) : b1.store_ = b.store_ := by
  cases e with
  | add name value => cases he; rfl
  | addText name value => cases hp
  | addString name value => cases hp
  | addLink name symbol => cases hp
  | addId id => cases he; rfl
  | addIdNew => cases hp
  | addIdText id => cases hp
  | addIsA type => cases he; rfl
  | addIs type => cases he; rfl
  | addFrom other =>
    simp only [Builder.apply, Builder.AddFrom] at he
    cases hf : b.store_.GetFrame other with
    | none => rw [hf] at he; cases he
    | some f => rw [hf] at he; cases he; rfl
  | delete name => cases he; rfl
  | deleteText name => cases hp
  | set name value => cases he; rfl
  | setText name value => cases hp
  | setLink name symbol => cases hp
  | clear => cases he; rfl
  | addIdString id => cases hp
  | addIsAText type => cases hp
  | addIsAString type => cases hp
  | addIsText type => cases hp
  | addIsString type => cases hp
  | addTextLink name symbol => cases hp
  | addTextString name value => cases hp
  | setString name value => cases hp
  | setTextLink name symbol => cases hp
  | setTextString name value => cases hp

/-- A builder made from a handle has that handle, the given store and the slots
of the frame the handle denotes. -/
theorem Builder.ofHandle_eq (s : Store) (h : Handle) (b : Builder)
    (hb : Builder.ofHandle s h = some b) :
    ∃ f, s.GetFrame h = some f ∧ b = { store_ := s, handle_ := h, slots_ := f.slots } := by
  simp only [Builder.ofHandle, Builder.AddFrom] at hb
  cases hf : s.GetFrame h with
  | none => rw [hf] at hb; cases hb
  | some f =>
    rw [hf] at hb
    refine ⟨f, rfl, ?_⟩
    simp only [FrameDatum.size, Nat.mul_div_cancel _ sizeofSlot_pos, List.take_length,
      List.nil_append, Option.some.injEq] at hb
    exact hb.symm

/-- A handle that denotes a frame denotes an object and is not nil. -/
theorem Store.GetFrame_some (s : Store) (h : Handle) (f : FrameDatum)
    (hf : s.GetFrame h = some f) :
    s.Deref h = some (Datum.frame f) ∧ h ≠ Handle.nil := by
  unfold Store.GetFrame at hf
  cases hd : s.Deref h with
  | none => rw [hd] at hf; cases hf
  | some d =>
    rw [hd] at hf
    cases d with
    | frame g =>
      simp only [Option.some.injEq] at hf
      refine ⟨by rw [hf], ?_⟩
      intro hn
      rw [hn] at hd
      cases hd
    | string str => cases hf
    | symbol n v bd => cases hf
    | array el => cases hf

/-! ## Builder::Create and Builder::Update -/

/-- The frame the target handle denotes after `AllocateFrame` with that handle,
when the handle denoted an object. -/
theorem Store.GetFrame_AllocateFrame_existing (s : Store) (slots : List Slot) (h : Handle)
    (hs : (s.Deref h).isSome = true) :
    (s.AllocateFrame slots h).2 = h ∧
    (s.AllocateFrame slots h).1.GetFrame h = some { proxy := false, slots := slots } ∧
    (s.AllocateFrame slots h).1.IsProxy h = false ∧
    ∀ k, k ≠ h → (s.AllocateFrame slots h).1.Deref k = s.Deref k := by
  have hnil : h.IsNil = false := by
    cases h with
    | nil => cases hs
    | int v => rfl
    | float v => rfl
    | localRef i => rfl
    | globalRef i => rfl
  have hd := Store.Deref_Replace_self s h (Datum.frame { proxy := false, slots := slots }) hs
  refine ⟨by simp [Store.AllocateFrame, hnil], ?_, ?_, ?_⟩
  · simp [Store.AllocateFrame, hnil, Store.GetFrame, hd]
  · simp [Store.AllocateFrame, hnil, Store.IsProxy, hd, FrameDatum.IsProxy]
  · intro k hk
    simp only [Store.AllocateFrame, hnil, Bool.false_eq_true, if_false]
    exact Store.Deref_Replace_of_ne s h k _ hk

/-- Lookup of a name that is not in the symbol table: the new symbol is entered
in the symbol table and the returned handle denotes a proxy whose only slot is
the id slot. -/
theorem Store.Lookup_absent (s : Store) (name : String)
    (hsym : s.symbols.lookup name = none) :
    (s.Lookup name).1.symbols = (name, Handle.localRef (s.heap.length + 1)) :: s.symbols ∧
    (s.Lookup name).2 = Handle.localRef (s.heap.length + 2) ∧
    (s.Lookup name).1.Deref (s.Lookup name).2
      = some (Datum.frame
          ⟨true, [{ name := Handle.id, value := Handle.localRef (s.heap.length + 1) }]⟩) := by
  simp only [Store.Lookup, hsym, Store.Deref, true_and]
  rw [List.getElem?_append_right (by omega)]
  simp

/-- C5 fails as stated: a builder made from the handle of an existing frame,
after one `Add`, is committed with `Create()`; the returned frame has the
builder's original handle, and the frame that handle denotes has changed. -/
theorem Builder.Create_brand_new_counterexample :
    Builder.ofHandle Example.oneFrameStore (Handle.localRef 0)
      = some { store_ := Example.oneFrameStore, handle_ := Handle.localRef 0,
               slots_ := [{ name := Handle.globalRef 7, value := Handle.int 1 }] } ∧
    (Builder.Add { store_ := Example.oneFrameStore, handle_ := Handle.localRef 0,
                   slots_ := [{ name := Handle.globalRef 7, value := Handle.int 1 }] }
        (Handle.globalRef 8) (Handle.int 2)).Create.handle = Handle.localRef 0 ∧
    (Builder.Add { store_ := Example.oneFrameStore, handle_ := Handle.localRef 0,
                   slots_ := [{ name := Handle.globalRef 7, value := Handle.int 1 }] }
        (Handle.globalRef 8) (Handle.int 2)).Create.store.GetFrame (Handle.localRef 0)
      = some { proxy := false,
               slots := [{ name := Handle.globalRef 7, value := Handle.int 1 },
                         { name := Handle.globalRef 8, value := Handle.int 2 }] } ∧
    Example.oneFrameStore.GetFrame (Handle.localRef 0)
      = some { proxy := false,
               slots := [{ name := Handle.globalRef 7, value := Handle.int 1 }] } ∧
    (Builder.Add { store_ := Example.oneFrameStore, handle_ := Handle.localRef 0,
                   slots_ := [{ name := Handle.globalRef 7, value := Handle.int 1 }] }
        (Handle.globalRef 8) (Handle.int 2)).Create.store.GetFrame (Handle.localRef 0)
      ≠ Example.oneFrameStore.GetFrame (Handle.localRef 0) := by
  refine ⟨?_, ?_, ?_, ?_, ?_⟩
  · simp [Builder.ofHandle, Builder.AddFrom, Example.oneFrameStore, Store.GetFrame, Store.Deref,
      FrameDatum.size, sizeofSlot]
  · rfl
  · rfl
  · rfl
  · decide

/-- C5, amended. `Builder::Create()` allocates a brand-new frame when the
builder's handle is nil: the returned handle is not nil, denoted nothing before,
denotes the pending slots afterwards, and every object of the store keeps its
content. For a builder with a non-nil handle, `Create()` passes that handle to
`AllocateFrame` as `Update()` does: the returned frame has the original handle,
the store is the one `Update()` produces, and the handle denotes the pending
slots. -/
theorem Builder.Create_allocates_or_replaces (b : Builder) :
    (b.handle_ = Handle.nil →
      b.Create.handle ≠ Handle.nil ∧ b.store_.Deref b.Create.handle = none ∧
      b.Create.frame = some { proxy := false, slots := b.slots_ } ∧
      ∀ k x, b.store_.Deref k = some x → b.Create.store.Deref k = some x) ∧
    (b.handle_ ≠ Handle.nil →
      b.Create.handle = b.handle_ ∧ b.Create.store = b.Update ∧
      ((b.store_.Deref b.handle_).isSome = true →
        b.Create.frame = some { proxy := false, slots := b.slots_ })) := by
  constructor
  · intro hnil
    refine ⟨?_, ?_, Builder.Create_frame_of_nil b hnil, ?_⟩
    · simp [Builder.Create, Store.AllocateFrame, hnil, Handle.IsNil, Store.Allocate]
    · simp only [Builder.Create, Store.AllocateFrame, hnil, Handle.IsNil, if_true]
      exact Store.Deref_Allocate_fresh b.store_ _
    · intro k x hx
      simp only [Builder.Create, Store.AllocateFrame, hnil, Handle.IsNil, if_true]
      exact Store.Deref_Allocate_of_some b.store_ _ k x hx
  · intro hne
    have hnil : b.handle_.IsNil = false := by
      cases hh : b.handle_ with
      | nil => exact absurd hh hne
      | int v => rfl
      | float v => rfl
      | localRef i => rfl
      | globalRef i => rfl
    refine ⟨by simp [Builder.Create, Store.AllocateFrame, hnil], rfl, ?_⟩
    intro hs
    obtain ⟨h1, h2, _⟩ := Store.GetFrame_AllocateFrame_existing b.store_ b.slots_ b.handle_ hs
    show (b.store_.AllocateFrame b.slots_ b.handle_).1.GetFrame
      (b.store_.AllocateFrame b.slots_ b.handle_).2 = _
    rw [h1]
    exact h2

/-- C5, amended, at a new builder of the empty store and at a builder made from
the frame of the one-frame store. -/
theorem Builder.Create_allocates_or_replaces_witness :
    (Builder.new Example.emptyStore).Create.handle ≠ Handle.nil ∧
    (Builder.mk Example.oneFrameStore (Handle.localRef 0) []).Create.handle
      = Handle.localRef 0 :=
  ⟨((Builder.Create_allocates_or_replaces (Builder.new Example.emptyStore)).1 rfl).1,
   ((Builder.Create_allocates_or_replaces
      (Builder.mk Example.oneFrameStore (Handle.localRef 0) [])).2 (by decide)).1⟩

/-- C6. Proxy resolution by `Builder::Update()`. For every builder made from a
handle `H` and edited in any way, `H` is not nil and still is the builder's
handle; after `Update()` the frame `H` denotes has exactly the pending slots in
order and is not a proxy, every captured handle equal to `H` observes these
slots, and what every other handle denotes is unchanged. `Lookup` of an
undefined name returns such a handle: it is not nil, denotes a proxy, and a
builder made from it starts with the id slot of the proxy. -/
theorem Builder.Update_resolves_in_place :
    (∀ (s : Store) (H : Handle) (b0 b : Builder) (es : List Edit),
      Builder.ofHandle s H = some b0 → b0.edits es = some b →
      H ≠ Handle.nil ∧ b.handle_ = H ∧
      (Frame.mk b.Update H).frame = some { proxy := false, slots := b.slots_ } ∧
      (∀ captured : Handle, captured = H →
        (Frame.mk b.Update captured).frame = some { proxy := false, slots := b.slots_ } ∧
        (Frame.mk b.Update captured).IsProxy = some false) ∧
      b.Update.IsProxy H = false ∧
      (∀ k, k ≠ H → b.Update.Deref k = b.store_.Deref k)) ∧
    (∀ (s : Store) (name : String), s.symbols.lookup name = none →
      (s.Lookup name).2 ≠ Handle.nil ∧
      (s.Lookup name).1.IsProxy (s.Lookup name).2 = true ∧
      Builder.ofHandle (s.Lookup name).1 (s.Lookup name).2
        = some { store_ := (s.Lookup name).1, handle_ := (s.Lookup name).2,
                 slots_ := [{ name := Handle.id,
                              value := Handle.localRef (s.heap.length + 1) }] }) := by
  constructor
  · intro s H b0 b es h0 hes
    obtain ⟨f, hf, hb0⟩ := Builder.ofHandle_eq s H b0 h0
    obtain ⟨hderef, hne⟩ := Store.GetFrame_some s H f hf
    obtain ⟨hhandle, hkeep⟩ := Builder.edits_keeps es b0 b hes
    have hH : b.handle_ = H := by rw [hhandle, hb0]
    have hsome : (b.store_.Deref b.handle_).isSome = true := by
      rw [hH, hkeep H (Datum.frame f) (by rw [hb0]; exact hderef)]
      rfl
    obtain ⟨_, h2, h3, h4⟩ :=
      Store.GetFrame_AllocateFrame_existing b.store_ b.slots_ b.handle_ hsome
    have hfr : (Frame.mk b.Update H).frame = some { proxy := false, slots := b.slots_ } := by
      rw [← hH]; exact h2
    refine ⟨hne, hH, hfr, ?_, by rw [← hH]; exact h3, by rw [← hH]; exact h4⟩
    intro captured hc
    rw [hc]
    refine ⟨hfr, ?_⟩
    simp [Frame.IsProxy, hfr, FrameDatum.IsProxy]
  · intro s name hsym
    obtain ⟨h1, h2, h3⟩ := Store.Lookup_absent s name hsym
    refine ⟨by rw [h2]; exact Handle.noConfusion, ?_, ?_⟩
    · simp [Store.IsProxy, h3, FrameDatum.IsProxy]
    · simp [Builder.ofHandle, Builder.AddFrom, Store.GetFrame, h3, FrameDatum.size,
        Nat.div_self sizeofSlot_pos]

/-- C6, at the empty store: `Lookup("X")` returns the proxy handle, a builder
made from it gets one real slot, and after `Update()` the handle denotes the id
slot followed by the real slot. -/
theorem Builder.Update_resolves_in_place_witness :
    (Frame.mk (Builder.Update
        { store_ := (Example.emptyStore.Lookup "X").1, handle_ := Handle.localRef 2,
          slots_ := [{ name := Handle.id, value := Handle.localRef 1 },
                     { name := Handle.globalRef 7, value := Handle.int 1 }] })
      (Handle.localRef 2)).frame
      = some { proxy := false,
               slots := [{ name := Handle.id, value := Handle.localRef 1 },
                         { name := Handle.globalRef 7, value := Handle.int 1 }] } ∧
    (Example.emptyStore.Lookup "X").1.IsProxy (Example.emptyStore.Lookup "X").2 = true :=
  ⟨(Builder.Update_resolves_in_place.1 (Example.emptyStore.Lookup "X").1 (Handle.localRef 2)
      { store_ := (Example.emptyStore.Lookup "X").1, handle_ := Handle.localRef 2,
        slots_ := [{ name := Handle.id, value := Handle.localRef 1 }] }
      { store_ := (Example.emptyStore.Lookup "X").1, handle_ := Handle.localRef 2,
        slots_ := [{ name := Handle.id, value := Handle.localRef 1 },
                   { name := Handle.globalRef 7, value := Handle.int 1 }] }
      [Edit.add (Handle.globalRef 7) (Handle.int 1)] rfl rfl).2.2.1,
   (Builder.Update_resolves_in_place.2 Example.emptyStore "X" rfl).2.1⟩

/-! ## Builder::AddFrom and the constructors -/

/-- AddFrom of a handle that denotes a frame appends the slots of that frame. -/
theorem Builder.AddFrom_of_frame (b : Builder) (other : Handle) (f : FrameDatum)
    (hf : b.store_.GetFrame other = some f) :
    b.AddFrom other = some { b with slots_ := b.slots_ ++ f.slots } := by
  simp [Builder.AddFrom, hf, FrameDatum.size, Nat.mul_div_cancel _ sizeofSlot_pos]

/-- C7. `Builder::AddFrom(other)`: for every builder and every handle `other`
that denotes a frame, the pending slots afterwards are the old slots followed
by all slots of that frame in the frame's order; the store, hence the frame
`other`, and the target handle are unchanged. Consequently a builder made from
an existing frame, handle or id starts with exactly the slots of that frame. -/
theorem Builder.AddFrom_appends_frame_slots :
    (∀ (b : Builder) (other : Handle) (f : FrameDatum), b.store_.GetFrame other = some f →
      ∃ b1, b.AddFrom other = some b1 ∧ b1.slots_ = b.slots_ ++ f.slots ∧
        b1.store_ = b.store_ ∧ b1.handle_ = b.handle_ ∧ b1.store_.GetFrame other = some f) ∧
    (∀ (s : Store) (h : Handle) (f : FrameDatum), s.GetFrame h = some f →
      Builder.ofHandle s h = some { store_ := s, handle_ := h, slots_ := f.slots }) ∧
    (∀ (fr : Frame) (f : FrameDatum), fr.frame = some f →
      Builder.ofFrame fr = some { store_ := fr.store, handle_ := fr.handle, slots_ := f.slots }) ∧
    (∀ (s : Store) (id : String) (f : FrameDatum),
      (s.Lookup id).1.GetFrame (s.Lookup id).2 = some f →
      Builder.ofId s id
        = some { store_ := (s.Lookup id).1, handle_ := (s.Lookup id).2, slots_ := f.slots }) := by
  refine ⟨?_, ?_, ?_, ?_⟩
  · intro b other f hf
    exact ⟨_, Builder.AddFrom_of_frame b other f hf, rfl, rfl, rfl, hf⟩
  · intro s h f hf
    rw [Builder.ofHandle, Builder.AddFrom_of_frame _ h f hf]
    simp
  · intro fr f hf
    rw [Builder.ofFrame,
      Builder.AddFrom_of_frame { store_ := fr.store, handle_ := fr.handle, slots_ := [] }
        fr.handle f hf]
    simp
  · intro s id f hf
    show Builder.AddFrom { store_ := (s.Lookup id).1, handle_ := (s.Lookup id).2, slots_ := [] }
      (s.Lookup id).2 = _
    rw [Builder.AddFrom_of_frame
      { store_ := (s.Lookup id).1, handle_ := (s.Lookup id).2, slots_ := [] }
      (s.Lookup id).2 f hf]
    simp

/-- C7, at the one-frame store: a builder with one pending slot takes the slot
of the frame after its own, and a builder made from the handle starts with the
slot of the frame. -/
theorem Builder.AddFrom_appends_frame_slots_witness :
    (∃ b1, Builder.AddFrom
        { store_ := Example.oneFrameStore, handle_ := Handle.nil,
          slots_ := [{ name := Handle.globalRef 8, value := Handle.int 2 }] }
        (Handle.localRef 0) = some b1 ∧
      b1.slots_ = [{ name := Handle.globalRef 8, value := Handle.int 2 }]
        ++ [{ name := Handle.globalRef 7, value := Handle.int 1 }] ∧
      b1.store_ = Example.oneFrameStore ∧ b1.handle_ = Handle.nil ∧
      b1.store_.GetFrame (Handle.localRef 0)
        = some ⟨false, [{ name := Handle.globalRef 7, value := Handle.int 1 }]⟩) ∧
    Builder.ofHandle Example.oneFrameStore (Handle.localRef 0)
      = some { store_ := Example.oneFrameStore, handle_ := Handle.localRef 0,
               slots_ := [{ name := Handle.globalRef 7, value := Handle.int 1 }] } :=
  ⟨Builder.AddFrom_appends_frame_slots.1
      { store_ := Example.oneFrameStore, handle_ := Handle.nil,
        slots_ := [{ name := Handle.globalRef 8, value := Handle.int 2 }] }
      (Handle.localRef 0) ⟨false, [{ name := Handle.globalRef 7, value := Handle.int 1 }]⟩ rfl,
   Builder.AddFrom_appends_frame_slots.2.1 Example.oneFrameStore (Handle.localRef 0)
      ⟨false, [{ name := Handle.globalRef 7, value := Handle.int 1 }]⟩ rfl⟩

/-! ## An abandoned builder -/

/-- C8 fails as stated: on the empty store the single edit
`Add(Text name, Handle value)`, not followed by `Create()` or `Update()`, leaves
a store with three objects (the name string, the symbol and its proxy) and one
symbol table entry. -/
theorem Builder.abandoned_edit_counterexample :
    (Builder.new Example.emptyStore).edits [Edit.addText "x" (Handle.int 1)]
      = some ((Builder.new Example.emptyStore).AddText "x" (Handle.int 1)) ∧
    ((Builder.new Example.emptyStore).AddText "x" (Handle.int 1)).store_.heap.length = 3 ∧
    ((Builder.new Example.emptyStore).AddText "x" (Handle.int 1)).store_.symbols
      = [("x", Handle.localRef 1)] ∧
    ((Builder.new Example.emptyStore).AddText "x" (Handle.int 1)).store_ ≠ Example.emptyStore := by
  refine ⟨rfl, rfl, rfl, ?_⟩
  intro h
  have hlen := congrArg (fun s => s.heap.length) h
  exact absurd hlen (by decide)

/-- The overloads for a `String` view call the store as well: on a store that holds the
string "x" and no symbol, `AddIsA(const String &)` with that string, not followed by
`Create()` or `Update()`, leaves a store with the symbol and the proxy of the name
added. -/
theorem Builder.abandoned_string_edit_changes_store :
    ((Builder.new ⟨[], [Datum.string "x"], []⟩).edits [Edit.addIsAString (Handle.localRef 0)]).map
        (fun b => (b.store_.heap.length, b.store_.symbols)) =
      some (4, [("x", Handle.localRef 2)]) := by
  decide

/-- C8, amended. For every sequence of Builder edits that pass every name, id, type and
value as a handle (`Add`, `AddId`, `AddIsA`, `AddIs`, `Set`, `Delete` with `Handle`,
`Object`, resolved `Name` or scalar arguments, other than the `String` overloads of
`AddId`, `AddIsA` and `AddIs`; `AddFrom`; `Clear`), not followed by `Create()` or
`Update()`, the store is the same as before the builder was used, and so is the target
handle of the builder. -/
theorem Builder.abandoned_handle_edits_keep_store (es : List Edit) :
    ∀ (b b1 : Builder), b.edits es = some b1 → (∀ e ∈ es, e.onHandles = true) →
      b1.store_ = b.store_ ∧ b1.handle_ = b.handle_ := by
  induction es with
  | nil =>
    intro b b1 he _
    cases he
    exact ⟨rfl, rfl⟩
  | cons e rest ih =>
    intro b b1 he hall
    simp only [Builder.edits] at he
    cases hstep : b.apply e with
    | none => rw [hstep] at he; cases he
    | some b2 =>
      rw [hstep] at he
      have h1 := Builder.apply_store_of_onHandles b b2 e (hall e (List.mem_cons_self _ _)) hstep
      have h2 := (Builder.apply_keeps b b2 e hstep).1
      obtain ⟨h3, h4⟩ := ih b2 b1 he (fun x hx => hall x (List.mem_cons_of_mem _ hx))
      exact ⟨h3.trans h1, h4.trans h2⟩

/-- C8, amended, at a sequence of seven handle edits on a new builder of the one-frame
store: the edits are defined, take handles only, and leave the store of the builder the
one-frame store. -/
theorem Builder.abandoned_handle_edits_keep_store_witness :
    ((Builder.new Example.oneFrameStore).edits
        [Edit.add (Handle.globalRef 8) (Handle.int 2), Edit.addFrom (Handle.localRef 0),
         Edit.delete (Handle.globalRef 8), Edit.set (Handle.globalRef 7) (Handle.int 5),
         Edit.clear, Edit.addFrom (Handle.localRef 0),
         Edit.set (Handle.globalRef 7) (Handle.int 5)]).isSome = true ∧
    (∀ e ∈ [Edit.add (Handle.globalRef 8) (Handle.int 2), Edit.addFrom (Handle.localRef 0),
         Edit.delete (Handle.globalRef 8), Edit.set (Handle.globalRef 7) (Handle.int 5),
         Edit.clear, Edit.addFrom (Handle.localRef 0),
         Edit.set (Handle.globalRef 7) (Handle.int 5)], e.onHandles = true) ∧
    ((Builder.new Example.oneFrameStore).edits
        [Edit.add (Handle.globalRef 8) (Handle.int 2), Edit.addFrom (Handle.localRef 0),
         Edit.delete (Handle.globalRef 8), Edit.set (Handle.globalRef 7) (Handle.int 5),
         Edit.clear, Edit.addFrom (Handle.localRef 0),
         Edit.set (Handle.globalRef 7) (Handle.int 5)]).map Builder.store_ =
      some Example.oneFrameStore :=
  have hedits : (Builder.new Example.oneFrameStore).edits
      [Edit.add (Handle.globalRef 8) (Handle.int 2), Edit.addFrom (Handle.localRef 0),
       Edit.delete (Handle.globalRef 8), Edit.set (Handle.globalRef 7) (Handle.int 5),
       Edit.clear, Edit.addFrom (Handle.localRef 0),
       Edit.set (Handle.globalRef 7) (Handle.int 5)] =
      some (Builder.mk Example.oneFrameStore Handle.nil
        [{ name := Handle.globalRef 7, value := Handle.int 5 }]) := by
    simp [Builder.edits, Builder.apply, Builder.new, Builder.Add, Builder.AddFrom,
      Builder.Delete, Builder.Set, Builder.Clear, Builder.NewSlot, Builder.NamedSlot,
      Builder.NamedSlot.scan, Space.push, Space.setName, Space.setValue, Builder.Delete.run,
      Builder.Delete.find, Builder.Delete.compact, Example.oneFrameStore, Store.GetFrame,
      Store.Deref, FrameDatum.size, sizeofSlot]
  ⟨by rw [hedits]; rfl, by decide,
    by
      rw [hedits]
      exact congrArg some
        (Builder.abandoned_handle_edits_keep_store _ (Builder.new Example.oneFrameStore) _
          hedits (by decide)).1⟩

/-! ## Builder::IsNew -/

/-- C9. `Builder::IsNew()` is true if and only if the target handle is nil or
the store reports the handle as a proxy. A builder made with `Builder(store)`
is new; a builder made from a defined (non-proxy) frame is not new; and no
sequence of edits of the pending slots changes the result for a builder whose
handle is nil or denotes an object, which the constructors guarantee. -/
theorem Builder.IsNew_iff_nil_or_proxy :
    (∀ b : Builder, b.IsNew = true ↔
      (b.handle_ = Handle.nil ∨ b.store_.IsProxy b.handle_ = true)) ∧
    (∀ s : Store, (Builder.new s).IsNew = true ∧ (Builder.new s).Attached = true) ∧
    (∀ (s : Store) (h : Handle) (b : Builder), Builder.ofHandle s h = some b →
      b.Attached = true ∧ (s.IsProxy h = false → b.IsNew = false)) ∧
    (∀ (b b1 : Builder) (es : List Edit), b.Attached = true → b.edits es = some b1 →
      b1.IsNew = b.IsNew ∧ b1.Attached = true) := by
  refine ⟨?_, ?_, ?_, ?_⟩
  · intro b
    cases hh : b.handle_ <;> simp [Builder.IsNew, hh, Handle.IsNil]
  · intro s
    exact ⟨rfl, rfl⟩
  · intro s h b hb
    obtain ⟨f, hf, hb0⟩ := Builder.ofHandle_eq s h b hb
    obtain ⟨hderef, hne⟩ := Store.GetFrame_some s h f hf
    subst hb0
    refine ⟨by simp [Builder.Attached, hderef], ?_⟩
    intro hp
    cases h with
    | nil => exact absurd rfl hne
    | int v => simpa [Builder.IsNew, Handle.IsNil] using hp
    | float v => simpa [Builder.IsNew, Handle.IsNil] using hp
    | localRef i => simpa [Builder.IsNew, Handle.IsNil] using hp
    | globalRef i => simpa [Builder.IsNew, Handle.IsNil] using hp
  · intro b b1 es hatt hes
    obtain ⟨hhandle, hkeep⟩ := Builder.edits_keeps es b b1 hes
    by_cases hnil : b.handle_.IsNil = true
    · simp [Builder.IsNew, Builder.Attached, hhandle, hnil]
    · have hsome : (b.store_.Deref b.handle_).isSome = true := by
        simpa [Builder.Attached, hnil] using hatt
      obtain ⟨x, hx⟩ := Option.isSome_iff_exists.mp hsome
      have hx1 := hkeep b.handle_ x hx
      simp [Builder.IsNew, Builder.Attached, hhandle, Store.IsProxy, hx, hx1]

/-- C9, at a builder made from the defined frame of the one-frame store, after
an edit that interns a new name in the store. -/
theorem Builder.IsNew_iff_nil_or_proxy_witness :
    (Builder.AddText { store_ := Example.oneFrameStore, handle_ := Handle.localRef 0,
                       slots_ := [{ name := Handle.globalRef 7, value := Handle.int 1 }] }
        "x" (Handle.int 2)).IsNew
      = (Builder.mk Example.oneFrameStore (Handle.localRef 0)
          [{ name := Handle.globalRef 7, value := Handle.int 1 }]).IsNew ∧
    (Builder.mk Example.oneFrameStore (Handle.localRef 0)
        [{ name := Handle.globalRef 7, value := Handle.int 1 }]).IsNew = false :=
  ⟨(Builder.IsNew_iff_nil_or_proxy.2.2.2
      { store_ := Example.oneFrameStore, handle_ := Handle.localRef 0,
        slots_ := [{ name := Handle.globalRef 7, value := Handle.int 1 }] }
      (Builder.AddText { store_ := Example.oneFrameStore, handle_ := Handle.localRef 0,
                         slots_ := [{ name := Handle.globalRef 7, value := Handle.int 1 }] }
        "x" (Handle.int 2))
      [Edit.addText "x" (Handle.int 2)] rfl rfl).1,
   (Builder.IsNew_iff_nil_or_proxy.2.2.1 Example.oneFrameStore (Handle.localRef 0)
      { store_ := Example.oneFrameStore, handle_ := Handle.localRef 0,
        slots_ := [{ name := Handle.globalRef 7, value := Handle.int 1 }] }
      (by simp [Builder.ofHandle, Builder.AddFrom, Example.oneFrameStore, Store.GetFrame,
        Store.Deref, FrameDatum.size, sizeofSlot])).2 rfl⟩

/-! ## The GetX accessors of Frame -/

/-- A name that no slot has is looked up as nil. -/
theorem FrameDatum.getIn_of_hasIn_false (name : Handle) :
    ∀ (slots : List Slot), FrameDatum.hasIn name slots = false →
      FrameDatum.getIn name slots = Handle.nil := by
  intro slots
  induction slots with
  | nil => intro _; rfl
  | cons t rest ih =>
    intro h
    by_cases ht : t.name = name
    · simp [FrameDatum.hasIn, ht] at h
    · simp only [FrameDatum.hasIn, ht, if_false] at h
      simp only [FrameDatum.getIn, ht, if_false]
      exact ih h

/-- A handle that denotes an object is a reference other than nil. -/
theorem Store.Deref_some_ref (s : Store) (h : Handle) (x : Datum) (hx : s.Deref h = some x) :
    (h.IsRef && !h.IsNil) = true := by
  cases h with
  | nil => cases hx
  | int v => cases hx
  | float v => cases hx
  | localRef i => rfl
  | globalRef i => rfl

/-- C10. Default values of the GetX accessors. For every frame and name: when
the frame has no slot with the name, or the value of the first slot with the
name is not of the requested kind, `GetString` returns the empty string,
`GetText` the empty text, `GetInt(n, d)` returns `d` and `GetInt(n)` zero,
`GetFloat` zero and `GetBool` false, each as a regular result; when the value
is of the requested kind, that value is returned. -/
theorem Frame.GetX_defaults (self : Frame) (fd : FrameDatum) (n : Handle)
    (hfd : self.frame = some fd) :
    (fd.has n = false →
      self.GetString n = some "" ∧ self.GetText n = some "" ∧
      (∀ d, self.GetInt n d = some d) ∧ self.GetInt0 n = some 0 ∧
      self.GetFloat n = some 0 ∧ self.GetBool n = some false) ∧
    (((fd.get n).IsRef = false ∨ fd.get n = Handle.nil) →
      self.GetString n = some "" ∧ self.GetText n = some "") ∧
    (∀ x, self.store.Deref (fd.get n) = some x → x.IsString = false →
      self.GetString n = some "" ∧ self.GetText n = some "") ∧
    ((fd.get n).IsInt = false →
      (∀ d, self.GetInt n d = some d) ∧ self.GetInt0 n = some 0) ∧
    ((fd.get n).IsFloat = false → self.GetFloat n = some 0) ∧
    ((fd.get n).IsInt = false → self.GetBool n = some false) ∧
    (∀ str, self.store.Deref (fd.get n) = some (Datum.string str) →
      self.GetString n = some str ∧ self.GetText n = some str) ∧
    (∀ v, fd.get n = Handle.int v →
      (∀ d, self.GetInt n d = some v) ∧ self.GetInt0 n = some v) ∧
    (∀ bits, fd.get n = Handle.float bits → self.GetFloat n = some bits) ∧
    (∀ b, fd.get n = Handle.ofBool b → self.GetBool n = some b) := by
  refine ⟨?_, ?_, ?_, ?_, ?_, ?_, ?_, ?_, ?_, ?_⟩
  · intro habs
    have hnil : fd.get n = Handle.nil := FrameDatum.getIn_of_hasIn_false n fd.slots habs
    simp [Frame.GetString, Frame.GetText, Frame.GetInt, Frame.GetInt0, Frame.GetFloat,
      Frame.GetBool, hfd, hnil, Handle.IsRef, Handle.IsNil, Handle.IsInt, Handle.IsFloat]
  · intro h
    rcases h with h | h
    · simp [Frame.GetString, Frame.GetText, hfd, h]
    · simp [Frame.GetString, Frame.GetText, hfd, h, Handle.IsNil]
  · intro x hx hstr
    have href := Store.Deref_some_ref self.store (fd.get n) x hx
    cases x with
    | string str => cases hstr
    | frame f => simp [Frame.GetString, Frame.GetText, hfd, href, hx]
    | symbol nm v bd => simp [Frame.GetString, Frame.GetText, hfd, href, hx]
    | array el => simp [Frame.GetString, Frame.GetText, hfd, href, hx]
  · intro h
    simp [Frame.GetInt, Frame.GetInt0, hfd, h]
  · intro h
    simp [Frame.GetFloat, hfd, h]
  · intro h
    simp [Frame.GetBool, hfd, h]
  · intro str hx
    have href := Store.Deref_some_ref self.store (fd.get n) (Datum.string str) hx
    simp [Frame.GetString, Frame.GetText, hfd, href, hx]
  · intro v h
    simp [Frame.GetInt, Frame.GetInt0, hfd, h, Handle.IsInt, Handle.AsInt]
  · intro bits h
    simp [Frame.GetFloat, hfd, h, Handle.IsFloat, Handle.AsFloat]
  · intro b h
    cases b <;>
      simp [Frame.GetBool, hfd, h, Handle.ofBool, Handle.one, Handle.zero, Handle.IsInt,
        Handle.IsTrue]

/-- C10, at the frame of the one-frame store, which has no slot named g9 and
whose slot g7 holds the integer 1. -/
theorem Frame.GetX_defaults_witness :
    (Frame.mk Example.oneFrameStore (Handle.localRef 0)).GetString (Handle.globalRef 9)
      = some "" ∧
    (Frame.mk Example.oneFrameStore (Handle.localRef 0)).GetInt (Handle.globalRef 7) 5
      = some 1 ∧
    (Frame.mk Example.oneFrameStore (Handle.localRef 0)).GetFloat (Handle.globalRef 7)
      = some 0 :=
  ⟨((Frame.GetX_defaults (Frame.mk Example.oneFrameStore (Handle.localRef 0))
      ⟨false, [{ name := Handle.globalRef 7, value := Handle.int 1 }]⟩ (Handle.globalRef 9)
      rfl).1 (by decide)).1,
   ((Frame.GetX_defaults (Frame.mk Example.oneFrameStore (Handle.localRef 0))
      ⟨false, [{ name := Handle.globalRef 7, value := Handle.int 1 }]⟩ (Handle.globalRef 7)
      rfl).2.2.2.2.2.2.2.1 1 (by decide)).1 5,
   (Frame.GetX_defaults (Frame.mk Example.oneFrameStore (Handle.localRef 0))
      ⟨false, [{ name := Handle.globalRef 7, value := Handle.int 1 }]⟩ (Handle.globalRef 7)
      rfl).2.2.2.2.1 (by decide)⟩

/-! ## Typed conversions -/

/-- The check of a typed view constructor passes on the result of a cast to
the same type. -/
theorem Object.typed_Cast (store : StorePtr) (h : Handle) (s : Store) (type : DatumType) :
    Object.typed store (s.Cast h type) s type
      = some { store_ := store, handle_ := s.Cast h type } := by
  unfold Store.Cast
  cases hd : s.Deref h with
  | none => simp [Object.typed, Object.IsNil, Handle.IsNil]
  | some d =>
    by_cases ht : d.type = type
    · have href := Store.Deref_some_ref s h d hd
      cases h with
      | nil => cases hd
      | int v => cases hd
      | float v => cases hd
      | localRef i =>
        simp [Object.typed, Object.IsNil, Handle.IsNil, Object.IsOfType, Handle.IsRef, ht, hd]
      | globalRef i =>
        simp [Object.typed, Object.IsNil, Handle.IsNil, Object.IsOfType, Handle.IsRef, ht, hd]
    · simp [Object.typed, Object.IsNil, Handle.IsNil, ht]

/-- The check of a typed view constructor of the state carrying view passes on
the result of a cast to the same type. -/
theorem Frame.typed_view_Cast (store : Store) (h : Handle) (type : DatumType) :
    Frame.typed store (store.Cast h type) type
      = some { store := store, handle := store.Cast h type } := by
  unfold Store.Cast
  cases hd : store.Deref h with
  | none => simp [Frame.typed, Handle.IsNil]
  | some d =>
    by_cases ht : d.type = type
    · cases h with
      | nil => cases hd
      | int v => cases hd
      | float v => cases hd
      | localRef i => simp [Frame.typed, Handle.IsNil, Handle.IsRef, ht, hd]
      | globalRef i => simp [Frame.typed, Handle.IsNil, Handle.IsRef, ht, hd]
    · simp [Frame.typed, Handle.IsNil, ht]

/-- C11. Typed conversions return nil on mismatch. For every Object,
`AsString`, `AsFrame`, `AsSymbol` and `AsArray` return a view over the same
store whose handle is the handle of the object when the object's datum has the
requested discriminant and nil otherwise, also for a handle that denotes no
object. `Frame::GetFrame(n)` and `GetSymbol(n)` return a nil view when the slot
is absent or its value is not a frame (symbol), and the value otherwise. Every
case returns a regular result. -/
theorem Object.typed_conversions_nil_on_mismatch :
    (∀ (o : Object) (s : Store) (d : Datum), s.Deref o.handle = some d →
      o.AsString s = some ⟨o.store, if d.type = DatumType.STRING then o.handle else Handle.nil⟩ ∧
      o.AsFrame s = some ⟨o.store, if d.type = DatumType.FRAME then o.handle else Handle.nil⟩ ∧
      o.AsSymbol s = some ⟨o.store, if d.type = DatumType.SYMBOL then o.handle else Handle.nil⟩ ∧
      o.AsArray s = some ⟨o.store, if d.type = DatumType.ARRAY then o.handle else Handle.nil⟩) ∧
    (∀ (o : Object) (s : Store), s.Deref o.handle = none →
      o.AsString s = some ⟨o.store, Handle.nil⟩ ∧ o.AsFrame s = some ⟨o.store, Handle.nil⟩ ∧
      o.AsSymbol s = some ⟨o.store, Handle.nil⟩ ∧ o.AsArray s = some ⟨o.store, Handle.nil⟩) ∧
    (∀ (f : Frame) (fd : FrameDatum) (n : Handle), f.frame = some fd →
      (fd.has n = false →
        f.GetFrame n = some ⟨f.store, Handle.nil⟩ ∧ f.GetSymbol n = some ⟨f.store, Handle.nil⟩) ∧
      (∀ d, f.store.Deref (fd.get n) = some d →
        f.GetFrame n
          = some ⟨f.store, if d.type = DatumType.FRAME then fd.get n else Handle.nil⟩ ∧
        f.GetSymbol n
          = some ⟨f.store, if d.type = DatumType.SYMBOL then fd.get n else Handle.nil⟩) ∧
      (f.store.Deref (fd.get n) = none →
        f.GetFrame n = some ⟨f.store, Handle.nil⟩ ∧
        f.GetSymbol n = some ⟨f.store, Handle.nil⟩)) := by
  refine ⟨?_, ?_, ?_⟩
  · intro o s d hd
    have hd1 : s.Deref o.handle_ = some d := hd
    simp only [Object.AsString, Object.AsFrame, Object.AsSymbol, Object.AsArray,
      Object.typed_Cast]
    simp [Store.Cast, Object.handle, hd1]
  · intro o s hd
    have hd1 : s.Deref o.handle_ = none := hd
    simp only [Object.AsString, Object.AsFrame, Object.AsSymbol, Object.AsArray,
      Object.typed_Cast]
    simp [Store.Cast, Object.handle, hd1]
  · intro f fd n hfd
    have hnone : ∀ type, f.store.Deref (fd.get n) = none →
        f.store.Cast (fd.get n) type = Handle.nil := by
      intro type h
      simp [Store.Cast, h]
    refine ⟨?_, ?_, ?_⟩
    · intro habs
      have hnil : fd.get n = Handle.nil := FrameDatum.getIn_of_hasIn_false n fd.slots habs
      simp only [Frame.GetFrame, Frame.GetSymbol, hfd, Frame.typed_view_Cast]
      simp [hnil, Store.Cast, Store.Deref]
    · intro d hd
      simp only [Frame.GetFrame, Frame.GetSymbol, hfd, Frame.typed_view_Cast]
      simp [Store.Cast, hd]
    · intro hd
      simp only [Frame.GetFrame, Frame.GetSymbol, hfd, Frame.typed_view_Cast]
      simp [hnone _ hd]

/-- C11, at the one-frame store: the object with the handle of the frame
converts to itself as a frame and to nil as a string, and the integer slot `g7`
of the frame read as a frame gives a nil view. -/
theorem Object.typed_conversions_nil_on_mismatch_witness :
    Object.AsFrame ⟨⟨1, none⟩, Handle.localRef 0⟩ Example.oneFrameStore
      = some ⟨⟨1, none⟩, Handle.localRef 0⟩ ∧
    Object.AsString ⟨⟨1, none⟩, Handle.localRef 0⟩ Example.oneFrameStore
      = some ⟨⟨1, none⟩, Handle.nil⟩ ∧
    (Frame.mk Example.oneFrameStore (Handle.localRef 0)).GetFrame (Handle.globalRef 7)
      = some ⟨Example.oneFrameStore, Handle.nil⟩ :=
  ⟨(Object.typed_conversions_nil_on_mismatch.1 ⟨⟨1, none⟩, Handle.localRef 0⟩
      Example.oneFrameStore
      (Datum.frame ⟨false, [{ name := Handle.globalRef 7, value := Handle.int 1 }]⟩) rfl).2.1,
   (Object.typed_conversions_nil_on_mismatch.1 ⟨⟨1, none⟩, Handle.localRef 0⟩
      Example.oneFrameStore
      (Datum.frame ⟨false, [{ name := Handle.globalRef 7, value := Handle.int 1 }]⟩) rfl).1,
   ((Object.typed_conversions_nil_on_mismatch.2.2
      (Frame.mk Example.oneFrameStore (Handle.localRef 0))
      ⟨false, [{ name := Handle.globalRef 7, value := Handle.int 1 }]⟩ (Handle.globalRef 7)
      rfl).2.2 rfl).1⟩

/-! ## Equality of views -/

/-- C12. Equality of views compares handles only: `a == b` holds iff the
handles are equal, `a == h` and `h == a` hold iff the handle of `a` is `h`, each
`!=` is the negation of the corresponding `==`, the store pointers do not
influence the result, and `==` is reflexive, symmetric and transitive. -/
theorem Object.eq_compares_handles_only :
    (∀ a b : Object, a.eq b = true ↔ a.handle = b.handle) ∧
    (∀ (a : Object) (h : Handle), (a.eqHandle h = true ↔ a.handle = h) ∧
      (h.eqObject a = true ↔ a.handle = h)) ∧
    (∀ a b : Object, a.ne b = !a.eq b) ∧
    (∀ (a : Object) (h : Handle), a.neHandle h = !a.eqHandle h ∧ h.neObject a = !h.eqObject a) ∧
    (∀ (a b : Object) (p q : StorePtr),
      Object.eq ⟨p, a.handle⟩ ⟨q, b.handle⟩ = a.eq b ∧
      Object.ne ⟨p, a.handle⟩ ⟨q, b.handle⟩ = a.ne b ∧
      ∀ h, Object.eqHandle ⟨p, a.handle⟩ h = a.eqHandle h ∧
        Handle.eqObject h ⟨p, a.handle⟩ = h.eqObject a) ∧
    (∀ a : Object, a.eq a = true) ∧
    (∀ a b : Object, a.eq b = b.eq a) ∧
    (∀ a b c : Object, a.eq b = true → b.eq c = true → a.eq c = true) := by
  refine ⟨?_, ?_, ?_, ?_, ?_, ?_, ?_, ?_⟩
  · intro a b; simp [Object.eq]
  · intro a h
    constructor
    · simp [Object.eqHandle]
    · simp only [Handle.eqObject, decide_eq_true_eq]
      exact eq_comm
  · intro a b; simp [Object.eq, Object.ne]
  · intro a h; simp [Object.eqHandle, Object.neHandle, Handle.eqObject, Handle.neObject]
  · intro a b p q
    refine ⟨rfl, rfl, fun h => ⟨rfl, rfl⟩⟩
  · intro a; simp [Object.eq]
  · intro a b
    simp only [Object.eq]
    by_cases h : a.handle = b.handle
    · simp [h]
    · have h2 : ¬ b.handle = a.handle := fun e => h e.symm
      simp [h, h2]
  · intro a b c hab hbc
    simp only [Object.eq, decide_eq_true_eq] at *
    exact hab.trans hbc

/-- C12, at two objects of different stores with the same handle. -/
theorem Object.eq_compares_handles_only_witness :
    Object.eq ⟨⟨1, none⟩, Handle.globalRef 5⟩ ⟨⟨2, some 1⟩, Handle.globalRef 5⟩ = true :=
  (Object.eq_compares_handles_only.1 ⟨⟨1, none⟩, Handle.globalRef 5⟩
    ⟨⟨2, some 1⟩, Handle.globalRef 5⟩).2 rfl
/-! ## Comparison with a Name -/

/-- Name::Lookup on a resolved name bound to the store, or to the store its
`globals()` returns, gives the stored handle and leaves the store alone. -/
theorem Name.Lookup_resolved (n : Name) (store : StorePtr) (s : Store)
    (hres : n.handle_ ≠ Handle.nil)
    (hbound : n.store_ = some store.addr ∨ store.globals = n.store_) :
    n.Lookup store s = Outcome.ok (n.handle_, s) := by
  have hnil : n.handle_.IsNil = false := by
    cases hh : n.handle_ with
    | nil => exact absurd hh hres
    | int v => rfl
    | float v => rfl
    | localRef i => rfl
    | globalRef i => rfl
  rcases hbound with h | h
  · simp [Name.Lookup, hnil, h]
  · simp [Name.Lookup, hnil, h]

/-- Name::Lookup on an unresolved name is the Lookup of the store. -/
theorem Name.Lookup_unresolved (n : Name) (store : StorePtr) (s : Store)
    (hnil : n.handle_ = Handle.nil) :
    n.Lookup store s = Outcome.ok ((s.Lookup n.name_).2, (s.Lookup n.name_).1) := by
  simp [Name.Lookup, hnil, Handle.IsNil]

/-- C13 fails as stated: the comparison of an Object with an unresolved Name
does not abort. On the empty store the name "x" is looked up, which interns it
and yields the local handle 2, and the comparison with an object that has this
handle returns true; the reversed comparison and both `!=` return as well. -/
theorem Object.eqName_unresolved_counterexample :
    Object.eqName ⟨⟨1, none⟩, Handle.localRef 2⟩ Example.emptyStore
        ⟨Handle.nil, "x", none, none⟩
      = Outcome.ok (true, (Example.emptyStore.Lookup "x").1) ∧
    Name.eqObject ⟨Handle.nil, "x", none, none⟩ ⟨⟨1, none⟩, Handle.localRef 2⟩
        Example.emptyStore
      = Outcome.ok (true, (Example.emptyStore.Lookup "x").1) ∧
    Object.neName ⟨⟨1, none⟩, Handle.localRef 2⟩ Example.emptyStore
        ⟨Handle.nil, "x", none, none⟩
      = Outcome.ok (false, (Example.emptyStore.Lookup "x").1) ∧
    Object.eqName ⟨⟨1, none⟩, Handle.localRef 2⟩ Example.emptyStore
        ⟨Handle.nil, "x", none, none⟩ ≠ Outcome.abort := by
  refine ⟨rfl, rfl, rfl, ?_⟩
  intro h
  cases h

/-- C13, amended. A comparison `==` or `!=` of a Handle with a Name, of a Name
with a Handle or of two Names aborts when a Name operand is unresolved (its
handle is nil) and returns the equality of the handles when every Name operand
is resolved. A comparison of an Object with a Name, in either order, never
reaches that assertion: it compares the handle of the object with
`name.Lookup(object.store())`, which for an unresolved Name is the handle
`store->Lookup(name)` returns, and for a resolved Name bound to the store of the
object or to its `globals()` is the handle of the Name. -/
theorem Name.comparison_aborts_or_compares :
    (∀ (h : Handle) (n : Name), n.handle = Handle.nil →
      h.eqName n = Outcome.abort ∧ h.neName n = Outcome.abort ∧
      n.eqHandle h = Outcome.abort ∧ n.neHandle h = Outcome.abort) ∧
    (∀ a b : Name, (a.handle = Handle.nil ∨ b.handle = Handle.nil) →
      a.eqName b = Outcome.abort ∧ a.neName b = Outcome.abort) ∧
    (∀ (h : Handle) (n : Name), n.handle ≠ Handle.nil →
      h.eqName n = Outcome.ok (decide (h = n.handle)) ∧
      h.neName n = Outcome.ok (decide (h ≠ n.handle)) ∧
      n.eqHandle h = Outcome.ok (decide (n.handle = h)) ∧
      n.neHandle h = Outcome.ok (decide (n.handle ≠ h))) ∧
    (∀ a b : Name, a.handle ≠ Handle.nil → b.handle ≠ Handle.nil →
      a.eqName b = Outcome.ok (decide (a.handle = b.handle)) ∧
      a.neName b = Outcome.ok (decide (a.handle ≠ b.handle))) ∧
    (∀ (o : Object) (s : Store) (n : Name), n.handle = Handle.nil →
      o.eqName s n
        = Outcome.ok (decide (o.handle = (s.Lookup n.name_).2), (s.Lookup n.name_).1) ∧
      o.neName s n
        = Outcome.ok (decide (o.handle ≠ (s.Lookup n.name_).2), (s.Lookup n.name_).1) ∧
      n.eqObject o s
        = Outcome.ok (decide ((s.Lookup n.name_).2 = o.handle), (s.Lookup n.name_).1) ∧
      n.neObject o s
        = Outcome.ok (decide ((s.Lookup n.name_).2 ≠ o.handle), (s.Lookup n.name_).1)) ∧
    (∀ (o : Object) (s : Store) (n : Name), n.handle ≠ Handle.nil →
      (n.store_ = some o.store.addr ∨ o.store.globals = n.store_) →
      o.eqName s n = Outcome.ok (decide (o.handle = n.handle), s) ∧
      o.neName s n = Outcome.ok (decide (o.handle ≠ n.handle), s) ∧
      n.eqObject o s = Outcome.ok (decide (n.handle = o.handle), s) ∧
      n.neObject o s = Outcome.ok (decide (n.handle ≠ o.handle), s)) := by
  have hisnil : ∀ h : Handle, h ≠ Handle.nil → h.IsNil = false := by
    intro h hne
    cases h with
    | nil => exact absurd rfl hne
    | int v => rfl
    | float v => rfl
    | localRef i => rfl
    | globalRef i => rfl
  refine ⟨?_, ?_, ?_, ?_, ?_, ?_⟩
  · intro h n hn
    simp [Handle.eqName, Handle.neName, Name.eqHandle, Name.neHandle, hn, Handle.IsNil]
  · intro a b hab
    rcases hab with ha | hb
    · simp [Name.eqName, Name.neName, ha, Handle.IsNil]
    · by_cases ha : a.handle.IsNil = true
      · simp [Name.eqName, Name.neName, ha]
      · simp [Name.eqName, Name.neName, ha, hb, Handle.IsNil]
  · intro h n hn
    simp [Handle.eqName, Handle.neName, Name.eqHandle, Name.neHandle, hisnil _ hn]
  · intro a b ha hb
    simp [Name.eqName, Name.neName, hisnil _ ha, hisnil _ hb]
  · intro o s n hn
    have hl := Name.Lookup_unresolved n o.store s hn
    simp [Object.eqName, Object.neName, Name.eqObject, Name.neObject, hl]
  · intro o s n hn hb
    have hl := Name.Lookup_resolved n o.store s hn hb
    simp [Object.eqName, Object.neName, Name.eqObject, Name.neObject, hl, Name.handle]

/-- C13, amended, at an unresolved and at a resolved name. -/
theorem Name.comparison_aborts_or_compares_witness :
    Handle.eqName (Handle.localRef 2) ⟨Handle.nil, "x", none, none⟩ = Outcome.abort ∧
    Handle.eqName (Handle.localRef 2) ⟨Handle.localRef 2, "x", some 1, none⟩
      = Outcome.ok true ∧
    Object.eqName ⟨⟨1, none⟩, Handle.localRef 2⟩ Example.emptyStore
        ⟨Handle.localRef 2, "x", some 1, none⟩
      = Outcome.ok (true, Example.emptyStore) :=
  ⟨(Name.comparison_aborts_or_compares.1 (Handle.localRef 2) ⟨Handle.nil, "x", none, none⟩
      rfl).1,
   (Name.comparison_aborts_or_compares.2.2.1 (Handle.localRef 2)
      ⟨Handle.localRef 2, "x", some 1, none⟩ (by decide)).1,
   (Name.comparison_aborts_or_compares.2.2.2.2.2 ⟨⟨1, none⟩, Handle.localRef 2⟩
      Example.emptyStore ⟨Handle.localRef 2, "x", some 1, none⟩ (by decide)
      (Or.inl rfl)).1⟩

/-! ## Name::Lookup -/

/-- C15. `Name::Lookup(store)` is lazy. A resolved Name returns its stored
handle and leaves the store as it is, whatever the symbol table of the store
holds, provided the store is the binding store or a store whose `globals()` is
the binding store. An unresolved Name returns what `store->Lookup(name)`
returns; `Lookup` is a const member and yields no new state of the Name. -/
theorem Name.Lookup_is_lazy :
    (∀ (n : Name) (store : StorePtr) (s : Store), n.handle_ ≠ Handle.nil →
      (n.store_ = some store.addr ∨ store.globals = n.store_) →
      n.Lookup store s = Outcome.ok (n.handle_, s) ∧
      ∀ s1 : Store, n.Lookup store s1 = Outcome.ok (n.handle_, s1)) ∧
    (∀ (n : Name) (store : StorePtr) (s : Store), n.handle_ = Handle.nil →
      n.Lookup store s = Outcome.ok ((s.Lookup n.name_).2, (s.Lookup n.name_).1)) := by
  constructor
  · intro n store s hres hbound
    exact ⟨Name.Lookup_resolved n store s hres hbound,
      fun s1 => Name.Lookup_resolved n store s1 hres hbound⟩
  · intro n store s hnil
    exact Name.Lookup_unresolved n store s hnil

/-- C15, at a name bound to the global store 1, looked up through the local
store 2 whose `globals()` is store 1, and at an unresolved name on the empty
store. -/
theorem Name.Lookup_is_lazy_witness :
    Name.Lookup ⟨Handle.globalRef 5, "x", some 1, none⟩ ⟨2, some 1⟩ Example.emptyStore
      = Outcome.ok (Handle.globalRef 5, Example.emptyStore) ∧
    Name.Lookup ⟨Handle.nil, "x", none, none⟩ ⟨2, some 1⟩ Example.emptyStore
      = Outcome.ok ((Example.emptyStore.Lookup "x").2, (Example.emptyStore.Lookup "x").1) :=
  ⟨(Name.Lookup_is_lazy.1 ⟨Handle.globalRef 5, "x", some 1, none⟩ ⟨2, some 1⟩
      Example.emptyStore (by decide) (Or.inr rfl)).1,
   Name.Lookup_is_lazy.2 ⟨Handle.nil, "x", none, none⟩ ⟨2, some 1⟩ Example.emptyStore rfl⟩

/-! ## Names::Bind -/

theorem Names.IsChain_cons (mem : List Name) (n : Option Nat) (a : Nat) (rest : List Nat) :
    Names.IsChain mem n (a :: rest) = true ↔
      n = some a ∧ ∃ nm, mem[a]? = some nm ∧ Names.IsChain mem nm.next_ rest = true := by
  cases n with
  | none => simp [Names.IsChain]
  | some k =>
    cases hm : mem[a]? with
    | none => simp [Names.IsChain, hm]
    | some nm => simp [Names.IsChain, hm]

theorem Names.IsChain_nil (mem : List Name) (n : Option Nat) :
    Names.IsChain mem n [] = true ↔ n = none := by
  cases n <;> simp [Names.IsChain]

/-- The chain from a pointer is determined by the memory. -/
theorem Names.IsChain_unique (mem : List Name) :
    ∀ (l1 l2 : List Nat) (n : Option Nat),
      Names.IsChain mem n l1 = true → Names.IsChain mem n l2 = true → l1 = l2 := by
  intro l1
  induction l1 with
  | nil =>
    intro l2 n h1 h2
    rw [Names.IsChain_nil] at h1
    subst h1
    cases l2 with
    | nil => rfl
    | cons b r => simp [Names.IsChain] at h2
  | cons a rest ih =>
    intro l2 n h1 h2
    obtain ⟨hn, nm, hm, hrest⟩ := (Names.IsChain_cons mem n a rest).mp h1
    subst hn
    cases l2 with
    | nil => simp [Names.IsChain] at h2
    | cons b r =>
      obtain ⟨hb, nm2, hm2, hrest2⟩ := (Names.IsChain_cons mem (some a) b r).mp h2
      cases hb
      rw [hm] at hm2
      cases hm2
      rw [ih r nm.next_ hrest hrest2]

/-- From an address on a chain a shorter chain starts. -/
theorem Names.IsChain_from_mem (mem : List Name) :
    ∀ (l : List Nat) (n : Option Nat) (a : Nat), Names.IsChain mem n l = true → a ∈ l →
      ∃ l1, Names.IsChain mem (some a) (a :: l1) = true ∧ l1.length < l.length := by
  intro l
  induction l with
  | nil => intro n a _ ha; cases ha
  | cons b rest ih =>
    intro n a h ha
    obtain ⟨hn, nm, hm, hrest⟩ := (Names.IsChain_cons mem n b rest).mp h
    subst hn
    rcases List.mem_cons.mp ha with hab | hmem
    · subst hab
      exact ⟨rest, h, by simp⟩
    · obtain ⟨l1, h1, hlen⟩ := ih nm.next_ a hrest hmem
      exact ⟨l1, h1, by simp only [List.length_cons]; omega⟩

/-- A chain that ends in the null pointer visits no address twice. -/
theorem Names.IsChain_head_not_mem (mem : List Name) (n : Option Nat) (a : Nat)
    (rest : List Nat) (h : Names.IsChain mem n (a :: rest) = true) : a ∉ rest := by
  intro ha
  obtain ⟨hn, nm, hm, hrest⟩ := (Names.IsChain_cons mem n a rest).mp h
  subst hn
  obtain ⟨l1, h1, hlen⟩ := Names.IsChain_from_mem mem rest nm.next_ a hrest ha
  have heq := Names.IsChain_unique mem (a :: l1) (a :: rest) (some a) h1 h
  simp only [List.cons.injEq, true_and] at heq
  rw [heq] at hlen
  exact Nat.lt_irrefl _ hlen

/-- Writing the handle and the store of a `Name` keeps every chain. -/
theorem Names.IsChain_set (mem : List Name) (a : Nat) (nm : Name) (h : Handle)
    (st : Option Nat) (hm : mem[a]? = some nm) :
    ∀ (l : List Nat) (n : Option Nat),
      Names.IsChain (mem.set a { nm with handle_ := h, store_ := st }) n l
        = Names.IsChain mem n l := by
  intro l
  induction l with
  | nil => intro n; cases n <;> rfl
  | cons b rest ih =>
    intro n
    cases n with
    | none => rfl
    | some k =>
      simp only [Names.IsChain]
      by_cases hab : a = b
      · subst hab
        have hlt : a < mem.length := (List.getElem?_eq_some.mp hm).1
        simp only [List.getElem?_set, hlt, if_true, hm]
        rw [ih]
      · simp only [List.getElem?_set, hab, if_false]
        cases hb : mem[b]? with
        | none => rfl
        | some nb => simp only; rw [ih]

/-- Writing the handle and the store of a `Name` keeps the symbol names. -/
theorem Names.text_set (mem : List Name) (a : Nat) (nm : Name) (h : Handle)
    (st : Option Nat) (hm : mem[a]? = some nm) (b : Nat) :
    Names.text (mem.set a { nm with handle_ := h, store_ := st }) b = Names.text mem b := by
  unfold Names.text
  by_cases hab : a = b
  · subst hab
    have hlt : a < mem.length := (List.getElem?_eq_some.mp hm).1
    simp [List.getElem?_set, hlt, hm]
  · simp [List.getElem?_set, hab]
/-- The loop of Bind on a chain of names: it returns, the result is the
conjunction of the incoming flag with all lookups being non-nil, the store is
the one the lookups leave, a name whose lookup is non-nil has the handle and
the store recorded, and every other `Name` is as before. -/
theorem Names.Bind.loop_spec (look : Store → String → Store × Handle) (store : StorePtr) :
    ∀ (addrs : List Nat) (fuel : Nat) (mem : List Name) (n : Option Nat) (s : Store)
      (acc : Bool),
      Names.IsChain mem n addrs = true → addrs.length ≤ fuel →
      ∃ mem1,
        Names.Bind.loop look store fuel mem n s acc
          = some (acc && (Names.lookups look s (addrs.map (Names.text mem))).1.all
                    (fun h => !h.IsNil),
                  mem1, (Names.lookups look s (addrs.map (Names.text mem))).2) ∧
        mem1.length = mem.length ∧
        (∀ a, a ∉ addrs → mem1[a]? = mem[a]?) ∧
        (∀ a h, (a, h) ∈ addrs.zip (Names.lookups look s (addrs.map (Names.text mem))).1 →
          ∀ nm, mem[a]? = some nm →
            mem1[a]? = some (if h.IsNil then nm
              else { nm with handle_ := h, store_ := some store.addr })) := by
  intro addrs
  induction addrs with
  | nil =>
    intro fuel mem n s acc hchain _
    rw [Names.IsChain_nil] at hchain
    subst hchain
    refine ⟨mem, ?_, rfl, fun _ _ => rfl, ?_⟩
    · cases fuel <;> simp [Names.Bind.loop, Names.lookups]
    · intro a h hmem
      simp at hmem
  | cons a rest ih =>
    intro fuel mem n s acc hchain hfuel
    have hnot : a ∉ rest := Names.IsChain_head_not_mem mem n a rest hchain
    obtain ⟨hn, nm, hm, hrest⟩ := (Names.IsChain_cons mem n a rest).mp hchain
    subst hn
    cases fuel with
    | zero => simp at hfuel
    | succ f =>
      have hf : rest.length ≤ f := by simpa using hfuel
      have htext : Names.text mem a = nm.name_ := by simp [Names.text, hm]
      simp only [List.map_cons, Names.lookups, htext, Names.Bind.loop, hm]
      by_cases hnil : (look s nm.name_).2.IsNil = true
      · obtain ⟨mem1, h1, h2, h3, h4⟩ := ih f mem nm.next_ (look s nm.name_).1 false hrest hf
        refine ⟨mem1, ?_, h2, ?_, ?_⟩
        · simp only [hnil, if_true, h1]
          simp [hnil]
        · intro x hx
          exact h3 x (fun hxr => hx (List.mem_cons_of_mem _ hxr))
        · intro x h hmem nx hnx
          simp only [List.zip_cons_cons, List.mem_cons] at hmem
          rcases hmem with heq | hmem
          · cases heq
            rw [h3 a hnot, hm] at *
            cases hnx
            simp [hnil]
          · exact h4 x h hmem nx hnx
      · have hnil1 : (look s nm.name_).2.IsNil = false := by simpa using hnil
        have hchain1 := (Names.IsChain_set mem a nm (look s nm.name_).2 (some store.addr) hm
          rest nm.next_).trans hrest
        have htexts : rest.map (Names.text
            (mem.set a { nm with handle_ := (look s nm.name_).2, store_ := some store.addr }))
            = rest.map (Names.text mem) := by
          apply List.map_congr_left
          intro b _
          exact Names.text_set mem a nm _ _ hm b
        obtain ⟨mem1, h1, h2, h3, h4⟩ := ih f
          (mem.set a { nm with handle_ := (look s nm.name_).2, store_ := some store.addr })
          nm.next_ (look s nm.name_).1 acc hchain1 hf
        rw [htexts] at h1 h4
        have hlt : a < mem.length := (List.getElem?_eq_some.mp hm).1
        refine ⟨mem1, ?_, ?_, ?_, ?_⟩
        · simp only [hnil1, Bool.false_eq_true, if_false, h1]
          simp [hnil1]
        · rw [h2, List.length_set]
        · intro x hx
          have hxa : a ≠ x := fun e => hx (e ▸ List.mem_cons_self _ _)
          rw [h3 x (fun hxr => hx (List.mem_cons_of_mem _ hxr))]
          simp [List.getElem?_set, hxa]
        · intro x h hmem nx hnx
          simp only [List.zip_cons_cons, List.mem_cons] at hmem
          rcases hmem with heq | hmem
          · cases heq
            rw [hm] at hnx
            cases hnx
            rw [h3 a hnot]
            simp [List.getElem?_set, hlt, hm, hnil1]
          · have hxr : x ∈ rest := (List.of_mem_zip hmem).1
            have hxa : a ≠ x := fun e => hnot (e ▸ hxr)
            refine h4 x h hmem nx ?_
            simp [List.getElem?_set, hxa, hnx]
/-- The lookups of a const store are the probes of that store, which stays as
it is. -/
theorem Names.lookups_const (s : Store) :
    ∀ (texts : List String),
      Names.lookups (fun st name => (st, st.LookupExisting name)) s texts
        = (texts.map s.LookupExisting, s) := by
  intro texts
  induction texts with
  | nil => rfl
  | cons t rest ih => simp [Names.lookups, ih]

/-- A pair of the zip of a list with its image under a function is an element
with its image. -/
theorem List.mem_zip_map_self {α β : Type} (g : α → β) :
    ∀ (l : List α) (a : α) (b : β), (a, b) ∈ l.zip (l.map g) ↔ a ∈ l ∧ b = g a := by
  intro l
  induction l with
  | nil => intro a b; simp
  | cons x rest ih =>
    intro a b
    simp only [List.map_cons, List.zip_cons_cons, List.mem_cons, Prod.mk.injEq, ih]
    constructor
    · rintro (⟨h1, h2⟩ | ⟨h1, h2⟩)
      · exact ⟨Or.inl h1, by rw [h2, h1]⟩
      · exact ⟨Or.inr h1, h2⟩
    · rintro ⟨h1 | h1, h2⟩
      · exact Or.inl ⟨h1, by rw [h2, h1]⟩
      · exact Or.inr ⟨h1, h2⟩

/-- C14. `Names::Bind(store)` on a name list that ends in the null pointer
returns, and never aborts. For a mutable store the names are looked up with
`Lookup` in list order, each on the store as the previous lookup left it; for a
const store they are probed with `LookupExisting`. The result is true iff every
one of these handles is non-nil; a name whose handle is non-nil gets that
handle and the store recorded, a name whose handle is nil keeps the handle and
the store it had, and no other `Name` changes. -/
theorem Names.Bind_resolves_names (names : Names) (mem : List Name) (addrs : List Nat)
    (store : StorePtr) (s : Store) (fuel : Nat)
    (hchain : Names.IsChain mem names.list_ addrs = true) (hfuel : addrs.length ≤ fuel) :
    (∃ r mem1,
      names.Bind mem store s fuel
        = some (r, mem1, (Names.lookups Store.Lookup s (addrs.map (Names.text mem))).2) ∧
      (r = true ↔
        ∀ h ∈ (Names.lookups Store.Lookup s (addrs.map (Names.text mem))).1, h ≠ Handle.nil) ∧
      mem1.length = mem.length ∧
      (∀ a, a ∉ addrs → mem1[a]? = mem[a]?) ∧
      (∀ a h, (a, h) ∈ addrs.zip (Names.lookups Store.Lookup s (addrs.map (Names.text mem))).1 →
        ∀ nm, mem[a]? = some nm →
          mem1[a]? = some (if h = Handle.nil then nm
            else { nm with handle_ := h, store_ := some store.addr }))) ∧
    (∃ r mem1,
      names.BindConst mem store s fuel = some (r, mem1, s) ∧
      (r = true ↔ ∀ a ∈ addrs, s.LookupExisting (Names.text mem a) ≠ Handle.nil) ∧
      mem1.length = mem.length ∧
      (∀ a, a ∉ addrs → mem1[a]? = mem[a]?) ∧
      (∀ a ∈ addrs, ∀ nm, mem[a]? = some nm →
        mem1[a]? = some (if s.LookupExisting nm.name_ = Handle.nil then nm
          else { nm with handle_ := s.LookupExisting nm.name_,
                         store_ := some store.addr }))) := by
  have hisnil : ∀ h : Handle, (h.IsNil = true ↔ h = Handle.nil) := by
    intro h; cases h <;> simp [Handle.IsNil]
  have hif : ∀ (h : Handle) (x y : Name),
      (if h.IsNil = true then x else y) = (if h = Handle.nil then x else y) := by
    intro h x y
    by_cases hh : h = Handle.nil
    · simp [hh, Handle.IsNil]
    · have : ¬ h.IsNil = true := fun e => hh ((hisnil h).mp e)
      simp [hh, this]
  constructor
  · obtain ⟨mem1, h1, h2, h3, h4⟩ :=
      Names.Bind.loop_spec Store.Lookup store addrs fuel mem names.list_ s true hchain hfuel
    refine ⟨_, mem1, h1, ?_, h2, h3, ?_⟩
    · simp only [Bool.true_and, List.all_eq_true, Bool.not_eq_true', ne_eq]
      constructor
      · intro hall h hh hn
        have := hall h hh
        rw [hn] at this
        cases this
      · intro hall h hh
        cases hc : h.IsNil with
        | false => rfl
        | true => exact absurd ((hisnil h).mp hc) (hall h hh)
    · intro a h hmem nm hnm
      rw [h4 a h hmem nm hnm, hif]
  · obtain ⟨mem1, h1, h2, h3, h4⟩ :=
      Names.Bind.loop_spec (fun st name => (st, st.LookupExisting name)) store addrs fuel mem
        names.list_ s true hchain hfuel
    rw [Names.lookups_const] at h1 h4
    refine ⟨_, mem1, h1, ?_, h2, h3, ?_⟩
    · simp only [Bool.true_and, List.all_eq_true, Bool.not_eq_true', ne_eq, List.mem_map,
        forall_exists_index, and_imp, forall_apply_eq_imp_iff₂]
      constructor
      · intro hall a ha hn
        have := hall a ha
        rw [hn] at this
        cases this
      · intro hall a ha
        cases hc : (s.LookupExisting (Names.text mem a)).IsNil with
        | false => rfl
        | true => exact absurd ((hisnil _).mp hc) (hall a ha)
    · intro a ha nm hnm
      have htext : Names.text mem a = nm.name_ := by simp [Names.text, hnm]
      have hmem : (a, s.LookupExisting nm.name_)
          ∈ addrs.zip ((addrs.map (Names.text mem)).map s.LookupExisting) := by
        rw [List.map_map]
        exact (List.mem_zip_map_self _ addrs a _).mpr ⟨ha, by simp [htext]⟩
      rw [h4 a _ hmem nm hnm, hif]

/-- C14, at a list of the two unresolved names "b" and "a" and the empty store:
the mutable `Bind` returns, and the const `Bind` returns false and records
nothing. -/
theorem Names.Bind_resolves_names_witness :
    (∃ r mem1,
      Names.Bind ⟨some 1⟩ [⟨Handle.nil, "a", none, none⟩, ⟨Handle.nil, "b", none, some 0⟩]
          ⟨7, none⟩ Example.emptyStore 2
        = some (r, mem1, (Names.lookups Store.Lookup Example.emptyStore
            ([1, 0].map (Names.text
              [⟨Handle.nil, "a", none, none⟩, ⟨Handle.nil, "b", none, some 0⟩]))).2)) ∧
    Names.BindConst ⟨some 1⟩ [⟨Handle.nil, "a", none, none⟩, ⟨Handle.nil, "b", none, some 0⟩]
        ⟨7, none⟩ Example.emptyStore 2
      = some (false, [⟨Handle.nil, "a", none, none⟩, ⟨Handle.nil, "b", none, some 0⟩],
          Example.emptyStore) :=
  ⟨(Names.Bind_resolves_names ⟨some 1⟩
      [⟨Handle.nil, "a", none, none⟩, ⟨Handle.nil, "b", none, some 0⟩] [1, 0] ⟨7, none⟩
      Example.emptyStore 2 rfl (by decide)).1.imp (fun _ h => h.imp (fun _ h1 => h1.1)),
   rfl⟩

/-! ## Lookup in a frame with duplicate names -/

/-- C16. Lookup in a frame returns the first match. For every frame whose
slots split at the earliest slot named `n`, whatever follows that slot, `Has(n)`
is true and `Get(n)`, `GetHandle(n)` and the GetX accessors use the value of
that slot; for a name that no slot has, `Has` is false and `Get` returns a nil
object. -/
theorem Frame.lookup_returns_first_match (self : Frame) (fd : FrameDatum) (n : Handle)
    (hfd : self.frame = some fd) :
    (∀ pre sl post, fd.slots = pre ++ sl :: post → (∀ t ∈ pre, t.name ≠ n) → sl.name = n →
      self.Has n = some true ∧ self.Get n = some sl.value ∧
      self.GetHandle n = some sl.value ∧
      (∀ d, self.GetInt n d = some (if sl.value.IsInt then sl.value.AsInt else d)) ∧
      self.GetBool n = some (if sl.value.IsInt then sl.value.IsTrue else false) ∧
      self.GetFloat n = some (if sl.value.IsFloat then sl.value.AsFloat else 0) ∧
      self.GetString n
        = (if sl.value.IsRef && !sl.value.IsNil then
            match self.store.Deref sl.value with
            | none => none
            | some (Datum.string str) => some str
            | some _ => some ""
           else some "") ∧
      self.GetText n = self.GetString n ∧
      self.GetFrame n
        = some ⟨self.store, self.store.Cast sl.value DatumType.FRAME⟩ ∧
      self.GetSymbol n
        = some ⟨self.store, self.store.Cast sl.value DatumType.SYMBOL⟩) ∧
    ((∀ t ∈ fd.slots, t.name ≠ n) →
      self.Has n = some false ∧ self.Get n = some Handle.nil ∧
      self.GetHandle n = some Handle.nil) := by
  constructor
  · intro pre sl post hsplit hpre hsl
    have hget : fd.get n = sl.value := by
      subst hsl
      simp only [FrameDatum.get, hsplit]
      exact FrameDatum.getIn_first pre sl post hpre
    have hhas : fd.has n = true := by
      simp only [FrameDatum.has]
      apply FrameDatum.hasIn_of_mem
      exact ⟨sl, by rw [hsplit]; simp, hsl⟩
    refine ⟨by simp [Frame.Has, hfd, hhas], by simp [Frame.Get, hfd, hget],
      by simp [Frame.GetHandle, hfd, hget], fun d => by simp [Frame.GetInt, hfd, hget],
      by simp [Frame.GetBool, hfd, hget], by simp [Frame.GetFloat, hfd, hget], ?_, ?_, ?_, ?_⟩
    · simp only [Frame.GetString, hfd, hget]
      split
      · cases hd : self.store.Deref sl.value with
        | none => rfl
        | some d => cases d <;> rfl
      · rfl
    · simp only [Frame.GetText, Frame.GetString]
    · simp only [Frame.GetFrame, hfd, hget, Frame.typed_view_Cast]
    · simp only [Frame.GetSymbol, hfd, hget, Frame.typed_view_Cast]
  · intro hall
    have hhas : fd.has n = false := by
      simp only [FrameDatum.has]
      cases hh : FrameDatum.hasIn n fd.slots with
      | false => rfl
      | true =>
        exfalso
        have : ∀ (l : List Slot), FrameDatum.hasIn n l = true → ∃ s ∈ l, s.name = n := by
          intro l
          induction l with
          | nil => intro h; cases h
          | cons t rest ih =>
            intro h
            by_cases ht : t.name = n
            · exact ⟨t, List.mem_cons_self _ _, ht⟩
            · simp only [FrameDatum.hasIn, ht, if_false] at h
              obtain ⟨s, hs, hn⟩ := ih h
              exact ⟨s, List.mem_cons_of_mem _ hs, hn⟩
        obtain ⟨s, hs, hn⟩ := this fd.slots hh
        exact hall s hs hn
    have hget : fd.get n = Handle.nil := FrameDatum.getIn_of_hasIn_false n fd.slots hhas
    simp [Frame.Has, Frame.Get, Frame.GetHandle, hfd, hhas, hget]

/-- C16, at a frame with the name `g7` in two slots. -/
theorem Frame.lookup_returns_first_match_witness :
    (Frame.mk ⟨[], [Datum.frame ⟨false, [⟨Handle.globalRef 8, Handle.int 1⟩,
        ⟨Handle.globalRef 7, Handle.int 2⟩, ⟨Handle.globalRef 7, Handle.int 3⟩]⟩], []⟩
      (Handle.localRef 0)).Get (Handle.globalRef 7) = some (Handle.int 2) ∧
    (Frame.mk ⟨[], [Datum.frame ⟨false, [⟨Handle.globalRef 8, Handle.int 1⟩,
        ⟨Handle.globalRef 7, Handle.int 2⟩, ⟨Handle.globalRef 7, Handle.int 3⟩]⟩], []⟩
      (Handle.localRef 0)).Has (Handle.globalRef 9) = some false :=
  ⟨((Frame.lookup_returns_first_match
      (Frame.mk ⟨[], [Datum.frame ⟨false, [⟨Handle.globalRef 8, Handle.int 1⟩,
        ⟨Handle.globalRef 7, Handle.int 2⟩, ⟨Handle.globalRef 7, Handle.int 3⟩]⟩], []⟩
        (Handle.localRef 0))
      ⟨false, [⟨Handle.globalRef 8, Handle.int 1⟩, ⟨Handle.globalRef 7, Handle.int 2⟩,
        ⟨Handle.globalRef 7, Handle.int 3⟩]⟩ (Handle.globalRef 7) rfl).1
      [⟨Handle.globalRef 8, Handle.int 1⟩] ⟨Handle.globalRef 7, Handle.int 2⟩
      [⟨Handle.globalRef 7, Handle.int 3⟩] rfl (by decide) rfl).2.1,
   ((Frame.lookup_returns_first_match
      (Frame.mk ⟨[], [Datum.frame ⟨false, [⟨Handle.globalRef 8, Handle.int 1⟩,
        ⟨Handle.globalRef 7, Handle.int 2⟩, ⟨Handle.globalRef 7, Handle.int 3⟩]⟩], []⟩
        (Handle.localRef 0))
      ⟨false, [⟨Handle.globalRef 8, Handle.int 1⟩, ⟨Handle.globalRef 7, Handle.int 2⟩,
        ⟨Handle.globalRef 7, Handle.int 3⟩]⟩ (Handle.globalRef 9) rfl).2 (by decide)).1⟩

/-! ## Type tags -/

theorem Frame.IsA.scan_isa_iff (type : Handle) :
    ∀ (slots : List Slot), Frame.IsA.scan type slots = true ↔
      ∃ sl ∈ slots, sl.name = Handle.isa ∧ sl.value = type := by
  intro slots
  induction slots with
  | nil => simp [Frame.IsA.scan]
  | cons t rest ih =>
    simp only [Frame.IsA.scan, Handle.IsIsA, List.mem_cons, exists_eq_or_imp]
    by_cases ht : t.name = Handle.isa ∧ t.value = type
    · simp [ht.1, ht.2]
    · have hcond : (decide (t.name = Handle.isa) && decide (t.value = type)) = false := by
        simpa [not_and] using ht
      simp only [hcond, Bool.false_eq_true, if_false, ih]
      constructor
      · intro h; exact Or.inr h
      · rintro (h | h)
        · exact absurd h ht
        · exact h

theorem Frame.Is.scan_is_iff (type : Handle) :
    ∀ (slots : List Slot), Frame.Is.scan type slots = true ↔
      ∃ sl ∈ slots, sl.name = Handle.is ∧ sl.value = type := by
  intro slots
  induction slots with
  | nil => simp [Frame.Is.scan]
  | cons t rest ih =>
    simp only [Frame.Is.scan, Handle.IsIs, List.mem_cons, exists_eq_or_imp]
    by_cases ht : t.name = Handle.is ∧ t.value = type
    · simp [ht.1, ht.2]
    · have hcond : (decide (t.name = Handle.is) && decide (t.value = type)) = false := by
        simpa [not_and] using ht
      simp only [hcond, Bool.false_eq_true, if_false, ih]
      constructor
      · intro h; exact Or.inr h
      · rintro (h | h)
        · exact absurd h ht
        · exact h

/-- C18. Type-tag queries. For every frame and handle `t`, `IsA(t)` is true iff
some slot of the frame has the reserved name `isa` and the value `t`, and
`Is(t)` is true iff some slot has the reserved name `is` and the value `t`; every
slot is examined, the two reserved names differ, so a frame without an `is`
slot with the value never satisfies `Is` and a frame without an `isa` slot with
the value never satisfies `IsA`. -/
theorem Frame.IsA_iff_some_isa_slot (self : Frame) (fd : FrameDatum) (t : Handle)
    (hfd : self.frame = some fd) :
    (self.IsA t = some true ↔ ∃ sl ∈ fd.slots, sl.name = Handle.isa ∧ sl.value = t) ∧
    (self.Is t = some true ↔ ∃ sl ∈ fd.slots, sl.name = Handle.is ∧ sl.value = t) ∧
    (∃ b c, self.IsA t = some b ∧ self.Is t = some c) ∧
    Handle.isa ≠ Handle.is ∧
    ((∀ sl ∈ fd.slots, sl.value = t → sl.name = Handle.isa) → self.Is t = some false) ∧
    ((∀ sl ∈ fd.slots, sl.value = t → sl.name = Handle.is) → self.IsA t = some false) := by
  have hne : Handle.isa ≠ Handle.is := by decide
  refine ⟨?_, ?_, ⟨Frame.IsA.scan t fd.slots, Frame.Is.scan t fd.slots,
    by simp [Frame.IsA, hfd], by simp [Frame.Is, hfd]⟩, hne, ?_, ?_⟩
  · simp [Frame.IsA, hfd, Frame.IsA.scan_isa_iff]
  · simp [Frame.Is, hfd, Frame.Is.scan_is_iff]
  · intro hall
    have hno : ¬ Frame.Is.scan t fd.slots = true := by
      rw [Frame.Is.scan_is_iff]
      rintro ⟨sl, hsl, hn, hv⟩
      exact hne ((hall sl hsl hv).symm.trans hn)
    simpa [Frame.Is, hfd] using hno
  · intro hall
    have hno : ¬ Frame.IsA.scan t fd.slots = true := by
      rw [Frame.IsA.scan_isa_iff]
      rintro ⟨sl, hsl, hn, hv⟩
      exact hne (hn.symm.trans (hall sl hsl hv))
    simpa [Frame.IsA, hfd] using hno

/-- C18, at a frame whose second `isa` slot has the value asked for. -/
theorem Frame.IsA_iff_some_isa_slot_witness :
    (Frame.mk ⟨[], [Datum.frame ⟨false, [⟨Handle.isa, Handle.int 1⟩,
        ⟨Handle.isa, Handle.int 2⟩]⟩], []⟩ (Handle.localRef 0)).IsA (Handle.int 2)
      = some true ∧
    (Frame.mk ⟨[], [Datum.frame ⟨false, [⟨Handle.isa, Handle.int 1⟩,
        ⟨Handle.isa, Handle.int 2⟩]⟩], []⟩ (Handle.localRef 0)).Is (Handle.int 2)
      = some false :=
  ⟨(Frame.IsA_iff_some_isa_slot
      (Frame.mk ⟨[], [Datum.frame ⟨false, [⟨Handle.isa, Handle.int 1⟩,
        ⟨Handle.isa, Handle.int 2⟩]⟩], []⟩ (Handle.localRef 0))
      ⟨false, [⟨Handle.isa, Handle.int 1⟩, ⟨Handle.isa, Handle.int 2⟩]⟩ (Handle.int 2)
      rfl).1.mpr ⟨⟨Handle.isa, Handle.int 2⟩, by decide, rfl, rfl⟩,
   (Frame.IsA_iff_some_isa_slot
      (Frame.mk ⟨[], [Datum.frame ⟨false, [⟨Handle.isa, Handle.int 1⟩,
        ⟨Handle.isa, Handle.int 2⟩]⟩], []⟩ (Handle.localRef 0))
      ⟨false, [⟨Handle.isa, Handle.int 1⟩, ⟨Handle.isa, Handle.int 2⟩]⟩ (Handle.int 2)
      rfl).2.2.2.2.1 (by decide)⟩
/-! ## Iteration over the slots of a frame -/

theorem Frame.filterator.skip_at_end (p : Slot → Bool) (slots : List Slot) (fuel slot : Nat) :
    Frame.filterator.skip p slots fuel slot slot = slot := by
  cases fuel <;> simp [Frame.filterator.skip]

theorem Frame.filterator.skip_stop (p : Slot → Bool) (slots : List Slot) (fuel slot end_ : Nat)
    (s : Slot) (hs : slots[slot]? = some s) (hp : p s = true) :
    Frame.filterator.skip p slots (fuel + 1) slot end_ = slot := by
  simp [Frame.filterator.skip, hs, hp]

theorem Frame.filterator.skip_step (p : Slot → Bool) (slots : List Slot) (fuel slot end_ : Nat)
    (s : Slot) (hne : slot ≠ end_) (hs : slots[slot]? = some s) (hp : p s = false) :
    Frame.filterator.skip p slots (fuel + 1) slot end_
      = Frame.filterator.skip p slots fuel (slot + 1) end_ := by
  simp [Frame.filterator.skip, hs, hp, hne]

/-- The skipping loop of the filterator, started between `begin()` and `end()`,
stops at the end or at a slot that passes the predicate and skips only slots
that fail it. -/
theorem Frame.filterator.skip_spec (p : Slot → Bool) (slots : List Slot) :
    ∀ (fuel slot : Nat), slot ≤ slots.length → slots.length ≤ slot + fuel →
      slot ≤ Frame.filterator.skip p slots fuel slot slots.length ∧
      Frame.filterator.skip p slots fuel slot slots.length ≤ slots.length ∧
      (slots.drop slot).filter p
        = (slots.drop (Frame.filterator.skip p slots fuel slot slots.length)).filter p ∧
      (∀ s, slots[Frame.filterator.skip p slots fuel slot slots.length]? = some s →
        p s = true) := by
  intro fuel
  induction fuel with
  | zero =>
    intro slot hle hfuel
    have hs : slot = slots.length := by omega
    rw [hs, Frame.filterator.skip_at_end]
    refine ⟨Nat.le_refl _, Nat.le_refl _, rfl, ?_⟩
    intro s h
    rw [List.getElem?_eq_none (Nat.le_refl _)] at h
    cases h
  | succ fuel ih =>
    intro slot hle hfuel
    by_cases hend : slot = slots.length
    · rw [hend, Frame.filterator.skip_at_end]
      refine ⟨Nat.le_refl _, Nat.le_refl _, rfl, ?_⟩
      intro s h
      rw [List.getElem?_eq_none (Nat.le_refl _)] at h
      cases h
    · have hlt : slot < slots.length := by omega
      have hget : slots[slot]? = some slots[slot] := List.getElem?_eq_getElem hlt
      by_cases hp : p slots[slot] = true
      · rw [Frame.filterator.skip_stop p slots fuel slot _ _ hget hp]
        refine ⟨Nat.le_refl _, hle, rfl, ?_⟩
        intro s h
        rw [hget] at h
        cases h
        exact hp
      · have hp1 : p slots[slot] = false := by simpa using hp
        rw [Frame.filterator.skip_step p slots fuel slot _ _ hend hget hp1]
        obtain ⟨h1, h2, h3, h4⟩ := ih (slot + 1) (by omega) (by omega)
        refine ⟨by omega, h2, ?_, h4⟩
        rw [← h3]
        have hdrop : slots.drop slot = slots[slot] :: slots.drop (slot + 1) :=
          List.drop_eq_getElem_cons hlt
        rw [hdrop, List.filter_cons_of_neg hp]

/-- The loop over a filterator that stands at the end or at a slot passing the
predicate collects the slots from there on that pass the predicate. -/
theorem Frame.filterator.collect_spec (p : Slot → Bool) (slots : List Slot)
    (last : Frame.filterator) (hlast : last.slot_ = slots.length) :
    ∀ (fuel : Nat) (it : Frame.filterator), it.end_ = slots.length →
      it.slot_ ≤ slots.length → (∀ s, slots[it.slot_]? = some s → p s = true) →
      slots.length ≤ it.slot_ + fuel →
      Frame.filterator.collect p slots last fuel it = (slots.drop it.slot_).filter p := by
  intro fuel
  induction fuel with
  | zero =>
    intro it _ hle _ hfuel
    have hs : it.slot_ = slots.length := by omega
    simp [Frame.filterator.collect, hs]
  | succ fuel ih =>
    intro it hend hle hp hfuel
    simp only [Frame.filterator.collect, Frame.filterator.ne, hlast]
    by_cases hs : it.slot_ = slots.length
    · simp [hs]
    · have hlt : it.slot_ < slots.length := by omega
      have hps : p slots[it.slot_] = true := hp _ (List.getElem?_eq_getElem hlt)
      simp only [ne_eq, hs, not_false_eq_true, decide_True, if_true,
        Frame.filterator.deref, List.getElem?_eq_getElem hlt]
      obtain ⟨h1, h2, h3, h4⟩ :=
        Frame.filterator.skip_spec p slots slots.length (it.slot_ + 1) (by omega) (by omega)
      have hnext : (it.next p slots).slot_
          = Frame.filterator.skip p slots slots.length (it.slot_ + 1) slots.length := by
        simp [Frame.filterator.next, hend]
      rw [ih (it.next p slots) (by simp [Frame.filterator.next, hend])
        (by rw [hnext]; exact h2) (by rw [hnext]; exact h4) (by rw [hnext]; omega)]
      rw [hnext, ← h3]
      have hdrop : slots.drop it.slot_ = slots[it.slot_] :: slots.drop (it.slot_ + 1) :=
        List.drop_eq_getElem_cons hlt
      rw [hdrop, List.filter_cons_of_pos hps]

/-- The loop over the plain iterator collects the slots from the position of
the iterator on. -/
theorem Frame.iterator.collect_all_slots (slots : List Slot) :
    ∀ (fuel i : Nat), i ≤ slots.length → slots.length ≤ i + fuel →
      Frame.iterator.collect slots { slot_ := slots.length } fuel { slot_ := i }
        = slots.drop i := by
  intro fuel
  induction fuel with
  | zero =>
    intro i hle hfuel
    have hs : i = slots.length := by omega
    simp [Frame.iterator.collect, hs]
  | succ fuel ih =>
    intro i hle hfuel
    simp only [Frame.iterator.collect, Frame.iterator.ne]
    by_cases hs : i = slots.length
    · simp [hs]
    · have hlt : i < slots.length := by omega
      simp only [ne_eq, hs, not_false_eq_true, decide_True, if_true, Frame.iterator.deref,
        List.getElem?_eq_getElem hlt, Frame.iterator.next]
      rw [ih (i + 1) (by omega) (by omega), ← List.drop_eq_getElem_cons hlt]

/-- With a predicate that is alive during the loop, iterating a filter for the name `n`
from `begin()` to `end()` yields exactly the slots of the frame whose name is `n`,
duplicates included, in frame order; when no slot has the name, `begin()` equals
`end()` and nothing is yielded; the full iteration from `Frame::begin()` to
`Frame::end()` yields every slot once in index order. -/
theorem Frame.SlotsLive_yields_the_named_slots (self : Frame) (fd : FrameDatum) (n : Handle)
    (hfd : self.frame = some fd) :
    self.SlotsLive n = some (fd.slots.filter (fun slot => decide (slot.name = n))) ∧
    ((∀ slot ∈ fd.slots, slot.name ≠ n) →
      Frame.Filter.begin (fun slot => decide (slot.name = n)) fd.slots
        = Frame.Filter.end_ (fun slot => decide (slot.name = n)) fd.slots ∧
      (Frame.Filter.begin (fun slot => decide (slot.name = n)) fd.slots).ne
        (Frame.Filter.end_ (fun slot => decide (slot.name = n)) fd.slots) = false ∧
      self.SlotsLive n = some []) ∧
    self.iterate = some fd.slots := by
  have hlast : (Frame.Filter.end_ (fun slot => decide (slot.name = n)) fd.slots).slot_
      = fd.slots.length := by
    simp only [Frame.Filter.end_, Frame.filterator.new]
    cases fd.slots.length <;> simp [Frame.filterator.skip]
  obtain ⟨h1, h2, h3, h4⟩ := Frame.filterator.skip_spec (fun slot => decide (slot.name = n))
    fd.slots fd.slots.length 0 (Nat.zero_le _) (by omega)
  have hslots : self.SlotsLive n = some (fd.slots.filter (fun slot => decide (slot.name = n))) := by
    simp only [Frame.SlotsLive, Frame.Filter.loop, hfd, Option.map_some', Option.some.injEq]
    rw [Frame.filterator.collect_spec _ fd.slots _ hlast (fd.slots.length + 1)
      (Frame.Filter.begin (fun slot => decide (slot.name = n)) fd.slots) rfl h2 h4 (by omega)]
    simp only [Frame.Filter.begin, Frame.filterator.new]
    rw [← h3, List.drop_zero]
  refine ⟨hslots, ?_, ?_⟩
  · intro hall
    have hnone : fd.slots.filter (fun slot => decide (slot.name = n)) = [] := by
      rw [List.filter_eq_nil_iff]
      intro s hs
      simpa using hall s hs
    have hbegin : Frame.filterator.skip (fun slot => decide (slot.name = n)) fd.slots
        fd.slots.length 0 fd.slots.length = fd.slots.length := by
      by_contra hne
      have hlt : Frame.filterator.skip (fun slot => decide (slot.name = n)) fd.slots
          fd.slots.length 0 fd.slots.length < fd.slots.length := by omega
      have hp := h4 _ (List.getElem?_eq_getElem hlt)
      have hmem := List.getElem_mem hlt
      exact hall _ hmem (by simpa using hp)
    have heq : Frame.Filter.begin (fun slot => decide (slot.name = n)) fd.slots
        = Frame.Filter.end_ (fun slot => decide (slot.name = n)) fd.slots := by
      have hl := hlast
      simp only [Frame.Filter.end_, Frame.filterator.new] at hl
      simp only [Frame.Filter.begin, Frame.Filter.end_, Frame.filterator.new, hbegin, hl]
    refine ⟨heq, ?_, by rw [hslots, hnone]⟩
    rw [heq]
    simp [Frame.filterator.ne]
  · simp only [Frame.iterate, hfd, Option.map_some', Option.some.injEq]
    rw [Frame.iterator.collect_all_slots fd.slots fd.slots.length 0 (Nat.zero_le _) (by omega),
      List.drop_zero]

/-- The filter that `Slots` returns refers to a destroyed predicate, so the loop over it
is undefined for every frame that has a slot, and yields nothing for a frame without
slots. -/
theorem Frame.forSlots_undefined (self : Frame) (fd : FrameDatum) (n : Handle)
    (hfd : self.frame = some fd) :
    (Frame.Slots n []).1.predicate (Frame.Slots n []).2 = none ∧
      (fd.slots ≠ [] → self.forSlots n = none) ∧
      (fd.slots = [] → self.forSlots n = some []) := by
  have hp : (Frame.Slots n []).1.predicate (Frame.Slots n []).2 = none := rfl
  refine ⟨hp, ?_, ?_⟩
  · intro hne
    have hlen : fd.slots.length ≠ 0 := fun h => hne (List.length_eq_zero.mp h)
    simp only [Frame.forSlots, hfd, Frame.Filter.run, hp]
    rw [if_pos hlen]
  · intro he
    simp only [Frame.forSlots, hfd, Frame.Filter.run, hp, he]
    rfl

/-- C17 at its failing input: for the frame of the one-frame store, whose single slot
has the name g7, the filter returned by `Slots(g7)` refers to a predicate that is
destroyed when `Slots` returns, and the loop `for (const Slot &s : f.Slots(g7))` calls
it, so the loop is undefined; with a live predicate it would yield the slot. The full
iteration, which uses no predicate, yields the slot. -/
theorem Frame.Slots_calls_destroyed_predicate :
    (Frame.Slots (Handle.globalRef 7) []).1.predicate (Frame.Slots (Handle.globalRef 7) []).2
        = none ∧
      Frame.forSlots ⟨Example.oneFrameStore, Handle.localRef 0⟩ (Handle.globalRef 7) = none ∧
      Frame.SlotsLive ⟨Example.oneFrameStore, Handle.localRef 0⟩ (Handle.globalRef 7) =
        some [⟨Handle.globalRef 7, Handle.int 1⟩] ∧
      Frame.iterate ⟨Example.oneFrameStore, Handle.localRef 0⟩ =
        some [⟨Handle.globalRef 7, Handle.int 1⟩] := by
  refine ⟨rfl, rfl, by decide, by decide⟩

/-! ## External reference reporting -/

theorem Space.handles_length (slots : List Slot) :
    (Space.handles slots).length = 2 * slots.length := by
  induction slots with
  | nil => rfl
  | cons s rest ih => simp only [Space.handles, List.length_cons, ih]; omega

theorem Space.handles_getElem? :
    ∀ (slots : List Slot) (i : Nat) (sl : Slot), slots[i]? = some sl →
      (Space.handles slots)[2 * i]? = some sl.name ∧
      (Space.handles slots)[2 * i + 1]? = some sl.value := by
  intro slots
  induction slots with
  | nil => intro i sl h; simp at h
  | cons s rest ih =>
    intro i sl h
    cases i with
    | zero =>
      simp only [List.getElem?_cons_zero, Option.some.injEq] at h
      subst h
      simp [Space.handles]
    | succ j =>
      simp only [List.getElem?_cons_succ] at h
      obtain ⟨h1, h2⟩ := ih j sl h
      have e1 : 2 * (j + 1) = (2 * j + 1) + 1 := by omega
      have e2 : 2 * (j + 1) + 1 = ((2 * j + 1) + 1) + 1 := by omega
      refine ⟨?_, ?_⟩
      · rw [e1]; simpa [Space.handles] using h1
      · rw [e2]; simpa [Space.handles] using h2

theorem Space.mem_handles (slots : List Slot) (h : Handle) :
    h ∈ Space.handles slots ↔ ∃ sl ∈ slots, h = sl.name ∨ h = sl.value := by
  induction slots with
  | nil => simp [Space.handles]
  | cons s rest ih =>
    simp only [Space.handles, List.mem_cons, ih, exists_eq_or_imp]
    constructor
    · rintro (h1 | h1 | h1)
      · exact Or.inl (Or.inl h1)
      · exact Or.inl (Or.inr h1)
      · exact Or.inr h1
    · rintro ((h1 | h1) | h1)
      · exact Or.inl h1
      · exact Or.inr (Or.inl h1)
      · exact Or.inr (Or.inr h1)

/-- The handles in a range that starts at the base and ends at the length of
the memory are the whole memory. -/
theorem Range.handles_whole (mem : List Handle) (n : Nat) (hn : n = mem.length) :
    Range.handles { begin := 0, end_ := n } mem = mem := by
  simp [Range.handles, hn]

/-- C20. External reference reporting. For every Builder state with `n` pending
slots, `GetReferences` reports one contiguous range of exactly `2n` handles,
the name and the value of each pending slot in order; so every pending handle
is in the reported range and only pending handles are, in particular no slot
removed by `Delete` and nothing after `Clear`. `Slots` reports twice its size in
handles, `Handles` and `HandleSpace` report exactly their elements. -/
theorem Builder.GetReferences_reports_pending_slots :
    (∀ b : Builder,
      b.GetReferences.end_ - b.GetReferences.begin = 2 * b.slots_.length ∧
      b.GetReferences.handles (Space.handles b.slots_) = Space.handles b.slots_ ∧
      (b.GetReferences.handles (Space.handles b.slots_)).length = 2 * b.slots_.length ∧
      (∀ i sl, b.slots_[i]? = some sl →
        (b.GetReferences.handles (Space.handles b.slots_))[2 * i]? = some sl.name ∧
        (b.GetReferences.handles (Space.handles b.slots_))[2 * i + 1]? = some sl.value) ∧
      (∀ h, h ∈ b.GetReferences.handles (Space.handles b.slots_) ↔
        ∃ sl ∈ b.slots_, h = sl.name ∨ h = sl.value)) ∧
    (∀ (b : Builder) (name : Handle),
      (b.Delete name).GetReferences.handles (Space.handles (b.Delete name).slots_)
        = Space.handles (b.slots_.filter (fun s => decide (s.name ≠ name))) ∧
      b.Clear.GetReferences.handles (Space.handles b.Clear.slots_) = []) ∧
    (∀ v : List Slot,
      (Slots.GetReferences v).end_ - (Slots.GetReferences v).begin = 2 * v.length ∧
      (Slots.GetReferences v).handles (Space.handles v) = Space.handles v) ∧
    (∀ v : List Handle,
      (Handles.GetReferences v).handles v = v ∧ (HandleSpace.GetReferences v).handles v = v) := by
  have hwhole : ∀ b : Builder,
      b.GetReferences.handles (Space.handles b.slots_) = Space.handles b.slots_ := by
    intro b
    apply Range.handles_whole
    simp [Slot.asHandlePtr, Space.handles_length]
  refine ⟨?_, ?_, ?_, ?_⟩
  · intro b
    refine ⟨by simp [Builder.GetReferences, Slot.asHandlePtr], hwhole b, ?_, ?_, ?_⟩
    · rw [hwhole, Space.handles_length]
    · intro i sl h
      rw [hwhole]
      exact Space.handles_getElem? b.slots_ i sl h
    · intro h
      rw [hwhole]
      exact Space.mem_handles b.slots_ h
  · intro b name
    refine ⟨?_, ?_⟩
    · rw [hwhole]
      show Space.handles (Builder.Delete.run name b.slots_) = _
      rw [Builder.Delete.run_eq_filter]
    · rfl
  · intro v
    refine ⟨by simp [Slots.GetReferences, Slot.asHandlePtr], ?_⟩
    apply Range.handles_whole
    simp [Slot.asHandlePtr, Space.handles_length]
  · intro v
    exact ⟨Range.handles_whole v _ (by simp), Range.handles_whole v _ rfl⟩

/-- C20, at a builder with the two pending slots (g7, 1) and (g8, 2): the
first handle of the range is the name of the first slot and the fourth handle
is the value of the second slot. -/
theorem Builder.GetReferences_reports_pending_slots_witness :
    ((Builder.mk Example.emptyStore Handle.nil
        [⟨Handle.globalRef 7, Handle.int 1⟩, ⟨Handle.globalRef 8, Handle.int 2⟩]
      ).GetReferences.handles
        (Space.handles [⟨Handle.globalRef 7, Handle.int 1⟩,
          ⟨Handle.globalRef 8, Handle.int 2⟩]))[2 * 1 + 1]? = some (Handle.int 2) :=
  ((Builder.GetReferences_reports_pending_slots.1
      (Builder.mk Example.emptyStore Handle.nil
        [⟨Handle.globalRef 7, Handle.int 1⟩, ⟨Handle.globalRef 8, Handle.int 2⟩])).2.2.2.1 1
      ⟨Handle.globalRef 8, Handle.int 2⟩ rfl).2

/-! ## Copy and assignment of views -/

theorem Root.mem_insertAfter (list self x : Nat) :
    ∀ (roots : List Nat),
      x ∈ Root.insertAfter list self roots ↔ x ∈ roots ∨ (x = self ∧ list ∈ roots) := by
  intro roots
  induction roots with
  | nil => simp [Root.insertAfter]
  | cons r rest ih =>
    by_cases hr : r = list
    · subst hr
      simp only [Root.insertAfter, if_true, List.mem_cons, true_or, and_true]
      tauto
    · have hne : ¬ list = r := fun e => hr e.symm
      simp only [Root.insertAfter, hr, if_false, List.mem_cons, ih, hne, false_or]
      tauto

/-- Assignment between two different views: the target gets the handle and the
store of the source, it is locked afterwards iff the source is locked, the
source and every other view keep their fields and their lock state. -/
theorem Object.assign_of_ne (m : ViewHeap) (a b : Nat) (oa ob : Object) (hab : a ≠ b)
    (ha : m.objects[a]? = some oa) (hb : m.objects[b]? = some ob) :
    ∃ m1, Object.assign m a b = some m1 ∧
      m1.objects[a]? = some ob ∧ m1.objects[b]? = some ob ∧
      Root.locked m1 a = Root.locked m b ∧ Root.locked m1 b = Root.locked m b ∧
      (∀ c, c ≠ a → m1.objects[c]? = m.objects[c]? ∧ Root.locked m1 c = Root.locked m c) := by
  have hlt : a < m.objects.length := (List.getElem?_eq_some.mp ha).1
  have hba : ¬ b = a := fun e => hab e.symm
  by_cases hl : b ∈ m.roots
  · have hl3 : b ∈ m.roots.filter (fun r => decide (r ≠ a)) := by
      simp [List.mem_filter, hl, hba]
    refine ⟨{ objects := m.objects.set a ob,
              roots := Root.insertAfter b a (m.roots.filter (fun r => decide (r ≠ a))) },
      ?_, ?_, ?_, ?_, ?_, ?_⟩
    · simp [Object.assign, Root.Unlink, Root.locked, Root.Link, ha, hb, hlt, hab,
        List.getElem?_set, hl, hba]
    · simp [List.getElem?_set, hlt]
    · simp [List.getElem?_set, hab, hb]
    · simp [Root.locked, Root.mem_insertAfter, List.mem_filter, hl, hba]
    · simp [Root.locked, Root.mem_insertAfter, List.mem_filter, hl, hba]
    · intro c hc
      have hac : ¬ a = c := fun e => hc e.symm
      refine ⟨by simp [List.getElem?_set, hac], ?_⟩
      simp [Root.locked, Root.mem_insertAfter, List.mem_filter, hc]
  · refine ⟨{ objects := m.objects.set a ob,
              roots := m.roots.filter (fun r => decide (r ≠ a)) }, ?_, ?_, ?_, ?_, ?_, ?_⟩
    · simp [Object.assign, Root.Unlink, Root.locked, ha, hb, hlt, hab,
        List.getElem?_set, hl, hba]
    · simp [List.getElem?_set, hlt]
    · simp [List.getElem?_set, hab, hb]
    · simp [Root.locked, List.mem_filter, hl]
    · simp [Root.locked, List.mem_filter, hl]
    · intro c hc
      have hac : ¬ a = c := fun e => hc e.symm
      refine ⟨by simp [List.getElem?_set, hac], ?_⟩
      simp [Root.locked, List.mem_filter, hc]

/-- Assignment of a view to itself: the fields stay, and the view is not
locked afterwards, whether it was locked before or not. -/
theorem Object.assign_self (m : ViewHeap) (a : Nat) (oa : Object)
    (ha : m.objects[a]? = some oa) :
    ∃ m1, Object.assign m a a = some m1 ∧ m1.objects[a]? = some oa ∧
      Root.locked m1 a = false := by
  have hlt : a < m.objects.length := (List.getElem?_eq_some.mp ha).1
  refine ⟨{ objects := m.objects.set a oa,
            roots := m.roots.filter (fun r => decide (r ≠ a)) }, ?_, ?_, ?_⟩
  · simp [Object.assign, Root.Unlink, Root.locked, ha, hlt, List.getElem?_set,
      List.mem_filter, List.set_set]
  · simp [List.getElem?_set, hlt]
  · simp [Root.locked, List.mem_filter]

/-- A copy constructed view has the handle and the store of its source and is
locked iff the source is locked; the source keeps its fields and lock state. -/
theorem Object.copy_spec (m : ViewHeap) (b : Nat) (ob : Object)
    (hb : m.objects[b]? = some ob) :
    ∃ m1, Object.copy m b = some (m1, m.objects.length) ∧
      m1.objects[m.objects.length]? = some ob ∧ m1.objects[b]? = some ob ∧
      (m.objects.length ∉ m.roots →
        Root.locked m1 m.objects.length = Root.locked m b ∧
        Root.locked m1 b = Root.locked m b) := by
  have hlt : b < m.objects.length := (List.getElem?_eq_some.mp hb).1
  by_cases hl : b ∈ m.roots
  · refine ⟨{ objects := m.objects ++ [ob],
              roots := Root.insertAfter b m.objects.length m.roots }, ?_, ?_, ?_, ?_⟩
    · simp [Object.copy, hb, Root.locked, Root.Link, hl]
    · simp
    · rw [List.getElem?_append_left hlt]; exact hb
    · intro _
      simp [Root.locked, Root.mem_insertAfter, hl]
  · refine ⟨{ objects := m.objects ++ [ob], roots := m.roots }, ?_, ?_, ?_, ?_⟩
    · simp [Object.copy, hb, Root.locked, hl]
    · simp
    · rw [List.getElem?_append_left hlt]; exact hb
    · intro hfresh
      simp [Root.locked, hl, hfresh]

/-- C19 at its failing input: a locked view assigned to itself. Before the
assignment the view at address 0 is locked; after `a = a` it has its handle and
store but is no longer linked in the root list. -/
theorem Object.assign_self_unlocks :
    Root.locked { objects := [⟨⟨1, none⟩, Handle.localRef 0⟩], roots := [0] } 0 = true ∧
    Object.assign { objects := [⟨⟨1, none⟩, Handle.localRef 0⟩], roots := [0] } 0 0
      = some { objects := [⟨⟨1, none⟩, Handle.localRef 0⟩], roots := [] } ∧
    Root.locked { objects := [⟨⟨1, none⟩, Handle.localRef 0⟩], roots := [] } 0 = false := by
  decide

/-! ## Parser::LookupWord -/

theorem Parser.LookupWord.scan_eq (word : List Nat) (acc : Bool) :
    Parser.LookupWord.scan word acc = (acc || word.any Parser.isDigit) := by
  induction word generalizing acc with
  | nil => simp [Parser.LookupWord.scan]
  | cons c rest ih =>
      simp only [Parser.LookupWord.scan, ih, List.any_cons]
      cases Parser.isDigit c <;> simp

theorem Parser.LookupWord.normalize_eq_map (word : List Nat) :
    Parser.LookupWord.normalize word =
      word.map (fun c => if Parser.isDigit c then Parser.nine else c) := by
  induction word with
  | nil => rfl
  | cons c rest ih => simp [Parser.LookupWord.normalize, ih]

theorem Parser.isDigit_nine : Parser.isDigit Parser.nine = true := by decide

/-- C24: Parser::LookupWord returns lexicon.Lookup(w), except when that id is the
out-of-vocabulary id, digit normalisation is enabled and w contains a digit: then it
returns lexicon.Lookup(w') for the word w' of the same length in which every digit of w
is replaced by '9' and every other char is unchanged; and normalising w' again gives
w'. -/
theorem Parser.LookupWord_normalizes_digits (lexicon : List Nat → Int) (oov : Int)
    (normalize_digits : Bool) (word : List Nat) :
    Parser.LookupWord lexicon oov normalize_digits word =
        (if lexicon word = oov ∧ normalize_digits = true ∧
              ∃ c ∈ word, 48 ≤ c ∧ c ≤ 57 then
          lexicon (Parser.LookupWord.normalize word)
        else lexicon word) ∧
      (Parser.LookupWord.normalize word).length = word.length ∧
      (∀ (i : Nat) (h : i < word.length),
        (Parser.LookupWord.normalize word)[i]? =
          some (if 48 ≤ word[i] ∧ word[i] ≤ 57 then 57 else word[i])) ∧
      Parser.LookupWord.normalize (Parser.LookupWord.normalize word) =
        Parser.LookupWord.normalize word := by
  refine ⟨?_, ?_, ?_, ?_⟩
  · have hany : (word.any Parser.isDigit = true) ↔ ∃ c ∈ word, 48 ≤ c ∧ c ≤ 57 := by
      simp [List.any_eq_true, Parser.isDigit]
    simp only [Parser.LookupWord, Parser.LookupWord.scan_eq, Bool.false_or]
    by_cases h1 : lexicon word = oov
    · cases normalize_digits
      · simp [h1]
      · by_cases h3 : ∃ c ∈ word, 48 ≤ c ∧ c ≤ 57
        · have h4 := hany.mpr h3
          simp only [h1, h4, decide_True, Bool.and_self, if_true, true_and, h3,
            and_self]
        · have h4 : word.any Parser.isDigit = false := by
            cases h5 : word.any Parser.isDigit
            · rfl
            · exact absurd (hany.mp h5) h3
          simp [h1, h4, h3]
    · simp [h1]
  · simp [Parser.LookupWord.normalize_eq_map]
  · intro i h
    simp only [Parser.LookupWord.normalize_eq_map, List.getElem?_map,
      List.getElem?_eq_getElem h, Option.map_some', Parser.isDigit, Parser.nine,
      Bool.and_eq_true, decide_eq_true_eq]
  · simp only [Parser.LookupWord.normalize_eq_map, List.map_map]
    apply List.map_congr_left
    intro c _
    simp only [Function.comp]
    by_cases h : Parser.isDigit c = true
    · simp [h, Parser.isDigit_nine]
    · simp [h]

/-! ## Layout of the role features -/

theorem Parser.toInt32_of_fits (x : Int) (h0 : -2147483648 ≤ x) (h1 : x < 2147483648) :
    Parser.toInt32 x = x := by
  unfold Parser.toInt32
  omega

theorem Parser.pair_lt (F R s r : Nat) (hs : s < F) (hr : r < R) : s * R + r < F * R := by
  have h1 : (s + 1) * R ≤ F * R := Nat.mul_le_mul_right R hs
  have h2 : (s + 1) * R = s * R + R := by ring
  omega

theorem Parser.pair_inj (R s r s' r' : Nat) (hr : r < R) (hr' : r' < R)
    (h : s * R + r = s' * R + r') : s = s' ∧ r = r' := by
  rcases lt_trichotomy s s' with hlt | heq | hgt
  · have h1 : (s + 1) * R ≤ s' * R := Nat.mul_le_mul_right R hlt
    have h2 : (s + 1) * R = s * R + R := by ring
    omega
  · subst heq
    exact ⟨rfl, by omega⟩
  · have h1 : (s' + 1) * R ≤ s * R := Nat.mul_le_mul_right R hgt
    have h2 : (s' + 1) * R = s' * R + R := by ring
    omega

theorem Parser.Load.offsets_of_fits (F R : Nat)
    (hfit : 2 * (F * R) + F * F + F * F * R < 2147483648) :
    Parser.Load.offsets F R =
      ⟨0, ((F * R : Nat) : Int), ((2 * (F * R) : Nat) : Int),
        ((2 * (F * R) + F * F : Nat) : Int)⟩ := by
  have e1 : ((F : Int) * (R : Int)) = ((F * R : Nat) : Int) := by push_cast; ring
  have e2 : ((F : Int) * (F : Int)) = ((F * F : Nat) : Int) := by push_cast; ring
  simp only [Parser.Load.offsets, e1, e2]
  generalize F * R = a at *
  generalize F * F = b at *
  have t1 : Parser.toInt32 (a : Int) = a := Parser.toInt32_of_fits _ (by omega) (by omega)
  have t2 : Parser.toInt32 (b : Int) = b := Parser.toInt32_of_fits _ (by omega) (by omega)
  rw [t1, t2, zero_add, t1]
  have t3 : Parser.toInt32 ((a : Int) + a) = ((2 * a : Nat) : Int) := by
    rw [Parser.toInt32_of_fits _ (by omega) (by omega)]; push_cast; ring
  rw [t3]
  have t4 : Parser.toInt32 (((2 * a : Nat) : Int) + b) = ((2 * a + b : Nat) : Int) := by
    rw [Parser.toInt32_of_fits _ (by omega) (by omega)]; push_cast; ring
  rw [t4]

theorem Parser.features_of_fits (F R : Nat)
    (hfit : 2 * (F * R) + F * F + F * F * R < 2147483648)
    (source target role : Nat) (hs : source < F) (ht : target < F) (hr : role < R) :
    Parser.outlinkFeature (Parser.Load.offsets F R) R source role =
        ((source * R + role : Nat) : Int) ∧
      Parser.inlinkFeature (Parser.Load.offsets F R) R target role =
        ((F * R + (target * R + role) : Nat) : Int) ∧
      Parser.unlabeledFeature (Parser.Load.offsets F R) F source target =
        ((2 * (F * R) + (source * F + target) : Nat) : Int) ∧
      Parser.labeledFeature (Parser.Load.offsets F R) F R source target role =
        ((2 * (F * R) + F * F + (source * F * R + target * R + role) : Nat) : Int) := by
  rw [Parser.Load.offsets_of_fits F R hfit]
  have b1 := Parser.pair_lt F R source role hs hr
  have b2 := Parser.pair_lt F R target role ht hr
  have b3 := Parser.pair_lt F F source target hs ht
  have b4 := Parser.pair_lt (F * F) R (source * F + target) role b3 hr
  have e4 : (source * F + target) * R = source * F * R + target * R := by ring
  rw [e4] at b4
  simp only [Parser.outlinkFeature, Parser.inlinkFeature, Parser.unlabeledFeature,
    Parser.labeledFeature]
  refine ⟨?_, ?_, ?_, ?_⟩
  · rw [Parser.toInt32_of_fits ((0 : Int) + (source : Int) * (R : Int)) (by omega) (by omega),
      Parser.toInt32_of_fits _ (by omega) (by omega)]
    omega
  · rw [Parser.toInt32_of_fits _ (by omega) (by omega)]
    omega
  · rw [Parser.toInt32_of_fits _ (by omega) (by omega)]
    omega
  · have hv : ((source : Int) * (F : Int) * (R : Int)) = ((source * F * R : Nat) : Int) := by
      push_cast; ring
    have hq : ((target : Int) * (R : Int)) = ((target * R : Nat) : Int) := by push_cast; ring
    rw [hv, hq]
    clear b1 b2 b3 e4 hv hq
    generalize F * F * R = c at *
    generalize source * F * R = v at *
    generalize F * R = a at *
    generalize F * F = b at *
    generalize target * R = q at *
    rw [Parser.toInt32_of_fits _ (by omega) (by omega)]
    omega

/-- C25, counterexample: with frame_limit = 50000 and 3 roles the product
frame_limit * frame_limit does not fit an int, the labeled link offset that Parser::Load
stores is negative, and the labeled link id of source 0, target 0 and role 0 lies below
its range; with frame_limit = 65536 and one role the unlabeled and the labeled link
offsets coincide, and the unlabeled and the labeled link feature of source 0 and
target 0 share the id 131072. -/
theorem Parser.role_features_overflow_counterexample :
    (Parser.Load.offsets 50000 3).labeled_link_offset_ = -1794667296 ∧
      Parser.labeledFeature (Parser.Load.offsets 50000 3) 50000 3 0 0 0 <
        ((2 * (50000 * 3) + 50000 * 50000 : Nat) : Int) ∧
      Parser.unlabeledFeature (Parser.Load.offsets 65536 1) 65536 0 0 = 131072 ∧
      Parser.labeledFeature (Parser.Load.offsets 65536 1) 65536 1 0 0 0 = 131072 := by
  decide

/-- C25, amended: with F = frame_limit and R roles, whenever the whole role feature space
2*F*R + F*F + F*F*R fits an int, the out-link, in-link, unlabeled and labeled link ids
of source, target < F and role < R lie in the consecutive ranges [0, F*R),
[F*R, 2*F*R), [2*F*R, 2*F*R + F*F) and [2*F*R + F*F, 2*F*R + F*F + F*F*R), and each of
the four encodings is injective. -/
theorem Parser.role_features_layout (F R : Nat)
    (hfit : 2 * (F * R) + F * F + F * F * R < 2147483648) :
    (∀ source target role : Nat, source < F → target < F → role < R →
      (0 ≤ Parser.outlinkFeature (Parser.Load.offsets F R) R source role ∧
        Parser.outlinkFeature (Parser.Load.offsets F R) R source role < ((F * R : Nat) : Int)) ∧
      (((F * R : Nat) : Int) ≤ Parser.inlinkFeature (Parser.Load.offsets F R) R target role ∧
        Parser.inlinkFeature (Parser.Load.offsets F R) R target role <
          ((2 * (F * R) : Nat) : Int)) ∧
      (((2 * (F * R) : Nat) : Int) ≤
          Parser.unlabeledFeature (Parser.Load.offsets F R) F source target ∧
        Parser.unlabeledFeature (Parser.Load.offsets F R) F source target <
          ((2 * (F * R) + F * F : Nat) : Int)) ∧
      (((2 * (F * R) + F * F : Nat) : Int) ≤
          Parser.labeledFeature (Parser.Load.offsets F R) F R source target role ∧
        Parser.labeledFeature (Parser.Load.offsets F R) F R source target role <
          ((2 * (F * R) + F * F + F * F * R : Nat) : Int))) ∧
    (∀ s r s' r' : Nat, s < F → r < R → s' < F → r' < R →
      Parser.outlinkFeature (Parser.Load.offsets F R) R s r =
        Parser.outlinkFeature (Parser.Load.offsets F R) R s' r' → s = s' ∧ r = r') ∧
    (∀ t r t' r' : Nat, t < F → r < R → t' < F → r' < R →
      Parser.inlinkFeature (Parser.Load.offsets F R) R t r =
        Parser.inlinkFeature (Parser.Load.offsets F R) R t' r' → t = t' ∧ r = r') ∧
    (∀ s t s' t' : Nat, s < F → t < F → s' < F → t' < F →
      Parser.unlabeledFeature (Parser.Load.offsets F R) F s t =
        Parser.unlabeledFeature (Parser.Load.offsets F R) F s' t' → s = s' ∧ t = t') ∧
    (∀ s t r s' t' r' : Nat, s < F → t < F → r < R → s' < F → t' < F → r' < R →
      Parser.labeledFeature (Parser.Load.offsets F R) F R s t r =
        Parser.labeledFeature (Parser.Load.offsets F R) F R s' t' r' →
      s = s' ∧ t = t' ∧ r = r') := by
  refine ⟨?_, ?_, ?_, ?_, ?_⟩
  · intro source target role hs ht hr
    obtain ⟨e1, e2, e3, e4⟩ := Parser.features_of_fits F R hfit source target role hs ht hr
    have b1 := Parser.pair_lt F R source role hs hr
    have b2 := Parser.pair_lt F R target role ht hr
    have b3 := Parser.pair_lt F F source target hs ht
    have b4 := Parser.pair_lt (F * F) R (source * F + target) role b3 hr
    have e5 : (source * F + target) * R = source * F * R + target * R := by ring
    rw [e5] at b4
    rw [e1, e2, e3, e4]
    clear e1 e2 e3 e4 e5
    generalize F * F * R = c at *
    generalize source * F * R = v at *
    generalize F * R = a at *
    generalize F * F = b at *
    generalize source * R = p at *
    generalize target * R = q at *
    generalize source * F = u at *
    refine ⟨⟨?_, ?_⟩, ⟨?_, ?_⟩, ⟨?_, ?_⟩, ⟨?_, ?_⟩⟩ <;> omega
  · intro s r s' r' hs hr hs' hr' h
    rw [(Parser.features_of_fits F R hfit s s r hs hs hr).1,
      (Parser.features_of_fits F R hfit s' s' r' hs' hs' hr').1] at h
    exact Parser.pair_inj R s r s' r' hr hr' (by exact_mod_cast h)
  · intro t r t' r' ht hr ht' hr' h
    rw [(Parser.features_of_fits F R hfit t t r ht ht hr).2.1,
      (Parser.features_of_fits F R hfit t' t' r' ht' ht' hr').2.1] at h
    have h2 : F * R + (t * R + r) = F * R + (t' * R + r') := by exact_mod_cast h
    exact Parser.pair_inj R t r t' r' hr hr' (by omega)
  · intro s t s' t' hs ht hs' ht' h
    have hR : 0 < R ∨ R = 0 := by omega
    have k1 : Parser.unlabeledFeature (Parser.Load.offsets F R) F s t =
        ((2 * (F * R) + (s * F + t) : Nat) : Int) := by
      rw [Parser.Load.offsets_of_fits F R hfit]
      have b3 := Parser.pair_lt F F s t hs ht
      simp only [Parser.unlabeledFeature]
      rw [Parser.toInt32_of_fits _ (by omega) (by omega)]
      omega
    have k2 : Parser.unlabeledFeature (Parser.Load.offsets F R) F s' t' =
        ((2 * (F * R) + (s' * F + t') : Nat) : Int) := by
      rw [Parser.Load.offsets_of_fits F R hfit]
      have b3 := Parser.pair_lt F F s' t' hs' ht'
      simp only [Parser.unlabeledFeature]
      rw [Parser.toInt32_of_fits _ (by omega) (by omega)]
      omega
    rw [k1, k2] at h
    have h2 : 2 * (F * R) + (s * F + t) = 2 * (F * R) + (s' * F + t') := by exact_mod_cast h
    exact Parser.pair_inj F s t s' t' ht ht' (by omega)
  · intro s t r s' t' r' hs ht hr hs' ht' hr' h
    rw [(Parser.features_of_fits F R hfit s t r hs ht hr).2.2.2,
      (Parser.features_of_fits F R hfit s' t' r' hs' ht' hr').2.2.2] at h
    have h2 : 2 * (F * R) + F * F + (s * F * R + t * R + r) =
        2 * (F * R) + F * F + (s' * F * R + t' * R + r') := by exact_mod_cast h
    have e5 : (s * F + t) * R = s * F * R + t * R := by ring
    have e6 : (s' * F + t') * R = s' * F * R + t' * R := by ring
    obtain ⟨h3, h4⟩ := Parser.pair_inj R (s * F + t) r (s' * F + t') r' hr hr' (by omega)
    obtain ⟨h5, h6⟩ := Parser.pair_inj F s t s' t' ht ht' h3
    exact ⟨h5, h6, h4⟩

/-- C25, amended, at frame_limit = 5 and 3 roles: the offsets are 0, 15, 30 and 55, and the
labeled link id of source 4, target 4 and role 2 is below the end 130 of its range. -/
theorem Parser.role_features_layout_witness :
    2 * (5 * 3) + 5 * 5 + 5 * 5 * 3 < 2147483648 ∧
      Parser.Load.offsets 5 3 = ⟨0, 15, 30, 55⟩ ∧
      Parser.labeledFeature (Parser.Load.offsets 5 3) 5 3 4 4 2 <
        ((2 * (5 * 3) + 5 * 5 + 5 * 5 * 3 : Nat) : Int) :=
  ⟨by decide, by decide,
    ((Parser.role_features_layout 5 3 (by decide)).1 4 4 2 (by decide) (by decide)
      (by decide)).2.2.2.2⟩

/-! ## Wiring of the LSTMs -/

theorem Parser.Parse.pass_eq_map (wire : Int → Int → Parser.Wire) (n : Nat) :
    ∀ (fuel i : Nat), i + fuel = n →
      Parser.Parse.pass wire n fuel i =
        (List.range' i fuel).map (fun k : Nat => wire n (k : Int)) := by
  intro fuel
  induction fuel with
  | zero => intro i _; simp [Parser.Parse.pass]
  | succ fuel ih =>
      intro i h
      have hi : ((i : Int) < (n : Int)) := by omega
      have h2 := ih (i + 1) (by omega)
      simp only [Parser.Parse.pass, hi, if_true, List.range'_succ, List.map_cons]
      rw [← h2]
      norm_cast

theorem Parser.Parse.lrPass_eq (n : Nat) :
    Parser.Parse.lrPass n =
      (List.range n).map (fun i : Nat => Parser.Parse.lrWire n (i : Int)) := by
  have h := Parser.Parse.pass_eq_map Parser.Parse.lrWire n n 0 (by omega)
  simp only [Parser.Parse.lrPass, Int.toNat_ofNat, List.range_eq_range']
  exact_mod_cast h

theorem Parser.Parse.rlPass_eq (n : Nat) :
    Parser.Parse.rlPass n =
      (List.range n).map (fun i : Nat => Parser.Parse.rlWire n (i : Int)) := by
  have h := Parser.Parse.pass_eq_map Parser.Parse.rlWire n n 0 (by omega)
  simp only [Parser.Parse.rlPass, Int.toNat_ofNat, List.range_eq_range']
  exact_mod_cast h

theorem Parser.Parse.count_written (n : Nat) (f : Nat → Int) (hf : Function.Injective f)
    (hmem : ∀ k : Int, (∃ i, i < n ∧ f i = k) ↔ (0 ≤ k ∧ k < n)) (k : Int) :
    ((List.range n).map f).count k = if 0 ≤ k ∧ k < (n : Int) then 1 else 0 := by
  have hnd : ((List.range n).map f).Nodup := (List.nodup_range n).map hf
  have hm : k ∈ (List.range n).map f ↔ (0 ≤ k ∧ k < n) := by
    rw [← hmem k]
    simp [List.mem_map, List.mem_range]
  by_cases hk : 0 ≤ k ∧ k < (n : Int)
  · rw [if_pos hk]
    exact List.count_eq_one_of_mem hnd (hm.mpr hk)
  · rw [if_neg hk]
    exact List.count_eq_zero_of_not_mem (fun h => hk (hm.mp h))

theorem Parser.Parse.lrPass_getElem (n i : Nat) (h : i < n) :
    (Parser.Parse.lrPass n)[i]? = some ⟨if i = 0 then (n : Int) else (i : Int) - 1, i⟩ := by
  rw [Parser.Parse.lrPass_eq, List.getElem?_map, List.getElem?_range h]
  simp only [Option.map_some', Parser.Parse.lrWire]
  by_cases h0 : i = 0
  · simp [h0]
  · have : (0 : Int) < (i : Int) := by omega
    simp [h0, this]

theorem Parser.Parse.rlPass_getElem (n i : Nat) (h : i < n) :
    (Parser.Parse.rlPass n)[i]? = some ⟨(n : Int) - i, (n : Int) - i - 1⟩ := by
  rw [Parser.Parse.rlPass_eq, List.getElem?_map, List.getElem?_range h]
  simp [Parser.Parse.rlWire]

theorem Parser.Parse.pass_getElem_lt (n i : Nat) (w : Parser.Wire) :
    ((Parser.Parse.lrPass n)[i]? = some w → i < n) ∧
      ((Parser.Parse.rlPass n)[i]? = some w → i < n) := by
  constructor
  · intro h
    by_contra hc
    rw [Parser.Parse.lrPass_eq, List.getElem?_eq_none (by simp; omega)] at h
    exact absurd h (by simp)
  · intro h
    by_contra hc
    rw [Parser.Parse.rlPass_eq, List.getElem?_eq_none (by simp; omega)] at h
    exact absurd h (by simp)

/-- C26: for a sentence of n tokens, step i of the left-to-right pass reads index n when
i = 0 and i - 1 otherwise and writes index i, and step i of the right-to-left pass reads
n - i and writes n - i - 1; every index lies in [0, n], inside the n + 1 activations
allocated; an index read other than n was written by an earlier step of the same pass;
and in each pass every index 0..n-1 is written exactly once and n is never written. -/
theorem Parser.Parse.lstm_wiring (n : Nat) :
    (∀ i : Nat, i < n →
      (Parser.Parse.lrPass n)[i]? = some ⟨if i = 0 then (n : Int) else (i : Int) - 1, i⟩ ∧
      (Parser.Parse.rlPass n)[i]? = some ⟨(n : Int) - i, (n : Int) - i - 1⟩) ∧
    ((Parser.Parse.lrPass n).length = n ∧ (Parser.Parse.rlPass n).length = n) ∧
    (∀ (begin_ : Int) (w : Parser.Wire), w ∈ Parser.Parse.lrPass n ++ Parser.Parse.rlPass n →
      (0 ≤ w.in_ ∧ w.in_ ≤ n ∧ w.in_ < ParserInstance.activations begin_ (begin_ + n)) ∧
      (0 ≤ w.out ∧ w.out ≤ n ∧ w.out < ParserInstance.activations begin_ (begin_ + n))) ∧
    (∀ pass : List Parser.Wire, pass = Parser.Parse.lrPass n ∨ pass = Parser.Parse.rlPass n →
      (∀ (i : Nat) (w : Parser.Wire), pass[i]? = some w → w.in_ ≠ n →
        ∃ (j : Nat) (v : Parser.Wire), j < i ∧ pass[j]? = some v ∧ v.out = w.in_) ∧
      (∀ k : Int, (pass.map Parser.Wire.out).count k = if 0 ≤ k ∧ k < (n : Int) then 1 else 0)) := by
  refine ⟨fun i h => ⟨Parser.Parse.lrPass_getElem n i h, Parser.Parse.rlPass_getElem n i h⟩,
    ⟨by simp [Parser.Parse.lrPass_eq], by simp [Parser.Parse.rlPass_eq]⟩, ?_, ?_⟩
  · intro begin_ w hw
    have hact : ParserInstance.activations begin_ (begin_ + n) = (n : Int) + 1 := by
      simp [ParserInstance.activations]
    rw [hact]
    rw [List.mem_append, Parser.Parse.lrPass_eq, Parser.Parse.rlPass_eq] at hw
    simp only [List.mem_map, List.mem_range] at hw
    rcases hw with ⟨i, hi, rfl⟩ | ⟨i, hi, rfl⟩
    · simp only [Parser.Parse.lrWire]
      split <;> omega
    · simp only [Parser.Parse.rlWire]
      omega
  · intro pass hp
    rcases hp with rfl | rfl
    · constructor
      · intro i w hw hne
        have hi := (Parser.Parse.pass_getElem_lt n i w).1 hw
        rw [Parser.Parse.lrPass_getElem n i hi] at hw
        cases hw
        by_cases h0 : i = 0
        · simp [h0] at hne
        · refine ⟨i - 1, _, by omega, Parser.Parse.lrPass_getElem n (i - 1) (by omega), ?_⟩
          simp only [h0, if_false]
          omega
      · intro k
        rw [Parser.Parse.lrPass_eq, List.map_map]
        exact Parser.Parse.count_written n _ (fun a b h => by simpa [Parser.Parse.lrWire] using h)
          (fun k => by
            simp only [Function.comp, Parser.Parse.lrWire]
            constructor
            · rintro ⟨i, hi, rfl⟩; omega
            · intro hk; exact ⟨k.toNat, by omega, by omega⟩) k
    · constructor
      · intro i w hw hne
        have hi := (Parser.Parse.pass_getElem_lt n i w).2 hw
        rw [Parser.Parse.rlPass_getElem n i hi] at hw
        cases hw
        have h0 : i ≠ 0 := by
          intro h0
          apply hne
          simp [h0]
        refine ⟨i - 1, _, by omega, Parser.Parse.rlPass_getElem n (i - 1) (by omega), ?_⟩
        simp only
        omega
      · intro k
        rw [Parser.Parse.rlPass_eq, List.map_map]
        exact Parser.Parse.count_written n _
          (fun a b h => by
            simp only [Function.comp, Parser.Parse.rlWire] at h
            omega)
          (fun k => by
            simp only [Function.comp, Parser.Parse.rlWire]
            constructor
            · rintro ⟨i, hi, rfl⟩; omega
            · intro hk; exact ⟨(n - 1 - k).toNat, by omega, by omega⟩) k

/-! ## The focus feature -/

theorem ParserInstance.ExtractFeaturesFF.focus_of_begin_zero (current end_ : Int) :
    ParserInstance.ExtractFeaturesFF.focus current 0 end_ =
      if current = end_ then -1 else current - 0 := by
  simp [ParserInstance.ExtractFeaturesFF.focus]

theorem ParserInstance.ExtractFeaturesFF.focus_of_begin_pos (current begin_ end_ : Int)
    (hb : 0 < begin_) (hc : current ≤ end_) :
    ParserInstance.ExtractFeaturesFF.focus current begin_ end_ = current - begin_ := by
  have h : ¬ (current - begin_ = end_) := by omega
  simp [ParserInstance.ExtractFeaturesFF.focus, h]

/-- C27: for the sentence over the tokens [3, 5) of a document, with the parser state at
the end of the sentence (current = end = 5), ExtractFeaturesFF sets the focus features
to 2 = end - begin, which is neither -1 nor an index in [0, end - begin): the test
current == state.end() compares the sentence-relative index with a document position. -/
theorem ParserInstance.ExtractFeaturesFF.focus_at_end_of_later_sentence :
    ParserInstance.ExtractFeaturesFF.focus 5 3 5 = 2 ∧
      ParserInstance.ExtractFeaturesFF.focus 5 3 5 ≠ -1 ∧
      ¬ (ParserInstance.ExtractFeaturesFF.focus 5 3 5 < 5 - 3) ∧
      ParserInstance.ExtractFeaturesFF.focus 5 0 5 = -1 := by
  decide

/-! ## Prediction of the next action -/

theorem Parser.Score.gt_ninf_of_gt {α : Type} [LinearOrder α] (s m : Parser.Score α)
    (h : s.gt m = true) : s.gt Parser.Score.ninf = true := by
  cases s <;> cases m <;> simp_all [Parser.Score.gt]

theorem Parser.Score.not_gt_of_gt {α : Type} [LinearOrder α] (s m y : Parser.Score α)
    (hs : s.gt m = true) (hy : y.gt m = false) : y.gt s = false ∧ y ≠ s := by
  cases s <;> cases m <;> cases y <;> simp_all [Parser.Score.gt]
  all_goals
    constructor
    · exact le_of_lt (lt_of_le_of_lt hy hs)
    · intro e
      subst e
      exact absurd hs (not_lt_of_le hy)

theorem Parser.Parse.predict.getElem?_snoc {α : Type} (pre : List α) (s y : α) (b : Nat)
    (h : (pre ++ [s])[b]? = some y) :
    (b < pre.length ∧ pre[b]? = some y) ∨ (b = pre.length ∧ y = s) := by
  rcases Nat.lt_trichotomy b pre.length with hlt | heq | hgt
  · left
    rw [List.getElem?_append_left hlt] at h
    exact ⟨hlt, h⟩
  · right
    subst heq
    simp at h
    exact ⟨rfl, h.symm⟩
  · rw [List.getElem?_eq_none (by simp; omega)] at h
    exact absurd h (by simp)

theorem Parser.Parse.predict.Inv_step {α : Type} [LinearOrder α] (CanApply : Nat → Bool)
    (pre : List (Parser.Score α)) (s : Parser.Score α) (p : Nat) (m : Parser.Score α)
    (h : Parser.Parse.predict.Inv CanApply pre p m) :
    ((s.gt m = true ∧ CanApply pre.length = true) →
      Parser.Parse.predict.Inv CanApply (pre ++ [s]) pre.length s) ∧
    (¬ (s.gt m = true ∧ CanApply pre.length = true) →
      Parser.Parse.predict.Inv CanApply (pre ++ [s]) p m) := by
  obtain ⟨hmax, hcase⟩ := h
  constructor
  · rintro ⟨habove, hcan⟩
    refine ⟨?_, Or.inr ⟨Parser.Score.gt_ninf_of_gt s m habove, by simp, hcan, by simp, ?_⟩⟩
    · intro b y hb hcb
      rcases Parser.Parse.predict.getElem?_snoc pre s y b hb with ⟨_, hy⟩ | ⟨_, rfl⟩
      · exact (Parser.Score.not_gt_of_gt s m y habove (hmax b y hy hcb)).1
      · cases y <;> simp [Parser.Score.gt]
    · intro b y hb hcb hys
      rcases Parser.Parse.predict.getElem?_snoc pre s y b hb with ⟨_, hy⟩ | ⟨hbl, _⟩
      · exact absurd hys (Parser.Score.not_gt_of_gt s m y habove (hmax b y hy hcb)).2
      · exact le_of_eq hbl.symm
  · intro hn
    have hnew : ∀ (b : Nat) (y : Parser.Score α), (pre ++ [s])[b]? = some y →
        CanApply b = true → y.gt m = false := by
      intro b y hb hcb
      rcases Parser.Parse.predict.getElem?_snoc pre s y b hb with ⟨_, hy⟩ | ⟨rfl, rfl⟩
      · exact hmax b y hy hcb
      · cases hg : y.gt m
        · rfl
        · exact absurd ⟨hg, hcb⟩ hn
    refine ⟨hnew, ?_⟩
    rcases hcase with ⟨h1, h2⟩ | ⟨h1, h2, h3, h4, h5⟩
    · exact Or.inl ⟨h1, h2⟩
    · refine Or.inr ⟨h1, by simp; omega, h3, by rw [List.getElem?_append_left h2]; exact h4, ?_⟩
      intro b y hb hcb hym
      rcases Parser.Parse.predict.getElem?_snoc pre s y b hb with ⟨_, hy⟩ | ⟨hbl, _⟩
      · exact h5 b y hy hcb hym
      · omega

theorem Parser.Parse.predict.loop_Inv {α : Type} [LinearOrder α] (CanApply : Nat → Bool)
    (rest : List (Parser.Score α)) :
    ∀ (pre : List (Parser.Score α)) (p : Nat) (m : Parser.Score α),
      Parser.Parse.predict.Inv CanApply pre p m →
      ∃ m2, Parser.Parse.predict.Inv CanApply (pre ++ rest)
        (Parser.Parse.predict.loop CanApply rest pre.length p m) m2 := by
  induction rest with
  | nil =>
      intro pre p m h
      exact ⟨m, by simpa [Parser.Parse.predict.loop] using h⟩
  | cons s rest ih =>
      intro pre p m h
      have hstep := Parser.Parse.predict.Inv_step CanApply pre s p m h
      have hlen : (pre ++ [s]).length = pre.length + 1 := by simp
      have happ : pre ++ s :: rest = (pre ++ [s]) ++ rest := by simp
      rw [happ]
      by_cases hc : (s.gt m = true ∧ CanApply pre.length = true)
      · have h2 := ih (pre ++ [s]) pre.length s (hstep.1 hc)
        rw [hlen] at h2
        simpa [Parser.Parse.predict.loop, hc.1, hc.2] using h2
      · have h2 := ih (pre ++ [s]) p m (hstep.2 hc)
        rw [hlen] at h2
        by_cases ha : s.gt m = true
        · have hcan : CanApply pre.length = false := by
            cases hcc : CanApply pre.length
            · rfl
            · exact absurd ⟨ha, hcc⟩ hc
          simpa [Parser.Parse.predict.loop, ha, hcan] using h2
        · simpa [Parser.Parse.predict.loop, ha] using h2

theorem Parser.Parse.predict_Inv {α : Type} [LinearOrder α] (CanApply : Nat → Bool)
    (output : List (Parser.Score α)) :
    ∃ m, Parser.Parse.predict.Inv CanApply output (Parser.Parse.predict CanApply output) m := by
  have h := Parser.Parse.predict.loop_Inv CanApply output [] 0 Parser.Score.ninf
    ⟨fun b y hb _ => absurd hb (by simp), Or.inl ⟨rfl, rfl⟩⟩
  simpa [Parser.Parse.predict] using h

/-- C28, counterexample: with the scores 5.0 and -INFINITY and a parser state in which
action 1 is the only applicable action, the comparison output[1] > max_score is false
for max_score = -INFINITY, and Parser::Parse applies action 0, which the state cannot
apply. -/
theorem Parser.Parse.predict_inapplicable_counterexample :
    Parser.Parse.predict (fun a => decide (a = 1))
        [Parser.Score.fin (5 : Int), Parser.Score.ninf] = 0 ∧
      (fun a : Nat => decide (a = 1)) 1 = true ∧
      (fun a : Nat => decide (a = 1)) (Parser.Parse.predict (fun a => decide (a = 1))
        [Parser.Score.fin (5 : Int), Parser.Score.ninf]) = false := by
  decide

/-- C28, amended: for every score vector, if some applicable action has a score above
-INFINITY (a score that is neither -INFINITY nor NaN), the action Parser::Parse applies
is applicable, its score is above -INFINITY and no applicable action scores above it,
the lowest index winning among equal scores; if no applicable action has a score above
-INFINITY, action 0 is applied. -/
theorem Parser.Parse.predict_applies_best_applicable {α : Type} [LinearOrder α]
    (CanApply : Nat → Bool) (output : List (Parser.Score α)) :
    ((∃ (a : Nat) (y : Parser.Score α), output[a]? = some y ∧ CanApply a = true ∧
        y.gt Parser.Score.ninf = true) →
      Parser.Parse.predict CanApply output < output.length ∧
      CanApply (Parser.Parse.predict CanApply output) = true ∧
      ∃ x : Parser.Score α, output[Parser.Parse.predict CanApply output]? = some x ∧
        x.gt Parser.Score.ninf = true ∧
        ∀ (b : Nat) (y : Parser.Score α), output[b]? = some y → CanApply b = true →
          y.gt x = false ∧ (y = x → Parser.Parse.predict CanApply output ≤ b)) ∧
    ((∀ (a : Nat) (y : Parser.Score α), output[a]? = some y → CanApply a = true →
        y.gt Parser.Score.ninf = false) →
      Parser.Parse.predict CanApply output = 0) := by
  obtain ⟨m, hmax, hcase⟩ := Parser.Parse.predict_Inv CanApply output
  constructor
  · rintro ⟨a, y, hy, hca, hgt⟩
    rcases hcase with ⟨h1, _⟩ | ⟨h1, h2, h3, h4, h5⟩
    · have := hmax a y hy hca
      rw [h1, hgt] at this
      exact absurd this (by simp)
    · exact ⟨h2, h3, m, h4, h1, fun b z hz hcb => ⟨hmax b z hz hcb, h5 b z hz hcb⟩⟩
  · intro hall
    rcases hcase with ⟨_, h2⟩ | ⟨h1, _, h3, h4, _⟩
    · exact h2
    · have := hall _ m h4 h3
      rw [h1] at this
      exact absurd this (by simp)

/-- C28, amended, at the scores NaN, 5, 5, 2 with every action but action 0 applicable:
action 1 is applied, the first of the two applicable actions with the highest score. -/
theorem Parser.Parse.predict_applies_best_applicable_witness :
    Parser.Parse.predict (fun a => decide (a ≠ 0))
        [Parser.Score.nan, Parser.Score.fin (5 : Int), Parser.Score.fin 5,
          Parser.Score.fin 2] = 1 ∧
      (fun a => decide (a ≠ 0)) (Parser.Parse.predict (fun a => decide (a ≠ 0))
        [Parser.Score.nan, Parser.Score.fin (5 : Int), Parser.Score.fin 5,
          Parser.Score.fin 2]) = true :=
  ⟨by decide,
    ((Parser.Parse.predict_applies_best_applicable (fun a => decide (a ≠ 0))
      [Parser.Score.nan, Parser.Score.fin (5 : Int), Parser.Score.fin 5,
        Parser.Score.fin 2]).1 ⟨1, _, rfl, by decide, by decide⟩).2.1⟩

/-! ## History and role features -/

theorem ParserInstance.ExtractFeaturesFF.historySteps_spec (size : Nat) :
    ∀ (fuel : Nat) (hist : List Int) (h : Nat) (s : Int),
      size - h ≤ fuel → h ≤ size → hist.length = size →
      (ParserInstance.ExtractFeaturesFF.historySteps size fuel hist h s).1.length = size ∧
      (ParserInstance.ExtractFeaturesFF.historySteps size fuel hist h s).2 =
        min size (h + (s + 1).toNat) ∧
      ∀ i : Nat, i < size →
        (ParserInstance.ExtractFeaturesFF.historySteps size fuel hist h s).1[i]? =
          if h ≤ i ∧ (i : Int) - h ≤ s then some (s - ((i : Int) - h)) else hist[i]? := by
  intro fuel
  induction fuel with
  | zero =>
      intro hist h s hf hh hl
      have hsz : h = size := by omega
      refine ⟨hl, by simp only [ParserInstance.ExtractFeaturesFF.historySteps]; omega, ?_⟩
      intro i hi
      have : ¬ (h ≤ i ∧ (i : Int) - h ≤ s) := by omega
      rw [if_neg this]
      simp only [ParserInstance.ExtractFeaturesFF.historySteps]
  | succ fuel ih =>
      intro hist h s hf hh hl
      by_cases hc : h < size ∧ s ≥ 0
      · obtain ⟨h1, h2, h3⟩ := ih (hist.set h s) (h + 1) (s - 1) (by omega) (by omega)
          (by simp [hl])
        simp only [ParserInstance.ExtractFeaturesFF.historySteps, hc, and_self, if_true]
        refine ⟨h1, by rw [h2]; omega, ?_⟩
        intro i hi
        rw [h3 i hi]
        by_cases hih : i = h
        · subst hih
          have e1 : ¬ (i + 1 ≤ i ∧ (i : Int) - ((i + 1 : Nat) : Int) ≤ s - 1) := by omega
          have e2 : (i ≤ i ∧ (i : Int) - (i : Int) ≤ s) := by omega
          rw [if_neg e1, if_pos e2, List.getElem?_set_self (by omega)]
          simp
        · rw [List.getElem?_set_ne (fun e => hih e.symm)]
          by_cases hb : h ≤ i ∧ (i : Int) - h ≤ s
          · have e1 : (h + 1 ≤ i ∧ (i : Int) - ((h + 1 : Nat) : Int) ≤ s - 1) := by omega
            rw [if_pos e1, if_pos hb]
            congr 1
            omega
          · have e1 : ¬ (h + 1 ≤ i ∧ (i : Int) - ((h + 1 : Nat) : Int) ≤ s - 1) := by omega
            rw [if_neg e1, if_neg hb]
      · simp only [ParserInstance.ExtractFeaturesFF.historySteps, hc, if_false]
        refine ⟨hl, by omega, ?_⟩
        intro i hi
        have : ¬ (h ≤ i ∧ (i : Int) - h ≤ s) := by omega
        rw [if_neg this]

theorem ParserInstance.ExtractFeaturesFF.historyFill_spec (size : Nat) :
    ∀ (fuel : Nat) (hist : List Int) (h : Nat),
      size - h ≤ fuel → hist.length = size →
      (ParserInstance.ExtractFeaturesFF.historyFill size fuel hist h).length = size ∧
      ∀ i : Nat, i < size →
        (ParserInstance.ExtractFeaturesFF.historyFill size fuel hist h)[i]? =
          if h ≤ i then some (-2) else hist[i]? := by
  intro fuel
  induction fuel with
  | zero =>
      intro hist h hf hl
      refine ⟨hl, ?_⟩
      intro i hi
      have : ¬ (h ≤ i) := by omega
      simp [ParserInstance.ExtractFeaturesFF.historyFill, this]
  | succ fuel ih =>
      intro hist h hf hl
      by_cases hc : h < size
      · obtain ⟨h1, h3⟩ := ih (hist.set h (-2)) (h + 1) (by omega) (by simp [hl])
        simp only [ParserInstance.ExtractFeaturesFF.historyFill, hc, if_true]
        refine ⟨h1, ?_⟩
        intro i hi
        rw [h3 i hi]
        by_cases hih : i = h
        · subst hih
          have e1 : ¬ (i + 1 ≤ i) := by omega
          rw [if_neg e1, if_pos (le_refl i), List.getElem?_set_self (by omega)]
        · rw [List.getElem?_set_ne (fun e => hih e.symm)]
          by_cases hb : h ≤ i
          · rw [if_pos (show h + 1 ≤ i by omega), if_pos hb]
          · rw [if_neg (show ¬ (h + 1 ≤ i) by omega), if_neg hb]
      · simp only [ParserInstance.ExtractFeaturesFF.historyFill, hc, if_false]
        refine ⟨hl, ?_⟩
        intro i hi
        rw [if_neg (show ¬ (h ≤ i) by omega)]

theorem ParserInstance.ExtractFeaturesFF.history_spec (size : Nat) (step : Int)
    (hist : List Int) (hl : hist.length = size) (i : Nat) (hi : i < size) :
    (ParserInstance.ExtractFeaturesFF.history size step hist)[i]? =
      some (if (i : Int) < step then step - 1 - i else -2) := by
  obtain ⟨h1, h2, h3⟩ := ParserInstance.ExtractFeaturesFF.historySteps_spec size size hist 0
    (step - 1) (by omega) (by omega) hl
  obtain ⟨_, h5⟩ := ParserInstance.ExtractFeaturesFF.historyFill_spec size size
    (ParserInstance.ExtractFeaturesFF.historySteps size size hist 0 (step - 1)).1
    (ParserInstance.ExtractFeaturesFF.historySteps size size hist 0 (step - 1)).2
    (by omega) h1
  simp only [ParserInstance.ExtractFeaturesFF.history]
  rw [h5 i hi, h2, h3 i hi]
  by_cases hs : (i : Int) < step
  · have e1 : ¬ (min size (0 + (step - 1 + 1).toNat) ≤ i) := by omega
    have e2 : (0 ≤ i ∧ (i : Int) - ((0 : Nat) : Int) ≤ step - 1) := by omega
    rw [if_neg e1, if_pos e2, if_pos hs]
    congr 1
  · have e1 : (min size (0 + (step - 1 + 1).toNat) ≤ i) := by omega
    rw [if_pos e1, if_neg hs]

theorem ParserInstance.ExtractFeaturesFF.roleSlot_eq_puts (p : Parser.RoleConfig)
    (st : ParserState.Frames) (entries : List (Int × Int)) (source : Int)
    (a : ParserInstance.RoleArray) (slot : Slot) :
    ParserInstance.ExtractFeaturesFF.roleSlot p st entries source a slot =
      (ParserInstance.ExtractFeaturesFF.slotFeatures p st entries source slot).foldl
        (ParserInstance.RoleArray.put p.max_roles_) a := by
  unfold ParserInstance.ExtractFeaturesFF.roleSlot
    ParserInstance.ExtractFeaturesFF.slotFeatures
  cases p.roles_ slot.name with
  | none => rfl
  | some role =>
      cases st.IsIndex slot.value with
      | false => simp
      | true =>
          cases ParserInstance.ExtractFeaturesFF.find entries (st.AsIndex slot.value) with
          | none => simp
          | some target => simp

theorem ParserInstance.ExtractFeaturesFF.roleSlots_eq_puts (p : Parser.RoleConfig)
    (st : ParserState.Frames) (entries : List (Int × Int)) (source : Int)
    (slots : List Slot) :
    ∀ a : ParserInstance.RoleArray,
      slots.foldl (ParserInstance.ExtractFeaturesFF.roleSlot p st entries source) a =
        ((slots.map
          (ParserInstance.ExtractFeaturesFF.slotFeatures p st entries source)).flatten).foldl
          (ParserInstance.RoleArray.put p.max_roles_) a := by
  induction slots with
  | nil => intro a; rfl
  | cons slot rest ih =>
      intro a
      simp only [List.foldl_cons, List.map_cons, List.flatten_cons, List.foldl_append, ih,
        ParserInstance.ExtractFeaturesFF.roleSlot_eq_puts]

theorem ParserInstance.ExtractFeaturesFF.roleFrames_eq_puts (p : Parser.RoleConfig)
    (st : ParserState.Frames) (entries : List (Int × Int)) (rest : List (Int × Int)) :
    ∀ a : ParserInstance.RoleArray,
      ParserInstance.ExtractFeaturesFF.roleFrames p st entries rest a =
        (ParserInstance.ExtractFeaturesFF.features p st entries rest).foldl
          (ParserInstance.RoleArray.put p.max_roles_) a := by
  induction rest with
  | nil => intro a; rfl
  | cons kv rest ih =>
      intro a
      simp only [ParserInstance.ExtractFeaturesFF.roleFrames,
        ParserInstance.ExtractFeaturesFF.features, List.foldl_append, ih,
        ParserInstance.ExtractFeaturesFF.roleSlots_eq_puts]

theorem ParserInstance.RoleArray.puts_spec (max_roles : Nat) (xs : List Int) :
    ∀ a : ParserInstance.RoleArray, a.Ok max_roles →
      (xs.foldl (ParserInstance.RoleArray.put max_roles) a).Ok max_roles ∧
      (xs.foldl (ParserInstance.RoleArray.put max_roles) a).r =
        min max_roles (a.r + xs.length) ∧
      ∀ i : Nat, (xs.foldl (ParserInstance.RoleArray.put max_roles) a).roles[i]? =
        if a.r ≤ i ∧ i < min max_roles (a.r + xs.length) then xs[i - a.r]?
        else a.roles[i]? := by
  induction xs with
  | nil =>
      intro a ha
      refine ⟨ha, by simp only [List.foldl_nil, List.length_nil]; have := ha.1; omega, ?_⟩
      intro i
      have : ¬ (a.r ≤ i ∧ i < min max_roles (a.r + ([] : List Int).length)) := by
        simp only [List.length_nil]; omega
      rw [if_neg this]; rfl
  | cons x xs ih =>
      intro a ha
      obtain ⟨h1, h2, h3⟩ := ha
      by_cases hc : a.r < max_roles
      · have hput : ParserInstance.RoleArray.put max_roles a x =
            ⟨a.roles.set a.r x, a.r + 1, a.writes ++ [a.r]⟩ := by
          simp [ParserInstance.RoleArray.put, hc]
        have hok : (ParserInstance.RoleArray.put max_roles a x).Ok max_roles := by
          rw [hput]
          exact ⟨hc, by simp [h2], by simp [h3, List.range_succ]⟩
        obtain ⟨k1, k2, k3⟩ := ih _ hok
        simp only [List.foldl_cons]
        refine ⟨k1, by rw [k2, hput]; simp only [List.length_cons]; omega, ?_⟩
        intro i
        rw [k3 i, hput]
        simp only [List.length_cons]
        by_cases hi : i = a.r
        · subst hi
          have e1 : ¬ (a.r + 1 ≤ a.r ∧ a.r < min max_roles (a.r + 1 + xs.length)) := by omega
          have e2 : (a.r ≤ a.r ∧ a.r < min max_roles (a.r + (xs.length + 1))) := by omega
          rw [if_neg e1, if_pos e2, List.getElem?_set_self (by omega)]
          simp
        · rw [List.getElem?_set_ne (fun e => hi e.symm)]
          by_cases hb : a.r ≤ i ∧ i < min max_roles (a.r + (xs.length + 1))
          · have e1 : (a.r + 1 ≤ i ∧ i < min max_roles (a.r + 1 + xs.length)) := by omega
            rw [if_pos e1, if_pos hb]
            have e3 : i - a.r = (i - (a.r + 1)) + 1 := by omega
            rw [e3, List.getElem?_cons_succ]
          · have e1 : ¬ (a.r + 1 ≤ i ∧ i < min max_roles (a.r + 1 + xs.length)) := by omega
            rw [if_neg e1, if_neg hb]
      · have hput : ParserInstance.RoleArray.put max_roles a x = a := by
          simp [ParserInstance.RoleArray.put, hc]
        obtain ⟨k1, k2, k3⟩ := ih a ⟨h1, h2, h3⟩
        simp only [List.foldl_cons, hput]
        refine ⟨k1, by rw [k2]; simp only [List.length_cons]; omega, ?_⟩
        intro i
        rw [k3 i]
        simp only [List.length_cons]
        have e1 : ¬ (a.r ≤ i ∧ i < min max_roles (a.r + xs.length)) := by omega
        have e2 : ¬ (a.r ≤ i ∧ i < min max_roles (a.r + (xs.length + 1))) := by omega
        rw [if_neg e1, if_neg e2]

theorem ParserInstance.ExtractFeaturesFF.roleFill_spec (max_roles : Nat) :
    ∀ (fuel : Nat) (a : ParserInstance.RoleArray), max_roles - a.r ≤ fuel →
      a.Ok max_roles →
      (ParserInstance.ExtractFeaturesFF.roleFill max_roles fuel a).Ok max_roles ∧
      (ParserInstance.ExtractFeaturesFF.roleFill max_roles fuel a).r = max_roles ∧
      ∀ i : Nat, i < max_roles →
        (ParserInstance.ExtractFeaturesFF.roleFill max_roles fuel a).roles[i]? =
          if a.r ≤ i then some (-2) else a.roles[i]? := by
  intro fuel
  induction fuel with
  | zero =>
      intro a hf ha
      have := ha.1
      refine ⟨ha, by simp only [ParserInstance.ExtractFeaturesFF.roleFill]; omega, ?_⟩
      intro i hi
      rw [if_neg (show ¬ (a.r ≤ i) by omega)]
      rfl
  | succ fuel ih =>
      intro a hf ha
      obtain ⟨h1, h2, h3⟩ := ha
      by_cases hc : a.r < max_roles
      · have hok : ParserInstance.RoleArray.Ok max_roles
            ⟨a.roles.set a.r (-2), a.r + 1, a.writes ++ [a.r]⟩ :=
          ⟨hc, by simp [h2], by simp [h3, List.range_succ]⟩
        obtain ⟨k1, k2, k3⟩ := ih _ (by simp only; omega) hok
        simp only [ParserInstance.ExtractFeaturesFF.roleFill, hc, if_true]
        refine ⟨k1, k2, ?_⟩
        intro i hi
        rw [k3 i hi]
        by_cases hih : i = a.r
        · subst hih
          rw [if_neg (show ¬ (a.r + 1 ≤ a.r) by omega), if_pos (le_refl _),
            List.getElem?_set_self (by omega)]
        · rw [List.getElem?_set_ne (fun e => hih e.symm)]
          by_cases hb : a.r ≤ i
          · rw [if_pos (show a.r + 1 ≤ i by omega), if_pos hb]
          · rw [if_neg (show ¬ (a.r + 1 ≤ i) by omega), if_neg hb]
      · simp only [ParserInstance.ExtractFeaturesFF.roleFill, hc, if_false]
        refine ⟨⟨h1, h2, h3⟩, by omega, ?_⟩
        intro i hi
        rw [if_neg (show ¬ (a.r ≤ i) by omega)]

/-- C29: ExtractFeaturesFF writes the role feature array, of max_roles entries, only at
indices below max_roles, each of them once; entry i is the i-th feature the loops reach
while there is one, and -2 otherwise, so the features occupy a prefix and the rest is
-2; and entry h of the history array, of history_size entries, is step - 1 - h when
h < step and -2 otherwise. -/
theorem ParserInstance.ExtractFeaturesFF.roles_and_history_fully_written
    (p : Parser.RoleConfig) (st : ParserState.Frames) (entries : List (Int × Int))
    (roles : List Int) (hroles : roles.length = p.max_roles_)
    (history_size : Nat) (step : Int) (history : List Int)
    (hhistory : history.length = history_size) :
    (∀ i : Nat, i ∈ (ParserInstance.ExtractFeaturesFF.roles p st entries roles).writes →
      i < p.max_roles_) ∧
    (ParserInstance.ExtractFeaturesFF.roles p st entries roles).writes =
      List.range p.max_roles_ ∧
    (ParserInstance.ExtractFeaturesFF.roles p st entries roles).roles.length =
      p.max_roles_ ∧
    (∀ i : Nat, i < p.max_roles_ →
      (ParserInstance.ExtractFeaturesFF.roles p st entries roles).roles[i]? =
        if i < (ParserInstance.ExtractFeaturesFF.features p st entries entries).length then
          (ParserInstance.ExtractFeaturesFF.features p st entries entries)[i]?
        else some (-2)) ∧
    (∀ h : Nat, h < history_size →
      (ParserInstance.ExtractFeaturesFF.history history_size step history)[h]? =
        some (if (h : Int) < step then step - 1 - h else -2)) := by
  have hok0 : ParserInstance.RoleArray.Ok p.max_roles_ ⟨roles, 0, []⟩ :=
    ⟨Nat.zero_le _, hroles, rfl⟩
  obtain ⟨h1, h2, h3⟩ := ParserInstance.RoleArray.puts_spec p.max_roles_
    (ParserInstance.ExtractFeaturesFF.features p st entries entries) _ hok0
  obtain ⟨k1, k2, k3⟩ := ParserInstance.ExtractFeaturesFF.roleFill_spec p.max_roles_
    p.max_roles_ _ (Nat.sub_le _ _) h1
  have hw : (ParserInstance.ExtractFeaturesFF.roles p st entries roles).writes =
      List.range p.max_roles_ := by
    unfold ParserInstance.ExtractFeaturesFF.roles
    rw [ParserInstance.ExtractFeaturesFF.roleFrames_eq_puts, k1.2.2, k2]
  refine ⟨?_, hw, ?_, ?_, ?_⟩
  · intro i hi
    rw [hw] at hi
    exact List.mem_range.mp hi
  · unfold ParserInstance.ExtractFeaturesFF.roles
    rw [ParserInstance.ExtractFeaturesFF.roleFrames_eq_puts]
    exact k1.2.1
  · intro i hi
    unfold ParserInstance.ExtractFeaturesFF.roles
    rw [ParserInstance.ExtractFeaturesFF.roleFrames_eq_puts, k3 i hi, h2, h3 i]
    simp only [Nat.zero_add, Nat.zero_le, true_and, Nat.sub_zero]
    by_cases hb : i < (ParserInstance.ExtractFeaturesFF.features p st entries entries).length
    · rw [if_neg (show ¬ (min p.max_roles_
        (ParserInstance.ExtractFeaturesFF.features p st entries entries).length ≤ i) by omega),
        if_pos (show i < min p.max_roles_
          (ParserInstance.ExtractFeaturesFF.features p st entries entries).length by omega),
        if_pos hb]
    · rw [if_pos (show (min p.max_roles_
        (ParserInstance.ExtractFeaturesFF.features p st entries entries).length ≤ i) by omega),
        if_neg hb]
  · intro h hh
    exact ParserInstance.ExtractFeaturesFF.history_spec history_size step history hhistory h hh

/-- C29, at a parser with one role and max_roles = 3: with two frames in attention the
three entries are written once each; with one frame the array is one feature followed
by -2, -2; and the history at step 1 with history_size = 2 is 0, -2. -/
theorem ParserInstance.ExtractFeaturesFF.roles_and_history_fully_written_witness :
    [(0 : Int), 0, 0].length = Example.roleConfig.max_roles_ ∧
      [(7 : Int), 7].length = 2 ∧
      (ParserInstance.ExtractFeaturesFF.roles Example.roleConfig Example.stateFrames
        [(4, 0), (9, 1)] [0, 0, 0]).writes = List.range Example.roleConfig.max_roles_ ∧
      (ParserInstance.ExtractFeaturesFF.roles Example.roleConfig Example.stateFrames
        [(4, 0)] [0, 0, 0]).roles = [0, -2, -2] ∧
      ParserInstance.ExtractFeaturesFF.history 2 1 [7, 7] = [0, -2] :=
  ⟨rfl, rfl,
    (ParserInstance.ExtractFeaturesFF.roles_and_history_fully_written Example.roleConfig
      Example.stateFrames [(4, 0), (9, 1)] [0, 0, 0] rfl 2 1 [7, 7] rfl).2.1,
    by decide, by decide⟩

/-! ## Names::Add -/

theorem Names.IsChain_set_off (mem : List Name) (a : Nat) (nm : Name) :
    ∀ (l : List Nat) (n : Option Nat), a ∉ l →
      Names.IsChain (mem.set a nm) n l = Names.IsChain mem n l := by
  intro l
  induction l with
  | nil => intro n _; cases n <;> rfl
  | cons b rest ih =>
    intro n hnot
    have hab : a ≠ b := fun e => hnot (by simp [e])
    have hrest : a ∉ rest := fun e => hnot (by simp [e])
    cases n with
    | none => rfl
    | some k =>
      simp only [Names.IsChain, List.getElem?_set_ne hab]
      cases mem[b]? with
      | none => rfl
      | some x => simp only [ih x.next_ hrest]

/-- Adding a `Name` that is on no list (its `next_` is null and it is not on the list of
the `Names`) puts it in front of the list, which stays a finite chain without
repetition. -/
theorem Names.Add_fresh (self : Names) (mem : List Name) (name : Nat) (nm : Name)
    (addrs : List Nat) (hchain : Names.IsChain mem self.list_ addrs = true)
    (hm : mem[name]? = some nm) (hnext : nm.next_ = none) (hnot : name ∉ addrs) :
    Names.Add self mem name =
        some (Outcome.ok (⟨some name⟩, mem.set name { nm with next_ := self.list_ })) ∧
      Names.IsChain (mem.set name { nm with next_ := self.list_ }) (some name)
        (name :: addrs) = true := by
  have hlt : name < mem.length := (List.getElem?_eq_some.mp hm).1
  refine ⟨by simp [Names.Add, hm, hnext], ?_⟩
  rw [Names.IsChain_cons]
  refine ⟨rfl, { nm with next_ := self.list_ }, by simp [List.getElem?_set_self hlt], ?_⟩
  simp only
  rw [Names.IsChain_set_off mem name _ addrs self.list_ hnot]
  exact hchain

/-- Adding a `Name` whose `next_` is not null aborts. -/
theorem Names.Add_linked_aborts (self : Names) (mem : List Name) (name : Nat) (nm : Name)
    (hm : mem[name]? = some nm) (hnext : nm.next_ ≠ none) :
    Names.Add self mem name = some Outcome.abort := by
  simp [Names.Add, hm, hnext]

theorem Names.IsChain_self_loop (mem : List Name) (a : Nat) (nm : Name)
    (hm : mem[a]? = some nm) (hnext : nm.next_ = some a) :
    ∀ addrs : List Nat, Names.IsChain mem (some a) addrs = false := by
  intro addrs
  induction addrs with
  | nil => rfl
  | cons b rest ih =>
    by_cases hab : a = b
    · subst hab
      simp only [Names.IsChain, hm, hnext, ih, Bool.and_false]
    · simp [Names.IsChain, hab]

theorem Names.Bind.loop_self_loop (look : Store → String → Store × Handle)
    (store : StorePtr) (a : Nat) :
    ∀ (fuel : Nat) (mem : List Name) (s : Store) (acc : Bool),
      (∃ nm, mem[a]? = some nm ∧ nm.next_ = some a) →
      Names.Bind.loop look store fuel mem (some a) s acc = none := by
  intro fuel
  induction fuel with
  | zero => intro mem s acc _; rfl
  | succ fuel ih =>
    intro mem s acc h
    obtain ⟨nm, hm, hnext⟩ := h
    have hlt : a < mem.length := (List.getElem?_eq_some.mp hm).1
    simp only [Names.Bind.loop, hm, hnext]
    split
    · exact ih mem _ _ ⟨nm, hm, hnext⟩
    · exact ih _ _ _ ⟨_, List.getElem?_set_self hlt, rfl⟩

/-- C30: a `Name` that is registered first in a `Names` object and then added again
passes `CHECK(name->next_ == nullptr)`, because the first name on the list is its last
element; afterwards its `next_` points to itself, the list is no finite chain, and
`Names::Bind` does not reach the end of the list within any number of iterations. -/
theorem Names.Add_first_name_twice_makes_cycle :
    Names.Add ⟨none⟩ Example.oneName 0 = some (Outcome.ok (⟨some 0⟩, Example.oneName)) ∧
      Names.IsChain Example.oneName (some 0) [0] = true ∧
      Names.Add ⟨some 0⟩ Example.oneName 0 =
        some (Outcome.ok (⟨some 0⟩, [⟨Handle.nil, "a", none, some 0⟩])) ∧
      (∀ addrs : List Nat,
        Names.IsChain [⟨Handle.nil, "a", none, some 0⟩] (some 0) addrs = false) ∧
      (∀ (store : StorePtr) (s : Store) (fuel : Nat),
        Names.Bind ⟨some 0⟩ [⟨Handle.nil, "a", none, some 0⟩] store s fuel = none) := by
  refine ⟨by decide, by decide, by decide, ?_, ?_⟩
  · exact Names.IsChain_self_loop _ 0 ⟨Handle.nil, "a", none, some 0⟩ rfl rfl
  · intro store s fuel
    exact Names.Bind.loop_self_loop Store.Lookup store 0 fuel _ s true
      ⟨⟨Handle.nil, "a", none, some 0⟩, rfl, rfl⟩

/-! ## Dereferencing of slot values by the typed views -/

/-- GetString and GetText dereference a slot value only when it is a reference other
than nil. -/
theorem Frame.GetString_derefs_only_references (self : Frame) (name h : Handle) :
    (h ∈ Frame.GetString.derefs self name → h.IsRef = true ∧ h.IsNil = false) ∧
      (h ∈ Frame.GetText.derefs self name → h.IsRef = true ∧ h.IsNil = false) := by
  constructor
  · intro hm
    unfold Frame.GetString.derefs at hm
    cases hf : self.frame with
    | none => simp [hf] at hm
    | some f =>
      simp only [hf] at hm
      by_cases hc : ((f.get name).IsRef && !(f.get name).IsNil) = true
      · simp only [hc, if_true, List.mem_singleton] at hm
        subst hm
        simpa using hc
      · simp [hc] at hm
  · intro hm
    unfold Frame.GetText.derefs at hm
    cases hf : self.frame with
    | none => simp [hf] at hm
    | some f =>
      simp only [hf] at hm
      by_cases hc : ((f.get name).IsRef && !(f.get name).IsNil) = true
      · simp only [hc, if_true, List.mem_singleton] at hm
        subst hm
        simpa using hc
      · simp [hc] at hm

/-- Id dereferences the value of the id slot whenever it is not nil, reference or
not. -/
theorem Frame.Id_derefs_every_non_nil_id (self : Frame) (f : FrameDatum)
    (hn : self.handle.IsNil = false) (hf : self.frame = some f)
    (hid : (f.get Handle.id).IsNil = false) :
    Frame.Id.derefs self = [f.get Handle.id] ∧ Frame.IdStr.derefs self = [f.get Handle.id] := by
  simp [Frame.Id.derefs, Frame.IdStr.derefs, hn, hf, hid]

/-- C22: for the frame created by a Builder after AddId of the inline integer handle 5,
whose id slot holds an inline integer, Id() and IdStr() pass the integer handle to Store::Deref,
and their result is undefined instead of the empty string; GetString and GetText on the
same slot dereference nothing and return the empty string. -/
theorem Frame.Id_dereferences_inline_id :
    ((Builder.new Example.emptyStore).AddId (Handle.int 5)).Create.frame =
        some { proxy := false, slots := [{ name := Handle.id, value := Handle.int 5 }] } ∧
      (Handle.int 5).IsRef = false ∧
      Frame.Id.derefs ((Builder.new Example.emptyStore).AddId (Handle.int 5)).Create =
        [Handle.int 5] ∧
      Frame.IdStr.derefs ((Builder.new Example.emptyStore).AddId (Handle.int 5)).Create =
        [Handle.int 5] ∧
      Frame.Id ((Builder.new Example.emptyStore).AddId (Handle.int 5)).Create = none ∧
      Frame.IdStr ((Builder.new Example.emptyStore).AddId (Handle.int 5)).Create = none ∧
      Frame.GetString.derefs ((Builder.new Example.emptyStore).AddId (Handle.int 5)).Create
        Handle.id = [] ∧
      Frame.GetString ((Builder.new Example.emptyStore).AddId (Handle.int 5)).Create
        Handle.id = some "" := by
  decide

/-! ## Collection -/

theorem Store.mem_locals (s : Store) (i : Nat) :
    ∀ hs : List Handle, i ∈ s.locals hs ↔ Handle.localRef i ∈ hs ∧ i < s.heap.length := by
  intro hs
  induction hs with
  | nil => simp [Store.locals]
  | cons h rest ih =>
    cases h with
    | localRef k =>
      by_cases hk : k < s.heap.length
      · simp only [Store.locals, hk, if_true, List.mem_cons, ih, Handle.localRef.injEq]
        constructor
        · rintro (rfl | ⟨h1, h2⟩)
          · exact ⟨Or.inl rfl, hk⟩
          · exact ⟨Or.inr h1, h2⟩
        · rintro ⟨rfl | h1, h2⟩
          · exact Or.inl rfl
          · exact Or.inr ⟨h1, h2⟩
      · simp only [Store.locals, hk, if_false, List.mem_cons, ih, Handle.localRef.injEq]
        constructor
        · rintro ⟨h1, h2⟩
          exact ⟨Or.inr h1, h2⟩
        · rintro ⟨rfl | h1, h2⟩
          · exact absurd h2 hk
          · exact ⟨h1, h2⟩
    | nil => simp [Store.locals, ih]
    | int v => simp [Store.locals, ih]
    | float v => simp [Store.locals, ih]
    | globalRef k => simp [Store.locals, ih]

theorem Store.successors_lt (s : Store) (j i : Nat) (h : i ∈ s.successors j) :
    i < s.heap.length := by
  unfold Store.successors at h
  cases hd : s.heap[j]? with
  | none => simp [hd] at h
  | some d =>
    simp only [hd] at h
    exact ((Store.mem_locals s i _).mp h).2

theorem Store.Collect.mem_step (s : Store) (marked : List Nat) (i : Nat) :
    i ∈ Store.Collect.step s marked ↔ i ∈ marked ∨ ∃ j ∈ marked, i ∈ s.successors j := by
  simp only [Store.Collect.step, List.mem_dedup, List.mem_append, List.mem_flatten,
    List.mem_map]
  constructor
  · rintro (h | ⟨l, ⟨j, hj, rfl⟩, hi⟩)
    · exact Or.inl h
    · exact Or.inr ⟨j, hj, hi⟩
  · rintro (h | ⟨j, hj, hi⟩)
    · exact Or.inl h
    · exact Or.inr ⟨_, ⟨j, hj, rfl⟩, hi⟩

theorem Store.Collect.Closed_congr (s : Store) (m1 m2 : List Nat)
    (h : ∀ i, i ∈ m1 ↔ i ∈ m2) (hc : Store.Collect.Closed s m2) :
    Store.Collect.Closed s m1 :=
  fun j hj i hi => (h i).mpr (hc j ((h j).mp hj) i hi)

theorem Store.Collect.step_of_Closed (s : Store) (marked : List Nat)
    (hc : Store.Collect.Closed s marked) (i : Nat) :
    i ∈ Store.Collect.step s marked ↔ i ∈ marked := by
  rw [Store.Collect.mem_step]
  constructor
  · rintro (h | ⟨j, hj, hi⟩)
    · exact h
    · exact hc j hj i hi
  · exact Or.inl

theorem Store.Collect.trace_of_Closed (s : Store) :
    ∀ (rounds : Nat) (marked : List Nat), Store.Collect.Closed s marked →
      ∀ i, i ∈ Store.Collect.trace s rounds marked ↔ i ∈ marked := by
  intro rounds
  induction rounds with
  | zero => intro marked _ i; rfl
  | succ rounds ih =>
    intro marked hc i
    have h1 := Store.Collect.step_of_Closed s marked hc
    have h2 := Store.Collect.Closed_congr s _ marked h1 hc
    simp only [Store.Collect.trace]
    rw [ih _ h2 i, h1 i]

theorem Store.Collect.mem_trace_of_mem (s : Store) :
    ∀ (rounds : Nat) (marked : List Nat) (i : Nat), i ∈ marked →
      i ∈ Store.Collect.trace s rounds marked := by
  intro rounds
  induction rounds with
  | zero => intro marked i h; exact h
  | succ rounds ih =>
    intro marked i h
    exact ih _ i ((Store.Collect.mem_step s marked i).mpr (Or.inl h))

theorem Store.Collect.trace_sound (s : Store) (roots : List Handle) :
    ∀ (rounds : Nat) (marked : List Nat), (∀ i ∈ marked, Store.Reachable s roots i) →
      ∀ i ∈ Store.Collect.trace s rounds marked, Store.Reachable s roots i := by
  intro rounds
  induction rounds with
  | zero => intro marked h i hi; exact h i hi
  | succ rounds ih =>
    intro marked h i hi
    refine ih (Store.Collect.step s marked) ?_ i hi
    intro k hk
    rcases (Store.Collect.mem_step s marked k).mp hk with h1 | ⟨j, hj, hkj⟩
    · exact h k h1
    · exact Store.Reachable.ref j k (h j hj) hkj

theorem Store.Collect.trace_Closed (s : Store) :
    ∀ (rounds : Nat) (marked : List Nat), (∀ i ∈ marked, i < s.heap.length) →
      s.heap.length - marked.toFinset.card ≤ rounds →
      Store.Collect.Closed s (Store.Collect.trace s rounds marked) := by
  intro rounds
  induction rounds with
  | zero =>
    intro marked hv hcard j _ i hi
    have hsub : marked.toFinset ⊆ Finset.range s.heap.length := by
      intro k hk
      exact Finset.mem_range.mpr (hv k (List.mem_toFinset.mp hk))
    have heq : marked.toFinset = Finset.range s.heap.length :=
      Finset.eq_of_subset_of_card_le hsub (by rw [Finset.card_range]; omega)
    have : i ∈ marked.toFinset := by
      rw [heq]
      exact Finset.mem_range.mpr (Store.successors_lt s j i hi)
    exact List.mem_toFinset.mp this
  | succ rounds ih =>
    intro marked hv hcard
    have hv2 : ∀ i ∈ Store.Collect.step s marked, i < s.heap.length := by
      intro i hi
      rcases (Store.Collect.mem_step s marked i).mp hi with h1 | ⟨j, _, hij⟩
      · exact hv i h1
      · exact Store.successors_lt s j i hij
    have hsub : marked.toFinset ⊆ (Store.Collect.step s marked).toFinset := by
      intro k hk
      exact List.mem_toFinset.mpr
        ((Store.Collect.mem_step s marked k).mpr (Or.inl (List.mem_toFinset.mp hk)))
    simp only [Store.Collect.trace]
    by_cases hgrow : marked.toFinset.card < (Store.Collect.step s marked).toFinset.card
    · exact ih _ hv2 (by omega)
    · have heq : marked.toFinset = (Store.Collect.step s marked).toFinset :=
        Finset.eq_of_subset_of_card_le hsub (by omega)
      have hmem : ∀ i, i ∈ Store.Collect.step s marked ↔ i ∈ marked := by
        intro i
        rw [← List.mem_toFinset, ← heq, List.mem_toFinset]
      have hc : Store.Collect.Closed s marked := by
        intro j hj i hi
        exact (hmem i).mp ((Store.Collect.mem_step s marked i).mpr (Or.inr ⟨j, hj, hi⟩))
      have hc2 := Store.Collect.Closed_congr s _ marked hmem hc
      exact Store.Collect.Closed_congr s _ _
        (Store.Collect.trace_of_Closed s rounds _ hc2) hc2

/-- Tracing marks exactly the objects in the transitive closure of the roots. -/
theorem Store.Collect.trace_iff_Reachable (s : Store) (roots : List Handle) (i : Nat) :
    i ∈ Store.Collect.trace s s.heap.length (s.locals roots) ↔ Store.Reachable s roots i := by
  constructor
  · exact Store.Collect.trace_sound s roots _ _ (fun k hk => Store.Reachable.root k hk) i
  · intro h
    have hv : ∀ k ∈ s.locals roots, k < s.heap.length :=
      fun k hk => ((Store.mem_locals s k roots).mp hk).2
    have hc := Store.Collect.trace_Closed s s.heap.length (s.locals roots) hv (Nat.sub_le _ _)
    induction h with
    | root k hk => exact Store.Collect.mem_trace_of_mem s _ _ k hk
    | ref j k _ hjk ih => exact hc j ih k hjk

theorem Store.Reachable_lt (s : Store) (roots : List Handle) (i : Nat)
    (h : Store.Reachable s roots i) : i < s.heap.length := by
  cases h with
  | root _ hk => exact ((Store.mem_locals s i roots).mp hk).2
  | ref j _ _ hjk => exact Store.successors_lt s j i hjk

theorem Store.Collect.mem_survivors (s : Store) (locked externals : List Handle) (i : Nat) :
    i ∈ Store.Collect.survivors s locked externals ↔
      Store.Reachable s (s.RootSet locked externals) i := by
  simp only [Store.Collect.survivors, List.mem_filter, List.mem_range, decide_eq_true_eq,
    Store.Collect.trace_iff_Reachable]
  exact ⟨fun h => h.2, fun h => ⟨Store.Reachable_lt s _ i h, h⟩⟩

theorem Store.Collect.survivors_nodup (s : Store) (locked externals : List Handle) :
    (Store.Collect.survivors s locked externals).Nodup :=
  (List.nodup_range _).filter _

theorem List.getElem?_filterMap_of_forall_some {α β : Type} (f : α → Option β) :
    ∀ (l : List α) (k : Nat), (∀ a ∈ l, (f a).isSome = true) →
      (l.filterMap f)[k]? = (l[k]?).bind f := by
  intro l
  induction l with
  | nil => intro k _; simp
  | cons a rest ih =>
    intro k h
    obtain ⟨b, hb⟩ := Option.isSome_iff_exists.mp (h a (List.mem_cons_self _ _))
    rw [List.filterMap_cons_some hb]
    cases k with
    | zero => simp [hb]
    | succ k =>
      simp only [List.getElem?_cons_succ]
      exact ih k (fun x hx => h x (List.mem_cons_of_mem _ hx))

theorem List.length_filterMap_of_forall_some {α β : Type} (f : α → Option β) :
    ∀ (l : List α), (∀ a ∈ l, (f a).isSome = true) → (l.filterMap f).length = l.length := by
  intro l
  induction l with
  | nil => intro _; rfl
  | cons a rest ih =>
    intro h
    obtain ⟨b, hb⟩ := Option.isSome_iff_exists.mp (h a (List.mem_cons_self _ _))
    rw [List.filterMap_cons_some hb, List.length_cons, List.length_cons,
      ih (fun x hx => h x (List.mem_cons_of_mem _ hx))]

theorem Store.Collect.survivor_isSome (s : Store) (locked externals : List Handle) :
    ∀ i ∈ Store.Collect.survivors s locked externals,
      ((s.heap[i]?).map
        (Datum.relocate (Store.Collect.survivors s locked externals))).isSome = true := by
  intro i hi
  have hlt : i < s.heap.length :=
    Store.Reachable_lt s _ i ((Store.Collect.mem_survivors s locked externals i).mp hi)
  simp [List.getElem?_eq_getElem hlt]

/-- After a collection the patched handle of a surviving object denotes the relocated
object. -/
theorem Store.Collect.Deref_survivor (s : Store) (locked externals : List Handle) (i : Nat)
    (d : Datum) (hi : i ∈ Store.Collect.survivors s locked externals)
    (hd : s.heap[i]? = some d) :
    (s.Collect locked externals).store.Deref
        ((Handle.localRef i).relocate (Store.Collect.survivors s locked externals)) =
      some (d.relocate (Store.Collect.survivors s locked externals)) := by
  have hidx : (Store.Collect.survivors s locked externals).indexOf i <
      (Store.Collect.survivors s locked externals).length := List.indexOf_lt_length.mpr hi
  simp only [Handle.relocate, Store.Collect, Store.Deref]
  rw [List.getElem?_filterMap_of_forall_some _ _ _
    (Store.Collect.survivor_isSome s locked externals), List.getElem?_eq_getElem hidx,
    List.getElem_indexOf hidx]
  simp [hd]

/-- After a collection the patched handle of a reclaimed object denotes nothing. -/
theorem Store.Collect.Deref_reclaimed (s : Store) (locked externals : List Handle) (i : Nat)
    (hi : i ∉ Store.Collect.survivors s locked externals) :
    (s.Collect locked externals).store.Deref
        ((Handle.localRef i).relocate (Store.Collect.survivors s locked externals)) = none := by
  simp only [Handle.relocate, Store.Collect, Store.Deref]
  rw [List.indexOf_eq_length.mpr hi, List.getElem?_eq_none]
  rw [List.length_filterMap_of_forall_some _ _
    (Store.Collect.survivor_isSome s locked externals)]

/-- C23: after a collection the objects of the local heap that remain are exactly those
in the transitive closure of the root set (the handles of the locked views, the pending
slots of the builders and the symbol table, which is empty when nothing was interned):
the heap holds one object for each of them and no other, distinct objects stay
distinct, each is the object it was with its handles patched, every handle held by the
root set or by a surviving object denotes, once patched, the object it denoted before,
the locked views and the pending slots hold the patched handles, and the handle of any
other object denotes nothing. -/
theorem Store.Collect_keeps_exactly_the_reachable (s : Store) (locked : List Handle)
    (pending : List Slot) :
    (∀ i : Nat, i ∈ Store.Collect.survivors s locked (Space.handles pending) ↔
      Store.Reachable s (s.RootSet locked (Space.handles pending)) i) ∧
    (s.Collect locked (Space.handles pending)).store.heap.length =
      (Store.Collect.survivors s locked (Space.handles pending)).length ∧
    (∀ i j : Nat, Store.Reachable s (s.RootSet locked (Space.handles pending)) i →
      Store.Reachable s (s.RootSet locked (Space.handles pending)) j →
      (Handle.localRef i).relocate (Store.Collect.survivors s locked (Space.handles pending)) =
        (Handle.localRef j).relocate
          (Store.Collect.survivors s locked (Space.handles pending)) →
      i = j) ∧
    (∀ (i : Nat) (d : Datum),
      Store.Reachable s (s.RootSet locked (Space.handles pending)) i → s.heap[i]? = some d →
      (s.Collect locked (Space.handles pending)).store.Deref
          ((Handle.localRef i).relocate
            (Store.Collect.survivors s locked (Space.handles pending))) =
        some (d.relocate (Store.Collect.survivors s locked (Space.handles pending)))) ∧
    (∀ (h : Handle) (x : Datum),
      (h ∈ s.RootSet locked (Space.handles pending) ∨
        ∃ (i : Nat) (d : Datum),
          Store.Reachable s (s.RootSet locked (Space.handles pending)) i ∧
            s.heap[i]? = some d ∧ h ∈ d.handles) →
      s.Deref h = some x →
      (s.Collect locked (Space.handles pending)).store.Deref
          (h.relocate (Store.Collect.survivors s locked (Space.handles pending))) =
        some (h.relocated (Store.Collect.survivors s locked (Space.handles pending)) x)) ∧
    (∀ (k : Nat) (h : Handle), (locked ++ Space.handles pending)[k]? = some h →
      ((s.Collect locked (Space.handles pending)).locked ++
          (s.Collect locked (Space.handles pending)).externals)[k]? =
        some (h.relocate (Store.Collect.survivors s locked (Space.handles pending)))) ∧
    (∀ i : Nat, ¬ Store.Reachable s (s.RootSet locked (Space.handles pending)) i →
      (s.Collect locked (Space.handles pending)).store.Deref
          ((Handle.localRef i).relocate
            (Store.Collect.survivors s locked (Space.handles pending))) = none) ∧
    (s.symbols = [] →
      s.RootSet locked (Space.handles pending) = locked ++ Space.handles pending) := by
  have hmem := Store.Collect.mem_survivors s locked (Space.handles pending)
  refine ⟨hmem, ?_, ?_, ?_, ?_, ?_, ?_, ?_⟩
  · simp only [Store.Collect]
    exact List.length_filterMap_of_forall_some _ _
      (Store.Collect.survivor_isSome s locked (Space.handles pending))
  · intro i j hi hj heq
    simp only [Handle.relocate, Handle.localRef.injEq] at heq
    exact (List.indexOf_inj ((hmem i).mpr hi) ((hmem j).mpr hj)).mp heq
  · intro i d hi hd
    exact Store.Collect.Deref_survivor s locked _ i d ((hmem i).mpr hi) hd
  · intro h x hheld hx
    cases h with
    | localRef i =>
      simp only [Store.Deref] at hx
      have hlt : i < s.heap.length := (List.getElem?_eq_some.mp hx).1
      have hr : Store.Reachable s (s.RootSet locked (Space.handles pending)) i := by
        rcases hheld with hroot | ⟨j, d, hj, hd, hin⟩
        · exact Store.Reachable.root i ((Store.mem_locals s i _).mpr ⟨hroot, hlt⟩)
        · refine Store.Reachable.ref j i hj ?_
          simp only [Store.successors, hd]
          exact (Store.mem_locals s i _).mpr ⟨hin, hlt⟩
      exact Store.Collect.Deref_survivor s locked _ i x ((hmem i).mpr hr) hx
    | globalRef i => exact hx
    | nil => cases hx
    | int v => cases hx
    | float v => cases hx
  · intro k h hk
    simp only [Store.Collect, ← List.map_append, List.getElem?_map, hk, Option.map_some']
  · intro i hi
    exact Store.Collect.Deref_reclaimed s locked _ i (fun h => hi ((hmem i).mp h))
  · intro hs
    simp [Store.RootSet, hs]

/-- C23, at the three-frame store with a locked view of frame 1: frame 0 is reclaimed,
frame 1 moves to index 0 and frame 2, which it references, to index 1; the view and the
slot of frame 1 hold the patched handles, which denote the frames they denoted. -/
theorem Store.Collect_keeps_exactly_the_reachable_witness :
    Example.threeFrameStore.Collect [Handle.localRef 1] (Space.handles []) =
        ⟨⟨[], [Datum.frame ⟨false, [⟨Handle.globalRef 7, Handle.localRef 1⟩]⟩,
               Datum.frame ⟨false, [⟨Handle.globalRef 7, Handle.int 2⟩]⟩], []⟩,
          [Handle.localRef 0], []⟩ ∧
      (Example.threeFrameStore.Collect [Handle.localRef 1] (Space.handles [])).store.Deref
          ((Handle.localRef 1).relocate
            (Store.Collect.survivors Example.threeFrameStore [Handle.localRef 1]
              (Space.handles []))) =
        some ((Handle.localRef 1).relocated
          (Store.Collect.survivors Example.threeFrameStore [Handle.localRef 1]
            (Space.handles []))
          (Datum.frame ⟨false, [⟨Handle.globalRef 7, Handle.localRef 2⟩]⟩)) :=
  ⟨by decide,
    (Store.Collect_keeps_exactly_the_reachable Example.threeFrameStore [Handle.localRef 1]
      []).2.2.2.2.1 (Handle.localRef 1) _ (Or.inl (by decide)) (by decide)⟩

end Sling
